import Mathlib

/-!
# beautiful-number: a shallow embedding of `task.cpp`

`task.cpp` reads a numeral `base` and a digit count `order` and prints how many
`order`-digit strings over the digits `0 .. base-1` are *beautiful*: the digit sum of the
first `order / 2` digits equals the digit sum of the last `order / 2` digits.

The embedding follows the source function by function.

* `uint64_t` values are natural numbers below `2 ^ 64`; every unchecked C++ operation is
  written with an explicit `% 2 ^ 64`.
* A C++ exception, a failed `assert`, an access outside the allocated buffer and a loop
  that is still running when the iteration budget `fuel` is used up are the constructors
  of `Fault`; fallible code returns `Except Fault _`.
* The heap block `buffer_sums` is a `List Nat`; a `std::span` into it is an offset and a
  length, and every access is bounds-checked.
* The target is LP64 (`unsigned long` has 64 bits, which `__builtin_umull_overflow` on
  `uint64_t` requires).  The value of `std::thread::hardware_concurrency()` and the number of
  counters per cache line are parameters.  Running out of memory or of threads is not
  modelled: an allocation fails only when its length exceeds the limit of the language
  implementation.
* Background tasks write only through their own span, so they are run one after another
  in launch order; the order in which the merge loop finds them finished is the parameter
  `ready`.
-/

namespace BeautifulNumber

/-- Ways in which a run of the program ends without a result. -/
inductive Fault where
  /-- The exception `std::overflow_error` of `plus` and `mul`, with both operands. -/
  | overflow_error (l r : Nat)
  /-- The exception `std::invalid_argument` of `parse`. -/
  | invalid_argument
  /-- The exception `std::length_error` of the `std::vector` constructor. -/
  | length_error
  /-- The exception `std::bad_array_new_length` of `std::make_unique<uint64_t[]>`. -/
  | bad_array_new_length
  /-- Fewer than two command line arguments: the usage message. -/
  | usage
  /-- A failed `assert`. -/
  | assertion
  /-- An access outside the allocated buffer (undefined behaviour). -/
  | out_of_bounds
  /-- A loop was still running when the iteration budget was used up. -/
  | out_of_fuel
  deriving DecidableEq

/-- Outcomes of fallible code can be compared. -/
instance decEqExcept {ε α : Type} [DecidableEq ε] [DecidableEq α] : DecidableEq (Except ε α)
  | .ok a, .ok b =>
    if h : a = b then isTrue (congrArg Except.ok h) else isFalse (fun h2 => h (Except.ok.inj h2))
  | .error a, .error b =>
    if h : a = b then isTrue (congrArg Except.error h)
    else isFalse (fun h2 => h (Except.error.inj h2))
  | .ok _, .error _ => isFalse (fun h => Except.noConfusion h)
  | .error _, .ok _ => isFalse (fun h => Except.noConfusion h)

/-- The fault is a C++ exception that `main` catches and reports on standard error. -/
def Fault.raised : Fault → Bool
  | .overflow_error _ _ => true
  | .invalid_argument => true
  | .length_error => true
  | .bad_array_new_length => true
  | _ => false

/-- The constant `kAsyncCountFactor` (task.cpp:23). -/
def kAsyncCountFactor : Nat := 600000

/-- Largest length the constructor of `std::vector<std::future<std::span<uint64_t>>>`
accepts: `PTRDIFF_MAX / sizeof(std::future<...>)` with a 16-byte future.  The lengths the
program passes are below `2 ^ 32` or equal to `2 ^ 64 - 1`, so only the order of magnitude
of this limit matters. -/
def vector_max_size : Nat := (2 ^ 63 - 1) / 16

/-- Largest length `new uint64_t[n]` accepts before it throws
`std::bad_array_new_length`: `PTRDIFF_MAX / sizeof(uint64_t)`. -/
def array_new_max_length : Nat := (2 ^ 63 - 1) / 8

/-- Checked multiplication `mul` (task.cpp:25-32): `__builtin_umull_overflow` stores the
wrapped product and reports whether the exact product does not fit. -/
def mul (l r : Nat) : Except Fault Nat :=
  let x := (l * r) % 2 ^ 64
  if 2 ^ 64 ≤ l * r then .error (.overflow_error l r) else .ok x

/-- Checked addition `plus` (task.cpp:34-41): `__builtin_add_overflow` stores the wrapped
sum and reports whether the exact sum does not fit. -/
def plus (l r : Nat) : Except Fault Nat :=
  let x := (l + r) % 2 ^ 64
  if 2 ^ 64 ≤ l + r then .error (.overflow_error l r) else .ok x

/-- Inner loop of `work` (task.cpp:73-76): `for (auto t = v; t;) { x += t % base; t /= base; }`.
The first argument is the iteration budget. -/
def digit_loop (base : Nat) : Nat → Nat → Nat → Except Fault Nat
  | 0, _, _ => .error .out_of_fuel
  | fuel + 1, x, t =>
    if t = 0 then .ok x
    else digit_loop base fuel ((x + t % base) % 2 ^ 64) (t / base)

/-- Outer loop of `work` (task.cpp:71-79): `for (auto v = v_min; v <= v_max; ++v)`.
The span `sums` is the part of `mem` that starts at `off` and has `size` counters.
The argument before `v` is the iteration budget of this loop; `fuel` is the budget of
each inner loop. -/
def work_loop (fuel base v_max off size : Nat) : Nat → Nat → List Nat → Except Fault (List Nat)
  | 0, _, _ => .error .out_of_fuel
  | n + 1, v, mem =>
    if v ≤ v_max then
      match digit_loop base fuel 0 v with
      | .error e => .error e
      | .ok x =>
        if x < size then
          match mem[off + x]? with
          | none => .error .out_of_bounds
          | some cnt => work_loop fuel base v_max off size n ((v + 1) % 2 ^ 64)
              (mem.set (off + x) ((cnt + 1) % 2 ^ 64))
        else .error .assertion
    else .ok mem

/-- The function `work` (task.cpp:63-82): counts, for every `v` of `[v_min, v_max]`, the digit
sum of `v` in the counter of that sum.  The result is the buffer; the returned span is the
argument span `(off, size)`. -/
def work (fuel v_min v_max base off size : Nat) (mem : List Nat) : Except Fault (List Nat) :=
  if base = 0 then .error .assertion
  else work_loop fuel base v_max off size fuel v_min mem

/-- Loop of `v_max_compute` (task.cpp:92-94):
`for (auto m = T{1}; order; v = plus(v, mul(m, base - 1)), m = mul(m, base), --order)`. -/
def v_max_loop (base : Nat) : Nat → Nat → Nat → Except Fault Nat
  | 0, v, _ => .ok v
  | order + 1, v, m => do
    let t ← mul m ((base + 2 ^ 64 - 1) % 2 ^ 64)
    let v1 ← plus v t
    let m1 ← mul m base
    v_max_loop base order v1 m1

/-- The function `v_max_compute` (task.cpp:84-96). -/
def v_max_compute (base order : Nat) : Except Fault Nat :=
  v_max_loop base order 0 1

/-- The function `div_round_up` (task.cpp:98-102): `assert(0 != d); return (v + d - 1) / d;`
with the unchecked 64-bit sum. -/
def div_round_up (v d : Nat) : Except Fault Nat :=
  if d = 0 then .error .assertion else .ok (((v + d - 1) % 2 ^ 64) / d)

/-- What `main` has computed when the buffer is allocated (task.cpp:122-171). -/
structure Plan where
  /-- The local `max_sum`. -/
  max_sum : Nat
  /-- The local `v_max`. -/
  v_max : Nat
  /-- The local `v_count`. -/
  v_count : Nat
  /-- The length `asyncs.size()` of the vector of futures. -/
  asyncs_size : Nat
  /-- The local `works_nr`. -/
  works_nr : Nat
  /-- The local `u64_chunks_nr_per_work`, the stride between two spans. -/
  u64_chunks_nr_per_work : Nat
  /-- The number of counters of `buffer_sums`. -/
  buffer_size : Nat
  deriving DecidableEq

/-- The planning part of `main` (task.cpp:122-171), from `half_order` to the allocation of
`buffer_sums`.  Here `hardware_concurrency` is the value of
`std::thread::hardware_concurrency()`, an `unsigned int`, and `c` is
`u64_chunks_nr_per_cache_line`. -/
def plan (hardware_concurrency c base order : Nat) : Except Fault Plan := do
  let half_order := order / 2
  let max_sum ← mul ((base + 2 ^ 64 - 1) % 2 ^ 64) half_order
  let v_min := 0
  let v_max ← v_max_compute base half_order
  let v_count := (v_max + 2 ^ 64 - v_min + 1) % 2 ^ 64
  let parallel_nr_max := max (hardware_concurrency % 2 ^ 32) 1
  let per_factor ← div_round_up v_count kAsyncCountFactor
  let asyncs_size := (min per_factor parallel_nr_max + 2 ^ 64 - 1) % 2 ^ 64
  if vector_max_size < asyncs_size then .error .length_error
  else do
    let works_nr := (asyncs_size + 1) % 2 ^ 64
    let per_line ← div_round_up ((max_sum + 1) % 2 ^ 64) c
    let u64_chunks_nr_per_work := (per_line * c) % 2 ^ 64
    let buffer_size ← mul u64_chunks_nr_per_work works_nr
    if array_new_max_length < buffer_size then .error .bad_array_new_length
    else .ok {
      max_sum := max_sum
      v_max := v_max
      v_count := v_count
      asyncs_size := asyncs_size
      works_nr := works_nr
      u64_chunks_nr_per_work := u64_chunks_nr_per_work
      buffer_size := buffer_size }

/-- The launch loop of `main` (task.cpp:180-195):
`for (async_work_nr = 0; async_work_nr < asyncs.size(); ++async_work_nr, v_min = v_min + v_step)`.
The first numeric argument counts the tasks still to be launched; the result is the final
`v_min` and the buffer after the tasks have run. -/
def launch (fuel base max_sum stride v_step : Nat) :
    Nat → Nat → Nat → List Nat → Except Fault (Nat × List Nat)
  | 0, _, v_min, mem => .ok (v_min, mem)
  | n + 1, async_work_nr, v_min, mem =>
    match work fuel v_min ((v_min + v_step + 2 ^ 64 - 1) % 2 ^ 64) base
        ((stride * async_work_nr) % 2 ^ 64) ((max_sum + 1) % 2 ^ 64) mem with
    | .error e => .error e
    | .ok mem1 =>
      launch fuel base max_sum stride v_step n (async_work_nr + 1) ((v_min + v_step) % 2 ^ 64) mem1

/-- The call `std::ranges::transform(result_sums, ait->get(), result_sums.begin(), plus)`
(task.cpp:223-224): counter `k` of the span at `result_off` becomes the checked sum of itself
and counter `k` of the span at `async_off`.  The first numeric argument counts the counters
still to be added. -/
def transform_plus (result_off async_off : Nat) : Nat → Nat → List Nat → Except Fault (List Nat)
  | 0, _, mem => .ok mem
  | n + 1, k, mem =>
    match mem[result_off + k]?, mem[async_off + k]? with
    | some a, some b =>
      match plus a b with
      | .error e => .error e
      | .ok s => transform_plus result_off async_off n (k + 1) (mem.set (result_off + k) s)
    | _, _ => .error .out_of_bounds

/-- The merge loop of `main` (task.cpp:206-234).  `asyncs` holds the offsets of the spans of
the pending tasks.  In each round that finds a finished task, `ready` gives the position in
`asyncs` at which `find_if` finds it; its histogram is added to `result_sums`, the task is
swapped with the last one and popped.  The first numeric argument is the number of pending
tasks. -/
def merge_loop (ready : Nat → Nat) (result_off size : Nat) :
    Nat → List Nat → List Nat → Except Fault (List Nat)
  | 0, _, mem => .ok mem
  | n + 1, asyncs, mem =>
    match asyncs.getLast? with
    | none => .ok mem
    | some last =>
      let i := ready n % asyncs.length
      match transform_plus result_off (asyncs.getD i 0) size 0 mem with
      | .error e => .error e
      | .ok mem1 => merge_loop ready result_off size n (asyncs.set i last).dropLast mem1

/-- The call `std::transform_reduce(first, last, first, 0, plus, mul)` (task.cpp:237-239) on
the counters of `result_sums`, folded from the left: `acc = plus(acc, mul(h, h))`.  The
standard leaves the grouping of the additions open; as all terms are natural numbers, the
grouping decides neither whether an overflow is raised nor the value, only the operands that
the error carries. -/
def transform_reduce : List Nat → Nat → Except Fault Nat
  | [], acc => .ok acc
  | h :: rest, acc => do
    let sq ← mul h h
    let acc1 ← plus acc sq
    transform_reduce rest acc1

/-- Reading the counters of the span `(off, size)` of the buffer. -/
def read_span (mem : List Nat) (off size : Nat) : Except Fault (List Nat) :=
  if off + size ≤ mem.length then .ok ((mem.drop off).take size) else .error .out_of_bounds

/-- The part of `main` between the allocation of `buffer_sums` and the end of the merge loop
(task.cpp:173-234): the background tasks are launched when there are at least two workers,
the calling thread runs `work` on the rest of the range, and the merge loop adds the
histograms of the background tasks to `result_sums`.  The result is `result_sums`. -/
def merged_histogram (fuel : Nat) (ready : Nat → Nat) (base : Nat) (p : Plan) :
    Except Fault (List Nat) := do
  let buffer_sums := List.replicate p.buffer_size 0
  let stride := p.u64_chunks_nr_per_work
  let launched ←
    if ¬ p.works_nr < 2 then
      launch fuel base p.max_sum stride (p.v_count / p.works_nr) p.asyncs_size 0 0 buffer_sums
    else .ok (0, buffer_sums)
  let result_off := (stride * ((p.works_nr + 2 ^ 64 - 1) % 2 ^ 64)) % 2 ^ 64
  let size := (p.max_sum + 1) % 2 ^ 64
  let mem1 ← work fuel launched.1 p.v_max base result_off size launched.2
  let asyncs := (List.range p.asyncs_size).map (fun i => (stride * i) % 2 ^ 64)
  let mem2 ← merge_loop ready result_off size asyncs.length asyncs mem1
  read_span mem2 result_off size

/-- The body of `main` after both arguments are parsed (task.cpp:120-246): the value that is
printed, or the fault that ends the run. -/
def compute (fuel hardware_concurrency c : Nat) (ready : Nat → Nat) (base order : Nat) :
    Except Fault Nat :=
  if 0 < base ∧ 0 < order then do
    let p ← plan hardware_concurrency c base order
    let result_sums ← merged_histogram fuel ready base p
    let result ← transform_reduce result_sums 0
    if order % 2 = 1 then mul result base else .ok result
  else .ok 0

/-- The test `isspace` of the C locale: space, and the controls `\t \n \v \f \r`. -/
def isspace (ch : Char) : Bool := ch.toNat = 32 || (9 ≤ ch.toNat && ch.toNat ≤ 13)

/-- The test `isdigit`: the characters `0` to `9`. -/
def isdigit (ch : Char) : Bool := 48 ≤ ch.toNat && ch.toNat ≤ 57

/-- The value of a run of decimal digits, most significant digit first; `acc` is the value
of the digits already read. -/
def decimal (acc : Nat) : List Char → Nat
  | [] => acc
  | ch :: rest => decimal (acc * 10 + (ch.toNat - 48)) rest

/-- What a call `strtoul(nptr, &p_end, 10)` leaves behind. -/
structure Strtoul where
  /-- The returned value. -/
  value : Nat
  /-- The distance `p_end - nptr`. -/
  consumed : Nat
  /-- Whether `errno` was set. -/
  errno : Bool
  deriving DecidableEq

/-- The sign that `strtoul` accepts in front of the digits: the string without it, and
whether it was a minus sign. -/
def strip_sign : List Char → List Char × Bool
  | ch :: rest => if ch.toNat = 43 then (rest, false) else if ch.toNat = 45 then (rest, true)
      else (ch :: rest, false)
  | [] => ([], false)

/-- The characters of `arg` after the leading white space and the one optional sign that
`strtoul` skips. -/
def unsigned_digits (arg : List Char) : List Char := (strip_sign (arg.dropWhile isspace)).1

/-- Whether the sign that `strtoul` skips in `arg` is a minus sign. -/
def has_minus (arg : List Char) : Bool := (strip_sign (arg.dropWhile isspace)).2

/-- The C library function `strtoul(nptr, &p_end, 10)` as ISO C 7.22.1.4 describes it for the
C locale, on the characters of the NUL-terminated string `nptr`: leading white space and one
optional sign are skipped, the longest run of decimal digits is converted, a value after a
minus sign is negated in `unsigned long`, a value that does not fit gives `ULONG_MAX` and
sets `errno` to `ERANGE`, and without any digit nothing is consumed.  ISO C leaves open
whether `errno` is set when there is no digit; `noconv_errno` tells whether the library
does so. -/
def strtoul (noconv_errno : Bool) (nptr : List Char) : Strtoul :=
  let unsigned_part := strip_sign (nptr.dropWhile isspace)
  let digits := unsigned_part.1.takeWhile isdigit
  if digits.isEmpty then { value := 0, consumed := 0, errno := noconv_errno }
  else
    let consumed := nptr.length - unsigned_part.1.length + digits.length
    let n := decimal 0 digits
    if 2 ^ 64 ≤ n then { value := 2 ^ 64 - 1, consumed := consumed, errno := true }
    else { value := if unsigned_part.2 then (2 ^ 64 - n) % 2 ^ 64 else n,
           consumed := consumed, errno := false }

/-- The function `parse` (task.cpp:43-61): `errno = 0; r = std::strtoul(arg.data(), &p_end, 10);`
and the exception when `errno` is set or `p_end` is before the end of `arg`. -/
def parse (noconv_errno : Bool) (arg : List Char) : Except Fault Nat :=
  let r := strtoul noconv_errno arg
  if r.errno ∨ r.consumed < arg.length then .error .invalid_argument else .ok r.value

/-- The function `main` (task.cpp:106-254) on the argument vector `argv`, the program name
first. -/
def main (fuel hardware_concurrency c : Nat) (ready : Nat → Nat) (noconv_errno : Bool)
    (argv : List (List Char)) : Except Fault Nat :=
  match argv with
  | _ :: arg1 :: arg2 :: _ =>
    match parse noconv_errno arg1 with
    | .error e => .error e
    | .ok base =>
      match parse noconv_errno arg2 with
      | .error e => .error e
      | .ok order => compute fuel hardware_concurrency c ready base order
  | _ => .error .usage

/-- Digit sum of `v` in base `base`. -/
def dsum (base v : Nat) : Nat := (Nat.digits base v).sum

/-- Number of values `v` of `[lo, lo + n)` whose digit sum in base `base` is `s`. -/
def cnt (base lo n s : Nat) : Nat := (List.range' lo n).countP (fun v => dsum base v == s)

/-- Counter `i` of a buffer (`0` outside it). -/
def cell (mem : List Nat) (i : Nat) : Nat := mem[i]?.getD 0

/-- The buffer `mem1` is `mem` with `f s` added to counter `s` of the span `(off, size)`, for
every `s`, and nothing else changed. -/
def SliceAdds (mem mem1 : List Nat) (off size : Nat) (f : Nat → Nat) : Prop :=
  mem1.length = mem.length ∧
    ∀ i, cell mem1 i = if off ≤ i ∧ i < off + size then cell mem i + f (i - off) else cell mem i

/-- Column sum: counter `s` added up over the spans that start at the offsets `asyncs`. -/
def col (mem asyncs : List Nat) (s : Nat) : Nat := (asyncs.map (fun a => cell mem (a + s))).sum

/-- The number of workers the planner derives from `v_count` when nothing wraps. -/
def works_nr_of (hardware_concurrency v_count : Nat) : Nat :=
  min ((v_count + kAsyncCountFactor - 1) / kAsyncCountFactor) (max (hardware_concurrency % 2 ^ 32) 1)

/-- The stride between two spans as the planner computes it from `max_sum`. -/
def stride_of (c max_sum : Nat) : Nat := ((max_sum + 1 + c - 1) % 2 ^ 64 / c * c) % 2 ^ 64

/-- The sum over the digit sums `s` of the square of the number of `h`-digit values with
digit sum `s`. -/
def square_sum (base h : Nat) : Nat :=
  ((List.range ((base - 1) * h + 1)).map
    (fun s => cnt base 0 (base ^ h) s * cnt base 0 (base ^ h) s)).sum

/-- The exact value, as a natural number, of the final reduction of `main`, the
multiplication by `base` for an odd `order` included. -/
def exact_result (base order : Nat) : Nat :=
  square_sum base (order / 2) * (if order % 2 = 1 then base else 1)

/-- All strings of `n` digits `0 .. base - 1`, leading zeros allowed, listed with the first
digit varying slowest. -/
def strings (base : Nat) : Nat → List (List Nat)
  | 0 => [[]]
  | n + 1 => (List.range base).flatMap (fun d => (strings base n).map (fun s => d :: s))

/-- A string of `order` digits is beautiful when its first `order / 2` digits and its last
`order / 2` digits have the same digit sum; for an odd `order` the middle digit is free. -/
def beautiful (order : Nat) (s : List Nat) : Bool :=
  (s.take (order / 2)).sum == (s.drop (order - order / 2)).sum

/-- Brute force: the number of beautiful strings among all `order`-digit strings. -/
def beautiful_count (base order : Nat) : Nat := (strings base order).countP (beautiful order)

/-- The number `H[s]` of `h`-digit strings with digit sum `s`. -/
def string_hist (base h s : Nat) : Nat := (strings base h).countP (fun l => l.sum == s)

/-- The quantity the spec describes: the sum, over all `order`-digit strings, of the square of
the digit sum of the string. -/
def digit_sum_square_total (base order : Nat) : Nat :=
  ((strings base order).map (fun s => s.sum ^ 2)).sum

/-- The histogram that `work` produces for the values `lo .. hi` on a zeroed span of `size`
counters of its own. -/
def range_histogram (fuel base size lo hi : Nat) : Except Fault (List Nat) :=
  work fuel lo hi base 0 size (List.replicate size 0)

/-- The histograms of a list of ranges `(lo, hi)`, in the order of the list. -/
def range_histograms (fuel base size : Nat) : List (Nat × Nat) → Except Fault (List (List Nat))
  | [] => .ok []
  | r :: rest =>
    match range_histogram fuel base size r.1 r.2 with
    | .error e => .error e
    | .ok h =>
      match range_histograms fuel base size rest with
      | .error e => .error e
      | .ok hs => .ok (h :: hs)

/-- Pointwise checked addition of the histogram `h` to the accumulator `acc`: the call of
`std::ranges::transform` with `plus` of the merge loop, run on a buffer that holds `acc`
followed by `h`. -/
def add_histogram (acc h : List Nat) : Except Fault (List Nat) :=
  match transform_plus 0 acc.length (min acc.length h.length) 0 (acc ++ h) with
  | .error e => .error e
  | .ok mem => .ok (mem.take acc.length)

/-- Merging histograms into the accumulator `acc`, one after the other in the order of the
list. -/
def merge_histograms : List Nat → List (List Nat) → Except Fault (List Nat)
  | acc, [] => .ok acc
  | acc, h :: rest =>
    match add_histogram acc h with
    | .error e => .error e
    | .ok acc1 => merge_histograms acc1 rest

/-- Merging a list of histograms: the first one is the accumulator, as the histogram of the
calling thread is in `main`. -/
def merge_all : List (List Nat) → Except Fault (List Nat)
  | [] => .ok []
  | h :: rest => merge_histograms h rest

/-- The contiguous sub-ranges `(lo, hi)` into which chunks of the lengths `ns` split the
values from `lo` on. -/
def split_ranges : Nat → List Nat → List (Nat × Nat)
  | _, [] => []
  | lo, n :: rest => (lo, lo + n - 1) :: split_ranges (lo + n) rest

/-- The worker counts of `main` (task.cpp:141-151) as a function of `v_count`: the length
`asyncs.size()` of the vector of futures and `works_nr`.  These are the steps of `plan` between
`v_count` and `works_nr`. -/
def plan_workers (hardware_concurrency v_count : Nat) : Except Fault (Nat × Nat) := do
  let parallel_nr_max := max (hardware_concurrency % 2 ^ 32) 1
  let per_factor ← div_round_up v_count kAsyncCountFactor
  let asyncs_size := (min per_factor parallel_nr_max + 2 ^ 64 - 1) % 2 ^ 64
  if vector_max_size < asyncs_size then .error .length_error
  else .ok (asyncs_size, (asyncs_size + 1) % 2 ^ 64)

/-- The ranges `(v_min, v_min + v_step - 1)` that the launch loop (task.cpp:180-195) hands to
the background tasks, in launch order.  The first numeric argument counts the tasks still to
be launched, the second is the current `v_min`. -/
def launch_ranges (v_step : Nat) : Nat → Nat → List (Nat × Nat)
  | 0, _ => []
  | n + 1, v_min =>
    (v_min, (v_min + v_step + 2 ^ 64 - 1) % 2 ^ 64) ::
      launch_ranges v_step n ((v_min + v_step) % 2 ^ 64)

/-- The value of `v_min` when the launch loop (task.cpp:180-195) ends. -/
def launch_v_min (v_step : Nat) : Nat → Nat → Nat
  | 0, v_min => v_min
  | n + 1, v_min => launch_v_min v_step n ((v_min + v_step) % 2 ^ 64)

/-- Running `work` on a list of ranges, the range at position `j` of the list on the span
number `i + j`. -/
def run_ranges (fuel base max_sum stride : Nat) :
    List (Nat × Nat) → Nat → List Nat → Except Fault (List Nat)
  | [], _, mem => .ok mem
  | r :: rest, i, mem =>
    match work fuel r.1 r.2 base ((stride * i) % 2 ^ 64) ((max_sum + 1) % 2 ^ 64) mem with
    | .error e => .error e
    | .ok mem1 => run_ranges fuel base max_sum stride rest (i + 1) mem1

/-- The ranges that `main` hands to `work` (task.cpp:177-203): those of the background tasks
when there are at least two workers, and then the range of the calling thread, from the final
`v_min` to `v_max`. -/
def assigned_ranges (v_count v_max asyncs_size works_nr : Nat) : List (Nat × Nat) :=
  if ¬ works_nr < 2 then
    launch_ranges (v_count / works_nr) asyncs_size 0 ++
      [(launch_v_min (v_count / works_nr) asyncs_size 0, v_max)]
  else [(0, v_max)]

/-- Whether some increment `++sums[x]` of the outer loop of `work` (task.cpp:71-79) wraps.
The function follows `work_loop` step by step. -/
def work_loop_wraps (fuel base v_max off size : Nat) : Nat → Nat → List Nat → Bool
  | 0, _, _ => false
  | n + 1, v, mem =>
    if v ≤ v_max then
      match digit_loop base fuel 0 v with
      | .error _ => false
      | .ok x =>
        if x < size then
          match mem[off + x]? with
          | none => false
          | some cnt =>
            if 2 ^ 64 ≤ cnt + 1 then true
            else work_loop_wraps fuel base v_max off size n ((v + 1) % 2 ^ 64)
              (mem.set (off + x) ((cnt + 1) % 2 ^ 64))
        else false
    else false

/-- Whether some increment `++sums[x]` of a run of `work` (task.cpp:63-82) wraps. -/
def work_wraps (fuel v_min v_max base off size : Nat) (mem : List Nat) : Bool :=
  if base = 0 then false
  else work_loop_wraps fuel base v_max off size fuel v_min mem

/-- The reduction as the spec words it: the sum over the digit sums `s` of `H[s] * s ^ 2`. -/
def weighted_square_sum (H : List Nat) : Nat :=
  ((List.range H.length).map (fun s => H.getD s 0 * s ^ 2)).sum

/-- The buffer `mem1` is `mem` with `f s` added modulo `2 ^ 64` to counter `s` of the span
`(off, size)`, for every `s`, and nothing else changed. -/
def SliceAddsMod (mem mem1 : List Nat) (off size : Nat) (f : Nat → Nat) : Prop :=
  mem1.length = mem.length ∧
    ∀ i, cell mem1 i =
      if off ≤ i ∧ i < off + size then (cell mem i + f (i - off)) % 2 ^ 64 else cell mem i

/-- The value `v` lies in the inclusive range `r = (lo, hi)`. -/
def in_range (v : Nat) (r : Nat × Nat) : Bool := decide (r.1 ≤ v) && decide (v ≤ r.2)

theorem mul_ok {l r : Nat} (h : l * r < 2 ^ 64) : mul l r = .ok (l * r) := by
  have h1 : ¬ 2 ^ 64 ≤ l * r := by omega
  simp only [mul, h1, if_false, Nat.mod_eq_of_lt h]

theorem mul_overflow {l r : Nat} (h : 2 ^ 64 ≤ l * r) :
    mul l r = .error (.overflow_error l r) := by
  simp only [mul, h, if_true]

theorem plus_overflow {l r : Nat} (h : 2 ^ 64 ≤ l + r) :
    plus l r = .error (.overflow_error l r) := by
  simp only [plus, h, if_true]

theorem plus_ok {l r : Nat} (h : l + r < 2 ^ 64) : plus l r = .ok (l + r) := by
  have h1 : ¬ 2 ^ 64 ≤ l + r := by omega
  simp only [plus, h1, if_false, Nat.mod_eq_of_lt h]

theorem pred_base {base : Nat} (h1 : 0 < base) (h2 : base < 2 ^ 64) :
    (base + 2 ^ 64 - 1) % 2 ^ 64 = base - 1 := by omega

theorem v_max_loop_ok (base : Nat) (h1 : 0 < base) (h2 : base < 2 ^ 64) :
    ∀ (n v m : Nat), 0 < m → v + 1 = m → m * base ^ n < 2 ^ 64 →
      v_max_loop base n v m = .ok (m * base ^ n - 1) := by
  intro n
  induction n with
  | zero =>
    intro v m _ hv _
    simp only [v_max_loop, pow_zero, Nat.mul_one]
    congr 1
    omega
  | succ n ih =>
    intro v m hm hv hlt
    have hpow : m * base ^ (n + 1) = m * base * base ^ n := by ring
    have hbn : 0 < base ^ n := pow_pos h1 n
    have hmb : m * base < 2 ^ 64 := by
      have : m * base ≤ m * base * base ^ n := Nat.le_mul_of_pos_right _ hbn
      omega
    have hsplit : m * base = m * (base - 1) + m := by
      obtain ⟨b, rfl⟩ : ∃ b, base = b + 1 := ⟨base - 1, by omega⟩
      simp only [Nat.add_sub_cancel]
      ring
    have ht : m * (base - 1) < 2 ^ 64 := by omega
    have hp : v + m * (base - 1) < 2 ^ 64 := by omega
    rw [v_max_loop, pred_base h1 h2, mul_ok ht]
    simp only [bind, Except.bind]
    rw [plus_ok hp, mul_ok hmb]
    simp only []
    rw [ih (v + m * (base - 1)) (m * base) (Nat.mul_pos hm h1) (by omega) (by rw [← hpow]; exact hlt)]
    rw [hpow]

theorem v_max_loop_overflow (base : Nat) (h1 : 0 < base) (h2 : base < 2 ^ 64) :
    ∀ (n v m : Nat), 0 < m → v + 1 = m → m < 2 ^ 64 → 2 ^ 64 ≤ m * base ^ n →
      ∃ l r, v_max_loop base n v m = .error (.overflow_error l r) := by
  intro n
  induction n with
  | zero =>
    intro v m _ _ hm hge
    simp only [pow_zero, Nat.mul_one] at hge
    omega
  | succ n ih =>
    intro v m hm hv hlt hge
    have hpow : m * base ^ (n + 1) = m * base * base ^ n := by ring
    have hsplit : m * base = m * (base - 1) + m := by
      obtain ⟨b, rfl⟩ : ∃ b, base = b + 1 := ⟨base - 1, by omega⟩
      simp only [Nat.add_sub_cancel]
      ring
    rw [v_max_loop, pred_base h1 h2]
    by_cases ht : m * (base - 1) < 2 ^ 64
    · rw [mul_ok ht]
      simp only [bind, Except.bind]
      by_cases hp : v + m * (base - 1) < 2 ^ 64
      · rw [plus_ok hp]
        simp only []
        by_cases hmb : m * base < 2 ^ 64
        · rw [mul_ok hmb]
          simp only []
          exact ih (v + m * (base - 1)) (m * base) (Nat.mul_pos hm h1) (by omega) hmb
            (by rw [← hpow]; exact hge)
        · rw [mul_overflow (by omega)]
          exact ⟨_, _, rfl⟩
      · rw [plus_overflow (by omega)]
        exact ⟨_, _, rfl⟩
    · rw [mul_overflow (by omega)]
      exact ⟨_, _, rfl⟩

theorem v_max_compute_ok {base h : Nat} (h1 : 0 < base) (h2 : base < 2 ^ 64)
    (hlt : base ^ h < 2 ^ 64) : v_max_compute base h = .ok (base ^ h - 1) := by
  have := v_max_loop_ok base h1 h2 h 0 1 (by omega) (by omega) (by simpa using hlt)
  simpa [v_max_compute] using this

theorem v_max_compute_overflow {base h : Nat} (h1 : 0 < base) (h2 : base < 2 ^ 64)
    (hge : 2 ^ 64 ≤ base ^ h) : ∃ l r, v_max_compute base h = .error (.overflow_error l r) := by
  have := v_max_loop_overflow base h1 h2 h 0 1 (by omega) (by omega) (by omega)
    (by simpa using hge)
  simpa [v_max_compute] using this

/-! ## The digit loop -/

theorem dsum_zero (base : Nat) : dsum base 0 = 0 := by
  simp [dsum]

theorem dsum_step {base t : Nat} (hb : 2 ≤ base) (ht : t ≠ 0) :
    dsum base t = t % base + dsum base (t / base) := by
  unfold dsum
  rw [Nat.digits_def' (by omega) (Nat.pos_of_ne_zero ht)]
  simp

theorem dsum_le (base t : Nat) : dsum base t ≤ t := Nat.digit_sum_le base t

theorem digit_loop_zero (base fuel x : Nat) (hf : 0 < fuel) :
    digit_loop base fuel x 0 = .ok x := by
  obtain ⟨f, rfl⟩ : ∃ f, fuel = f + 1 := ⟨fuel - 1, by omega⟩
  rw [digit_loop]
  simp

theorem digit_loop_spec {base : Nat} (hb : 2 ≤ base) :
    ∀ (fuel x t : Nat), t < fuel → x + t < 2 ^ 64 →
      digit_loop base fuel x t = .ok (x + dsum base t) := by
  intro fuel
  induction fuel with
  | zero => intro x t h; omega
  | succ f ih =>
    intro x t hf hx
    rw [digit_loop]
    by_cases ht : t = 0
    · subst ht
      simp [dsum_zero]
    · rw [if_neg ht]
      have hmod : t % base ≤ t := Nat.mod_le t base
      have hdiv : t / base < t := Nat.div_lt_self (Nat.pos_of_ne_zero ht) (by omega)
      have hsum : t % base + t / base ≤ t := by
        have := Nat.div_add_mod t base
        have : t / base ≤ base * (t / base) := Nat.le_mul_of_pos_left _ (by omega)
        omega
      rw [Nat.mod_eq_of_lt (by omega), ih _ _ (by omega) (by omega), dsum_step hb ht]
      congr 1
      omega

theorem dsum_bound {base : Nat} (hb : 0 < base) :
    ∀ (h v : Nat), v < base ^ h → dsum base v ≤ (base - 1) * h := by
  intro h
  induction h with
  | zero =>
    intro v hv
    have : v = 0 := by simpa using hv
    subst this
    simp [dsum_zero]
  | succ h ih =>
    intro v hv
    by_cases hv0 : v = 0
    · subst hv0
      simp [dsum_zero]
    · have hb2 : 2 ≤ base := by
        by_contra hcon
        have : base = 1 := by omega
        subst this
        simp at hv
        exact hv0 hv
      rw [dsum_step hb2 hv0]
      have h1 : v % base < base := Nat.mod_lt _ hb
      have h2 : v / base < base ^ h := by
        rw [Nat.div_lt_iff_lt_mul hb]
        rw [pow_succ] at hv
        exact hv
      have := ih (v / base) h2
      rw [Nat.mul_succ]
      omega

/-! ## Counting digit sums -/

theorem cnt_zero (base lo s : Nat) : cnt base lo 0 s = 0 := by
  simp [cnt]

theorem cnt_succ (base lo n s : Nat) :
    cnt base lo (n + 1) s = (if dsum base lo = s then 1 else 0) + cnt base (lo + 1) n s := by
  simp only [cnt, List.range'_succ, List.countP_cons, beq_iff_eq]
  omega

theorem cnt_add (base lo m n s : Nat) :
    cnt base lo (m + n) s = cnt base lo m s + cnt base (lo + m) n s := by
  unfold cnt
  rw [← List.countP_append, Nat.add_comm m n]
  have := List.range'_append lo m n 1
  rw [Nat.one_mul] at this
  rw [this]

theorem cnt_le (base lo n s : Nat) : cnt base lo n s ≤ n := by
  unfold cnt
  have := @List.countP_le_length Nat (fun v => dsum base v == s) (List.range' lo n)
  simpa using this

/-! ## Buffer cells -/

theorem cell_of_lt {mem : List Nat} {i : Nat} (h : i < mem.length) :
    mem[i]? = some (cell mem i) := by
  simp [cell, List.getElem?_eq_getElem h]

theorem cell_set (mem : List Nat) (i j a : Nat) :
    cell (mem.set i a) j = if i = j ∧ i < mem.length then a else cell mem j := by
  unfold cell
  rw [List.getElem?_set]
  by_cases hij : i = j
  · subst hij
    by_cases hl : i < mem.length
    · simp [hl]
    · have : mem[i]? = none := List.getElem?_eq_none (by omega)
      simp [hl, this]
  · simp [hij]

theorem cell_replicate (n i : Nat) : cell (List.replicate n 0) i = 0 := by
  unfold cell
  rw [List.getElem?_replicate]
  split <;> rfl

/-! ## `work` -/

theorem work_loop_spec (fuel base v_max off size : Nat) :
    ∀ (n v : Nat) (mem : List Nat) (k : Nat),
      v + n = v_max + 1 → v_max + 1 < 2 ^ 64 → n < k →
      (∀ u, v ≤ u → u ≤ v_max →
        digit_loop base fuel 0 u = .ok (dsum base u) ∧ dsum base u < size) →
      off + size ≤ mem.length →
      (∀ s, s < size → cell mem (off + s) + n < 2 ^ 64) →
      ∃ mem1, work_loop fuel base v_max off size k v mem = .ok mem1 ∧
        SliceAdds mem mem1 off size (cnt base v n) := by
  intro n
  induction n with
  | zero =>
    intro v mem k hv _ hk _ _ _
    obtain ⟨k, rfl⟩ : ∃ k1, k = k1 + 1 := ⟨k - 1, by omega⟩
    refine ⟨mem, ?_, rfl, ?_⟩
    · rw [work_loop, if_neg (by omega)]
    · intro i
      simp [cnt_zero]
  | succ n ih =>
    intro v mem k hv hmax hk hd hb hw
    obtain ⟨k, rfl⟩ : ∃ k1, k = k1 + 1 := ⟨k - 1, by omega⟩
    obtain ⟨hdl, hds⟩ := hd v (le_refl v) (by omega)
    have hin : off + dsum base v < mem.length := by omega
    have hcw := hw (dsum base v) hds
    rw [work_loop, if_pos (by omega), hdl]
    simp only [hds, if_true, cell_of_lt hin]
    rw [Nat.mod_eq_of_lt (by omega), Nat.mod_eq_of_lt (by omega)]
    obtain ⟨mem1, hrun, hlen, hcell⟩ :=
      ih (v + 1) (mem.set (off + dsum base v) (cell mem (off + dsum base v) + 1)) k
        (by omega) hmax (by omega)
        (fun u hu1 hu2 => hd u (by omega) hu2)
        (by rw [List.length_set]; exact hb)
        (by
          intro s hs
          rw [cell_set]
          have := hw s hs
          split <;> omega)
    refine ⟨mem1, hrun, ?_, ?_⟩
    · rw [hlen, List.length_set]
    · intro i
      rw [hcell i, cell_set, cnt_succ]
      by_cases hi : off ≤ i ∧ i < off + size
      · rw [if_pos hi, if_pos hi]
        by_cases hx : off + dsum base v = i
        · have : dsum base v = i - off := by omega
          rw [if_pos ⟨hx, hin⟩, if_pos this, ← hx]
          omega
        · have : ¬ dsum base v = i - off := by omega
          rw [if_neg (fun h => hx h.1), if_neg this]
          omega
      · rw [if_neg hi, if_neg hi]
        have : ¬ (off + dsum base v = i ∧ off + dsum base v < mem.length) := by
          intro h
          omega
        rw [if_neg this]

/-! ## The merge loop -/

theorem transform_plus_spec (R A size : Nat) :
    ∀ (n k : Nat) (mem : List Nat),
      k + n = size → R + size ≤ mem.length → A + size ≤ mem.length →
      (A + size ≤ R ∨ R + size ≤ A) →
      (∀ s, k ≤ s → s < size → cell mem (R + s) + cell mem (A + s) < 2 ^ 64) →
      ∃ mem1, transform_plus R A n k mem = .ok mem1 ∧ mem1.length = mem.length ∧
        ∀ i, cell mem1 i =
          if R + k ≤ i ∧ i < R + size then cell mem i + cell mem (A + (i - R)) else cell mem i := by
  intro n
  induction n with
  | zero =>
    intro k mem hk _ _ _ _
    refine ⟨mem, ?_, rfl, ?_⟩
    · rw [transform_plus]
    · intro i
      rw [if_neg (by omega)]
  | succ n ih =>
    intro k mem hk hR hA hdis hsum
    have h1 : R + k < mem.length := by omega
    have h2 : A + k < mem.length := by omega
    have h3 := hsum k (le_refl k) (by omega)
    rw [transform_plus, cell_of_lt h1, cell_of_lt h2]
    simp only [plus_ok h3]
    obtain ⟨mem1, hrun, hlen, hcell⟩ :=
      ih (k + 1) (mem.set (R + k) (cell mem (R + k) + cell mem (A + k)))
        (by omega) (by rw [List.length_set]; exact hR) (by rw [List.length_set]; exact hA) hdis
        (by
          intro s hs1 hs2
          rw [cell_set, cell_set,
            if_neg (by omega : ¬ (R + k = R + s ∧ R + k < mem.length)),
            if_neg (by omega : ¬ (R + k = A + s ∧ R + k < mem.length))]
          exact hsum s (by omega) hs2)
    refine ⟨mem1, hrun, ?_, ?_⟩
    · rw [hlen, List.length_set]
    · intro i
      rw [hcell i, cell_set, cell_set]
      by_cases hi : R + k = i
      · subst hi
        rw [if_neg (by omega : ¬ (R + (k + 1) ≤ R + k ∧ R + k < R + size)),
          if_pos (⟨rfl, h1⟩ : R + k = R + k ∧ R + k < mem.length),
          if_pos (by omega : R + k ≤ R + k ∧ R + k < R + size)]
        congr 2
        omega
      · rw [if_neg (fun h => hi h.1 : ¬ (R + k = i ∧ R + k < mem.length))]
        by_cases hi2 : R + (k + 1) ≤ i ∧ i < R + size
        · rw [if_pos hi2, if_pos (by omega : R + k ≤ i ∧ i < R + size),
            if_neg (by omega : ¬ (R + k = A + (i - R) ∧ R + k < mem.length))]
        · rw [if_neg hi2, if_neg (by omega : ¬ (R + k ≤ i ∧ i < R + size))]

theorem sum_map_set (g : Nat → Nat) :
    ∀ (l : List Nat) (i x : Nat), i < l.length →
      ((l.set i x).map g).sum + g (l.getD i 0) = (l.map g).sum + g x := by
  intro l
  induction l with
  | nil => intro i x h; simp at h
  | cons a l ih =>
    intro i x h
    cases i with
    | zero =>
      simp only [List.set_cons_zero, List.map_cons, List.sum_cons, List.getD_cons_zero]
      omega
    | succ i =>
      simp only [List.set_cons_succ, List.map_cons, List.sum_cons, List.getD_cons_succ]
      have := ih i x (by simpa using h)
      omega

theorem swap_pop_length (init : List Nat) (last i : Nat) :
    (((init ++ [last]).set i last).dropLast).length = init.length := by
  simp [List.length_dropLast, List.length_set]

theorem swap_pop_eq (init : List Nat) (last i : Nat) :
    ((init ++ [last]).set i last).dropLast = if i < init.length then init.set i last else init := by
  rw [List.set_append]
  split
  · rw [List.dropLast_concat]
  · rename_i h
    have : ([last] : List Nat).set (i - init.length) last = [last] := by
      cases (i - init.length) <;> simp
    rw [this, List.dropLast_concat]

theorem swap_pop_mem (init : List Nat) (last i b : Nat)
    (hb : b ∈ ((init ++ [last]).set i last).dropLast) : b ∈ init ++ [last] := by
  rw [swap_pop_eq] at hb
  split at hb
  · rcases List.mem_or_eq_of_mem_set hb with h | h
    · exact List.mem_append_left _ h
    · subst h
      simp
  · exact List.mem_append_left _ hb

theorem swap_pop_sum (g : Nat → Nat) (init : List Nat) (last i : Nat)
    (hi : i < (init ++ [last]).length) :
    ((((init ++ [last]).set i last).dropLast).map g).sum + g ((init ++ [last]).getD i 0) =
      ((init ++ [last]).map g).sum := by
  rw [swap_pop_eq]
  split
  · rename_i h
    have h1 := sum_map_set g init i last h
    have h2 : (init ++ [last]).getD i 0 = init.getD i 0 := by
      rw [List.getD_eq_getElem?_getD, List.getD_eq_getElem?_getD, List.getElem?_append_left h]
    rw [h2, List.map_append, List.sum_append]
    simp only [List.map_cons, List.map_nil, List.sum_cons, List.sum_nil]
    omega
  · rename_i h
    have hlen : i = init.length := by
      simp at hi
      omega
    have h2 : (init ++ [last]).getD i 0 = last := by
      rw [List.getD_eq_getElem?_getD, hlen]
      simp
    rw [h2, List.map_append, List.sum_append]
    simp

theorem col_congr (mem mem1 l : List Nat) (s : Nat)
    (h : ∀ b ∈ l, cell mem1 (b + s) = cell mem (b + s)) : col mem1 l s = col mem l s := by
  unfold col
  congr 1
  exact List.map_congr_left h

theorem merge_loop_spec (ready : Nat → Nat) (R size N : Nat) (total : Nat → Nat)
    (htot : ∀ s, s < size → total s < 2 ^ 64) (hR : R + size ≤ N) :
    ∀ (n : Nat) (asyncs mem : List Nat),
      asyncs.length = n → mem.length = N →
      (∀ a ∈ asyncs, a + size ≤ N ∧ (a + size ≤ R ∨ R + size ≤ a)) →
      (∀ s, s < size → cell mem (R + s) + col mem asyncs s = total s) →
      ∃ mem1, merge_loop ready R size n asyncs mem = .ok mem1 ∧ mem1.length = N ∧
        ∀ s, s < size → cell mem1 (R + s) = total s := by
  intro n
  induction n with
  | zero =>
    intro asyncs mem hlen hN _ hsum
    have : asyncs = [] := List.length_eq_zero.mp hlen
    subst this
    refine ⟨mem, ?_, hN, ?_⟩
    · rw [merge_loop]
    · intro s hs
      have := hsum s hs
      simpa [col] using this
  | succ n ih =>
    intro asyncs mem hlen hN hval hsum
    rcases List.eq_nil_or_concat asyncs with h | ⟨init, last, h⟩
    · subst h
      simp at hlen
    · rw [List.concat_eq_append] at h
      subst h
      have hlen2 : (init ++ [last]).length = n + 1 := hlen
      have hi : ready n % (init ++ [last]).length < (init ++ [last]).length :=
        Nat.mod_lt _ (by rw [hlen2]; omega)
      rw [merge_loop]
      simp only [List.getLast?_concat]
      generalize ready n % (init ++ [last]).length = i at hi
      have hmem : (init ++ [last]).getD i 0 ∈ init ++ [last] := by
        rw [List.getD_eq_getElem _ _ hi]
        exact List.getElem_mem hi
      generalize hadef : (init ++ [last]).getD i 0 = a at hmem
      obtain ⟨ha1, ha2⟩ := hval a hmem
      have hdecomp : ∀ s, col mem (((init ++ [last]).set i last).dropLast) s + cell mem (a + s) =
          col mem (init ++ [last]) s := by
        intro s
        have := swap_pop_sum (fun b => cell mem (b + s)) init last i hi
        rw [hadef] at this
        exact this
      obtain ⟨mem1, hrun, hlen1, hcell⟩ := transform_plus_spec R a size size 0 mem (by omega)
        (by omega) (by omega) ha2
        (by
          intro s _ hs
          have h1 := hsum s hs
          have h2 := hdecomp s
          have h3 := htot s hs
          omega)
      have hkeep : ∀ b ∈ ((init ++ [last]).set i last).dropLast, ∀ s, s < size →
          cell mem1 (b + s) = cell mem (b + s) := by
        intro b hb s hs
        have hb2 := hval b (swap_pop_mem init last i b hb)
        rw [hcell, if_neg (by omega : ¬ (R + 0 ≤ b + s ∧ b + s < R + size))]
      obtain ⟨mem2, hrun2, hlen2, hcell2⟩ := ih (((init ++ [last]).set i last).dropLast) mem1
        (by rw [swap_pop_length init last i]; simpa using hlen)
        (by rw [hlen1, hN])
        (fun b hb => hval b (swap_pop_mem init last i b hb))
        (by
          intro s hs
          rw [col_congr mem mem1 _ s (fun b hb => hkeep b hb s hs), hcell,
            if_pos (by omega : R + 0 ≤ R + s ∧ R + s < R + size)]
          have h1 := hsum s hs
          have h2 := hdecomp s
          have h3 : a + (R + s - R) = a + s := by omega
          rw [h3]
          omega)
      refine ⟨mem2, ?_, hlen2, hcell2⟩
      rw [hrun]
      exact hrun2

/-! ## The final reduction -/

theorem transform_reduce_ok :
    ∀ (l : List Nat) (acc : Nat), acc + (l.map (fun h => h * h)).sum < 2 ^ 64 →
      transform_reduce l acc = .ok (acc + (l.map (fun h => h * h)).sum) := by
  intro l
  induction l with
  | nil => intro acc _; simp [transform_reduce]
  | cons h rest ih =>
    intro acc hlt
    simp only [List.map_cons, List.sum_cons] at hlt ⊢
    rw [transform_reduce, mul_ok (by omega)]
    simp only [bind, Except.bind]
    rw [plus_ok (by omega)]
    simp only []
    rw [ih (acc + h * h) (by omega)]
    congr 1
    omega

theorem transform_reduce_overflow :
    ∀ (l : List Nat) (acc : Nat), acc < 2 ^ 64 → 2 ^ 64 ≤ acc + (l.map (fun h => h * h)).sum →
      ∃ a b, transform_reduce l acc = .error (.overflow_error a b) := by
  intro l
  induction l with
  | nil => intro acc h1 h2; simp at h2; omega
  | cons h rest ih =>
    intro acc hacc hge
    simp only [List.map_cons, List.sum_cons] at hge
    rw [transform_reduce]
    by_cases hm : h * h < 2 ^ 64
    · rw [mul_ok hm]
      simp only [bind, Except.bind]
      by_cases hp : acc + h * h < 2 ^ 64
      · rw [plus_ok hp]
        simp only []
        exact ih (acc + h * h) hp (by omega)
      · rw [plus_overflow (by omega)]
        exact ⟨_, _, rfl⟩
    · rw [mul_overflow (by omega)]
      exact ⟨_, _, rfl⟩

theorem read_span_spec (mem : List Nat) (R size : Nat) (f : Nat → Nat)
    (hR : R + size ≤ mem.length) (hf : ∀ s, s < size → cell mem (R + s) = f s) :
    read_span mem R size = .ok ((List.range size).map f) := by
  rw [read_span, if_pos hR]
  congr 1
  apply List.ext_getElem
  · simp
    omega
  · intro n h1 h2
    have hn : n < size := by simpa using h2
    rw [List.getElem_take, List.getElem_drop]
    simp only [List.getElem_map, List.getElem_range]
    rw [← hf n hn]
    have hlt : R + n < mem.length := by omega
    have := cell_of_lt hlt
    rw [List.getElem?_eq_getElem hlt] at this
    exact Option.some.inj this

/-! ## Splitting the range -/

theorem cnt_chunks (base v_step s : Nat) :
    ∀ (A m : Nat), ((List.range A).map (fun j => cnt base (j * v_step) v_step s)).sum +
      cnt base (A * v_step) m s = cnt base 0 (A * v_step + m) s := by
  intro A
  induction A with
  | zero => intro m; simp
  | succ A ih =>
    intro m
    rw [List.range_succ, List.map_append, List.sum_append]
    simp only [List.map_cons, List.map_nil, List.sum_cons, List.sum_nil, Nat.add_zero]
    have h1 := ih (v_step + m)
    have h2 := cnt_add base (A * v_step) v_step m s
    have h3 : (A + 1) * v_step = A * v_step + v_step := by ring
    rw [h3]
    rw [h2] at h1
    have h4 : A * v_step + v_step + m = A * v_step + (v_step + m) := by ring
    rw [h4]
    omega

/-! ## The launch loop -/

theorem slice_index {stride size i j s : Nat} (h1 : size ≤ stride) (hs : s < size) :
    (stride * i ≤ stride * j + s ∧ stride * j + s < stride * i + size) ↔ j = i := by
  constructor
  · rintro ⟨h2, h3⟩
    rcases Nat.lt_trichotomy j i with h | h | h
    · have : stride * (j + 1) ≤ stride * i := Nat.mul_le_mul_left _ h
      rw [Nat.mul_succ] at this
      omega
    · exact h
    · have : stride * (i + 1) ≤ stride * j := Nat.mul_le_mul_left _ h
      rw [Nat.mul_succ] at this
      omega
  · rintro rfl
    omega

theorem work_spec (fuel base v_max off size v n : Nat) (mem : List Nat)
    (hbase : 0 < base) (hv : v + n = v_max + 1) (hmax : v_max + 1 < 2 ^ 64) (hk : n < fuel)
    (hd : ∀ u, v ≤ u → u ≤ v_max →
      digit_loop base fuel 0 u = .ok (dsum base u) ∧ dsum base u < size)
    (hb : off + size ≤ mem.length)
    (hw : ∀ s, s < size → cell mem (off + s) + n < 2 ^ 64) :
    ∃ mem1, work fuel v v_max base off size mem = .ok mem1 ∧
      SliceAdds mem mem1 off size (cnt base v n) := by
  rw [work, if_neg (by omega : ¬ base = 0)]
  exact work_loop_spec fuel base v_max off size n v mem fuel hv hmax hk hd hb hw

theorem launch_spec (fuel base max_sum stride v_step A N v_max : Nat)
    (hbase : 0 < base) (hstride : max_sum + 1 ≤ stride)
    (hN : stride * (A + 1) ≤ N) (hN2 : N < 2 ^ 64)
    (hstep : 0 < v_step) (hcover : A * v_step + v_step ≤ v_max + 1) (hvmax : v_max + 1 < 2 ^ 64)
    (hfuel : v_step < fuel)
    (hd : ∀ u, u ≤ v_max →
      digit_loop base fuel 0 u = .ok (dsum base u) ∧ dsum base u < max_sum + 1) :
    ∀ (n i : Nat) (mem : List Nat), n + i = A → mem.length = N →
      (∀ j s, j ≤ A → s < max_sum + 1 →
        cell mem (stride * j + s) = if j < i then cnt base (j * v_step) v_step s else 0) →
      ∃ mem1, launch fuel base max_sum stride v_step n i (i * v_step) mem =
          .ok (A * v_step, mem1) ∧ mem1.length = N ∧
        ∀ j s, j ≤ A → s < max_sum + 1 →
          cell mem1 (stride * j + s) = if j < A then cnt base (j * v_step) v_step s else 0 := by
  intro n
  induction n with
  | zero =>
    intro i mem hi hlen hinv
    have : i = A := by omega
    subst this
    exact ⟨mem, by rw [launch], hlen, hinv⟩
  | succ n ih =>
    intro i mem hi hlen hinv
    have hiA : i + 1 ≤ A := by omega
    have h1 : (i + 1) * v_step ≤ A * v_step := Nat.mul_le_mul_right _ hiA
    have h2 : (i + 1) * v_step = i * v_step + v_step := by ring
    have h3 : stride * (i + 1) ≤ stride * (A + 1) := Nat.mul_le_mul_left _ (by omega)
    have h4 : stride * (i + 1) = stride * i + stride := by ring
    have hmod1 : (i * v_step + v_step + 2 ^ 64 - 1) % 2 ^ 64 = i * v_step + v_step - 1 := by
      omega
    have hmod2 : stride * i % 2 ^ 64 = stride * i := Nat.mod_eq_of_lt (by omega)
    have hmod3 : (max_sum + 1) % 2 ^ 64 = max_sum + 1 := Nat.mod_eq_of_lt (by omega)
    have hmod4 : (i * v_step + v_step) % 2 ^ 64 = (i + 1) * v_step :=
      by rw [h2]; exact Nat.mod_eq_of_lt (by omega)
    obtain ⟨mem1, hrun, hlen1, hcell1⟩ := work_spec fuel base (i * v_step + v_step - 1)
      (stride * i) (max_sum + 1) (i * v_step) v_step mem hbase (by omega) (by omega) hfuel
      (fun u _ hu => hd u (by omega)) (by omega)
      (by
        intro s hs
        rw [hinv i s (by omega) hs, if_neg (by omega : ¬ i < i)]
        omega)
    obtain ⟨mem2, hrun2, hlen2, hcell2⟩ := ih (i + 1) mem1 (by omega) (by rw [hlen1, hlen])
      (by
        intro j s hj hs
        rw [hcell1, hinv j s hj hs]
        by_cases hji : j = i
        · subst hji
          rw [if_pos ((slice_index hstride hs).mpr rfl), if_neg (by omega : ¬ j < j),
            if_pos (by omega : j < j + 1)]
          have hsub : stride * j + s - stride * j = s := by omega
          rw [hsub, Nat.zero_add]
        · rw [if_neg (fun h => hji ((slice_index hstride hs).mp h))]
          by_cases hlt : j < i
          · rw [if_pos hlt, if_pos (by omega : j < i + 1)]
          · rw [if_neg hlt, if_neg (by omega : ¬ j < i + 1)])
    refine ⟨mem2, ?_, hlen2, hcell2⟩
    rw [launch, hmod1, hmod2, hmod3, hrun]
    simp only []
    rw [hmod4]
    exact hrun2

/-! ## Planning -/

theorem bind_ok {α β : Type} (a : α) (f : α → Except Fault β) : (Except.ok a >>= f) = f a := rfl

theorem bind_error {α β : Type} (e : Fault) (f : α → Except Fault β) :
    (Except.error e >>= f) = Except.error e := rfl

theorem bernoulli {base : Nat} (hb : 0 < base) : ∀ h, (base - 1) * h + 1 ≤ base ^ h := by
  intro h
  induction h with
  | zero => simp
  | succ h ih =>
    obtain ⟨b, rfl⟩ : ∃ b, base = b + 1 := ⟨base - 1, by omega⟩
    simp only [Nat.add_sub_cancel] at ih ⊢
    rw [pow_succ, Nat.mul_succ]
    have h1 : (b * h + 1) * (b + 1) ≤ (b + 1) ^ h * (b + 1) := Nat.mul_le_mul_right _ ih
    have h2 : (b * h + 1) * (b + 1) = b * h * b + b * h + b + 1 := by ring
    omega

theorem works_nr_of_pos (hw v_count : Nat) (hv : 0 < v_count) : 1 ≤ works_nr_of hw v_count := by
  unfold works_nr_of kAsyncCountFactor
  have : 1 ≤ (v_count + 600000 - 1) / 600000 := by omega
  omega

theorem works_nr_of_lt (hw v_count : Nat) : works_nr_of hw v_count < 2 ^ 32 := by
  unfold works_nr_of
  have : hw % 2 ^ 32 < 2 ^ 32 := Nat.mod_lt _ (by norm_num)
  omega

theorem plan_eval {hw c base order : Nat} (h1 : 0 < base) (h2 : base < 2 ^ 64)
    (hlt : base ^ (order / 2) + kAsyncCountFactor - 1 < 2 ^ 64) :
    plan hw c base order =
      if c = 0 then .error .assertion
      else if 2 ^ 64 ≤ stride_of c ((base - 1) * (order / 2)) * works_nr_of hw (base ^ (order / 2)) then
        .error (.overflow_error (stride_of c ((base - 1) * (order / 2)))
          (works_nr_of hw (base ^ (order / 2))))
      else if array_new_max_length <
          stride_of c ((base - 1) * (order / 2)) * works_nr_of hw (base ^ (order / 2)) then
        .error .bad_array_new_length
      else .ok {
        max_sum := (base - 1) * (order / 2)
        v_max := base ^ (order / 2) - 1
        v_count := base ^ (order / 2)
        asyncs_size := works_nr_of hw (base ^ (order / 2)) - 1
        works_nr := works_nr_of hw (base ^ (order / 2))
        u64_chunks_nr_per_work := stride_of c ((base - 1) * (order / 2))
        buffer_size :=
          stride_of c ((base - 1) * (order / 2)) * works_nr_of hw (base ^ (order / 2)) } := by
  have hk : kAsyncCountFactor = 600000 := rfl
  have hpos : 0 < base ^ (order / 2) := pow_pos h1 _
  have hbern := bernoulli h1 (order / 2)
  have hpow : base ^ (order / 2) < 2 ^ 64 := by omega
  have hw1 := works_nr_of_pos hw (base ^ (order / 2)) hpos
  have hw2 := works_nr_of_lt hw (base ^ (order / 2))
  have hvc : (base ^ (order / 2) - 1 + 2 ^ 64 - 0 + 1) % 2 ^ 64 = base ^ (order / 2) := by omega
  have has : (works_nr_of hw (base ^ (order / 2)) + 2 ^ 64 - 1) % 2 ^ 64 =
      works_nr_of hw (base ^ (order / 2)) - 1 := by omega
  have hvec : ¬ vector_max_size < works_nr_of hw (base ^ (order / 2)) - 1 := by
    unfold vector_max_size
    omega
  have hwn : (works_nr_of hw (base ^ (order / 2)) - 1 + 1) % 2 ^ 64 =
      works_nr_of hw (base ^ (order / 2)) := by omega
  have hms : ((base - 1) * (order / 2) + 1) % 2 ^ 64 = (base - 1) * (order / 2) + 1 :=
    Nat.mod_eq_of_lt (by omega)
  unfold plan
  simp only []
  rw [pred_base h1 h2, mul_ok (by omega)]
  show (Except.ok ((base - 1) * (order / 2)) >>= _) = _
  rw [bind_ok, v_max_compute_ok h1 h2 hpow, bind_ok, hvc, div_round_up,
    if_neg (by omega : ¬ kAsyncCountFactor = 0), bind_ok, Nat.mod_eq_of_lt hlt]
  have hwk : min ((base ^ (order / 2) + kAsyncCountFactor - 1) / kAsyncCountFactor)
      (max (hw % 2 ^ 32) 1) = works_nr_of hw (base ^ (order / 2)) := rfl
  rw [hwk, has, if_neg hvec, hwn, hms, div_round_up]
  by_cases hc : c = 0
  · rw [if_pos hc, if_pos hc, bind_error]
  rw [if_neg hc, if_neg hc, bind_ok]
  have hst : ((base - 1) * (order / 2) + 1 + c - 1) % 2 ^ 64 / c * c % 2 ^ 64 =
      stride_of c ((base - 1) * (order / 2)) := rfl
  rw [hst]
  by_cases hov : 2 ^ 64 ≤ stride_of c ((base - 1) * (order / 2)) * works_nr_of hw (base ^ (order / 2))
  · rw [if_pos hov, mul_overflow hov]
    rfl
  · rw [if_neg hov, mul_ok (by omega), bind_ok]

theorem plan_overflow (hw c : Nat) {base : Nat} (order : Nat) (h1 : 0 < base) (h2 : base < 2 ^ 64)
    (hge : 2 ^ 64 ≤ base ^ (order / 2)) :
    ∃ l r, plan hw c base order = .error (.overflow_error l r) := by
  unfold plan
  simp only []
  rw [pred_base h1 h2]
  by_cases hm : (base - 1) * (order / 2) < 2 ^ 64
  · rw [mul_ok hm]
    show ∃ l r, (Except.ok ((base - 1) * (order / 2)) >>= _) = _
    rw [bind_ok]
    obtain ⟨l, r, h⟩ := v_max_compute_overflow h1 h2 hge
    rw [h]
    exact ⟨l, r, rfl⟩
  · rw [mul_overflow (by omega)]
    exact ⟨_, _, rfl⟩

theorem plan_length_error {hw c base order : Nat} (h1 : 0 < base) (h2 : base < 2 ^ 64)
    (hlt : base ^ (order / 2) < 2 ^ 64)
    (hge : 2 ^ 64 ≤ base ^ (order / 2) + kAsyncCountFactor - 1) :
    plan hw c base order = .error .length_error := by
  have hk : kAsyncCountFactor = 600000 := rfl
  have hpos : 0 < base ^ (order / 2) := pow_pos h1 _
  have hbern := bernoulli h1 (order / 2)
  have hvc : (base ^ (order / 2) - 1 + 2 ^ 64 - 0 + 1) % 2 ^ 64 = base ^ (order / 2) := by omega
  have hdiv : (base ^ (order / 2) + kAsyncCountFactor - 1) % 2 ^ 64 / kAsyncCountFactor = 0 := by
    rw [hk] at hge ⊢
    omega
  unfold plan
  simp only []
  rw [pred_base h1 h2, mul_ok (by omega)]
  show (Except.ok ((base - 1) * (order / 2)) >>= _) = _
  rw [bind_ok, v_max_compute_ok h1 h2 hlt, bind_ok, hvc, div_round_up,
    if_neg (by omega : ¬ kAsyncCountFactor = 0), bind_ok, hdiv]
  have hv : vector_max_size < (min 0 (max (hw % 2 ^ 32) 1) + 2 ^ 64 - 1) % 2 ^ 64 := by
    unfold vector_max_size
    rw [Nat.zero_min]
    norm_num
  rw [if_pos hv]

theorem plan_ok_facts {hw c base order : Nat} {p : Plan} (h1 : 0 < base) (h2 : base < 2 ^ 64)
    (hp : plan hw c base order = .ok p) :
    0 < c ∧ base ^ (order / 2) + kAsyncCountFactor - 1 < 2 ^ 64 ∧
    stride_of c ((base - 1) * (order / 2)) * works_nr_of hw (base ^ (order / 2)) < 2 ^ 64 ∧
    stride_of c ((base - 1) * (order / 2)) * works_nr_of hw (base ^ (order / 2)) ≤
      array_new_max_length ∧
    p = {
        max_sum := (base - 1) * (order / 2)
        v_max := base ^ (order / 2) - 1
        v_count := base ^ (order / 2)
        asyncs_size := works_nr_of hw (base ^ (order / 2)) - 1
        works_nr := works_nr_of hw (base ^ (order / 2))
        u64_chunks_nr_per_work := stride_of c ((base - 1) * (order / 2))
        buffer_size :=
          stride_of c ((base - 1) * (order / 2)) * works_nr_of hw (base ^ (order / 2)) } := by
  by_cases hge : 2 ^ 64 ≤ base ^ (order / 2)
  · obtain ⟨l, r, h⟩ := plan_overflow hw c order h1 h2 hge
    rw [h] at hp
    cases hp
  · by_cases hwrap : 2 ^ 64 ≤ base ^ (order / 2) + kAsyncCountFactor - 1
    · rw [plan_length_error h1 h2 (by omega) hwrap] at hp
      cases hp
    · have hlt : base ^ (order / 2) + kAsyncCountFactor - 1 < 2 ^ 64 := by omega
      rw [plan_eval h1 h2 hlt] at hp
      split at hp
      · cases hp
      · split at hp
        · cases hp
        · split at hp
          · cases hp
          · rename_i h3 h4 h5
            refine ⟨by omega, hlt, by omega, by omega, ?_⟩
            exact (Except.ok.inj hp).symm

theorem stride_of_ge (c ms : Nat) (hc : 0 < c) (hlt : ms + c < 2 ^ 64) :
    ms + 1 ≤ stride_of c ms ∧ stride_of c ms ≤ ms + c := by
  unfold stride_of
  have h0 : ms + 1 + c - 1 = ms + c := by omega
  rw [h0, Nat.mod_eq_of_lt hlt]
  have h1 : (ms + c) / c * c ≤ ms + c := Nat.div_mul_le_self _ _
  have h2 : ms + c < (ms + c) / c * c + c := Nat.lt_div_mul_add hc
  rw [Nat.mod_eq_of_lt (by omega)]
  omega

theorem digits_ok {base : Nat} (h fuel : Nat) (h1 : 0 < base) (hlt : base ^ h < 2 ^ 64)
    (hf : base ^ h < fuel) (u : Nat) (hu : u ≤ base ^ h - 1) :
    digit_loop base fuel 0 u = .ok (dsum base u) ∧ dsum base u < (base - 1) * h + 1 := by
  have hpos : 0 < base ^ h := pow_pos h1 _
  have hb := dsum_bound h1 h u (by omega)
  refine ⟨?_, by omega⟩
  by_cases hb2 : 2 ≤ base
  · have := digit_loop_spec hb2 fuel 0 u (by omega) (by omega)
    simpa using this
  · have hb1 : base = 1 := by omega
    subst hb1
    have hu0 : u = 0 := by
      simp at hu
      exact hu
    subst hu0
    rw [digit_loop_zero 1 fuel 0 (by omega), dsum_zero]

theorem works_nr_of_le (hw v_count : Nat) (hv : 0 < v_count) : works_nr_of hw v_count ≤ v_count := by
  unfold works_nr_of kAsyncCountFactor
  have : (v_count + 600000 - 1) / 600000 ≤ v_count := by omega
  omega

theorem works_nr_of_one (hw : Nat) : works_nr_of hw 1 = 1 := by
  unfold works_nr_of kAsyncCountFactor
  have : (1 + 600000 - 1) / 600000 = 1 := by norm_num
  rw [this]
  omega

theorem after_launch_spec (fuel base ms st v_step w V v_min : Nat) (ready : Nat → Nat)
    (mem1 : List Nat) (hvmin : v_min = (w - 1) * v_step) (h1 : 0 < base) (hw1 : 1 ≤ w) (hw3 : w < 2 ^ 64) (hst1 : ms + 1 ≤ st)
    (hN : st * w < 2 ^ 64) (hV : V < 2 ^ 64) (hcover : (w - 1) * v_step < V) (hf : V < fuel)
    (hd : ∀ u, u ≤ V - 1 → digit_loop base fuel 0 u = .ok (dsum base u) ∧ dsum base u < ms + 1)
    (hlen : mem1.length = st * w)
    (hinv : ∀ j s, j ≤ w - 1 → s < ms + 1 →
      cell mem1 (st * j + s) = if j < w - 1 then cnt base (j * v_step) v_step s else 0) :
    (do
      let mem2 ← work fuel v_min (V - 1) base
        (st * ((w + 2 ^ 64 - 1) % 2 ^ 64) % 2 ^ 64) ((ms + 1) % 2 ^ 64) mem1
      let mem3 ← merge_loop ready (st * ((w + 2 ^ 64 - 1) % 2 ^ 64) % 2 ^ 64) ((ms + 1) % 2 ^ 64)
        (List.map (fun i => st * i % 2 ^ 64) (List.range (w - 1))).length
        (List.map (fun i => st * i % 2 ^ 64) (List.range (w - 1))) mem2
      read_span mem3 (st * ((w + 2 ^ 64 - 1) % 2 ^ 64) % 2 ^ 64) ((ms + 1) % 2 ^ 64)) =
    .ok ((List.range (ms + 1)).map (cnt base 0 V)) := by
  subst hvmin
  have hA : (w + 2 ^ 64 - 1) % 2 ^ 64 = w - 1 := by omega
  have hstA : st * (w - 1) + st = st * w := by
    obtain ⟨a, rfl⟩ : ∃ a, w = a + 1 := ⟨w - 1, by omega⟩
    simp only [Nat.add_sub_cancel]
    ring
  have hR : st * (w - 1) % 2 ^ 64 = st * (w - 1) := Nat.mod_eq_of_lt (by omega)
  have hsz : (ms + 1) % 2 ^ 64 = ms + 1 := Nat.mod_eq_of_lt (by omega)
  have hasy : List.map (fun i => st * i % 2 ^ 64) (List.range (w - 1)) =
      List.map (fun i => st * i) (List.range (w - 1)) := by
    apply List.map_congr_left
    intro i hi
    have hi2 : i < w - 1 := List.mem_range.mp hi
    have : st * i ≤ st * (w - 1) := Nat.mul_le_mul_left _ (by omega)
    exact Nat.mod_eq_of_lt (by omega)
  rw [hA, hR, hsz, hasy]
  obtain ⟨mem2, hrun2, hlen2, hcell2⟩ := work_spec fuel base (V - 1) (st * (w - 1)) (ms + 1)
    ((w - 1) * v_step) (V - (w - 1) * v_step) mem1 h1 (by omega) (by omega) (by omega)
    (fun u _ hu => hd u hu) (by omega)
    (by
      intro s hs
      rw [hinv (w - 1) s (le_refl _) hs, if_neg (by omega : ¬ w - 1 < w - 1)]
      omega)
  rw [hrun2, bind_ok]
  obtain ⟨mem3, hrun3, hlen3, hcell3⟩ := merge_loop_spec ready (st * (w - 1)) (ms + 1) (st * w)
    (cnt base 0 V) (fun s _ => by have := cnt_le base 0 V s; omega) (by omega)
    (List.map (fun i => st * i) (List.range (w - 1))).length
    (List.map (fun i => st * i) (List.range (w - 1))) mem2 rfl (by rw [hlen2, hlen])
    (by
      intro a ha
      obtain ⟨i, hi, rfl⟩ := List.mem_map.mp ha
      have hi2 : i < w - 1 := List.mem_range.mp hi
      have h3 : st * (i + 1) ≤ st * (w - 1) := Nat.mul_le_mul_left _ (by omega)
      rw [Nat.mul_succ] at h3
      omega)
    (by
      intro s hs
      have hmain : cell mem2 (st * (w - 1) + s) = cnt base ((w - 1) * v_step) (V - (w - 1) * v_step) s := by
        rw [hcell2, if_pos (by omega : st * (w - 1) ≤ st * (w - 1) + s ∧
          st * (w - 1) + s < st * (w - 1) + (ms + 1)), hinv (w - 1) s (le_refl _) hs,
          if_neg (by omega : ¬ w - 1 < w - 1)]
        have : st * (w - 1) + s - st * (w - 1) = s := by omega
        rw [this, Nat.zero_add]
      have hcol : col mem2 (List.map (fun i => st * i) (List.range (w - 1))) s =
          ((List.range (w - 1)).map (fun j => cnt base (j * v_step) v_step s)).sum := by
        unfold col
        rw [List.map_map]
        apply congrArg List.sum
        apply List.map_congr_left
        intro j hj
        have hj2 : j < w - 1 := List.mem_range.mp hj
        show cell mem2 (st * j + s) = _
        rw [hcell2, if_neg (fun h => by
          have := (slice_index hst1 hs).mp h
          omega), hinv j s (by omega) hs, if_pos hj2]
      rw [hmain, hcol, Nat.add_comm, cnt_chunks]
      apply congrArg (fun n => cnt base 0 n s)
      omega)
  rw [hrun3, bind_ok]
  exact read_span_spec mem3 (st * (w - 1)) (ms + 1) (cnt base 0 V) (by omega) hcell3

theorem merged_histogram_spec (fuel : Nat) {hw c base order : Nat} (ready : Nat → Nat) {p : Plan}
    (h1 : 0 < base) (h2 : base < 2 ^ 64) (hc2 : (base - 1) * (order / 2) + c < 2 ^ 64)
    (hf : base ^ (order / 2) < fuel) (hp : plan hw c base order = .ok p) :
    merged_histogram fuel ready base p =
      .ok ((List.range ((base - 1) * (order / 2) + 1)).map (cnt base 0 (base ^ (order / 2)))) := by
  obtain ⟨hc, hlt, hN, _, hpeq⟩ := plan_ok_facts h1 h2 hp
  have hk : kAsyncCountFactor = 600000 := rfl
  have hpos : 0 < base ^ (order / 2) := pow_pos h1 _
  have hbern := bernoulli h1 (order / 2)
  have hw1 := works_nr_of_pos hw (base ^ (order / 2)) hpos
  have hw2 := works_nr_of_le hw (base ^ (order / 2)) hpos
  obtain ⟨hst1, hst2⟩ := stride_of_ge c ((base - 1) * (order / 2)) hc hc2
  subst hpeq
  generalize hV : base ^ (order / 2) = V at *
  generalize hms : (base - 1) * (order / 2) = ms at *
  generalize hwdef : works_nr_of hw V = w at *
  generalize hst : stride_of c ms = st at *
  have hd := digits_ok (order / 2) fuel h1 (by rw [hV]; omega) (by rw [hV]; exact hf)
  rw [hV, hms] at hd
  unfold merged_histogram
  dsimp only
  by_cases hw3 : w < 2
  · rw [if_neg (not_not.mpr hw3), bind_ok]
    have hw4 : w = 1 := by omega
    subst hw4
    exact after_launch_spec fuel base ms st (V / 1) 1 V 0 ready _ (by simp) h1 (by omega)
      (by omega) hst1 hN (by omega) (by simp; omega) hf hd (by simp)
      (by
        intro j s _ _
        rw [cell_replicate, if_neg (by omega : ¬ j < 1 - 1)])
  · rw [if_pos hw3]
    have hdiv : w * (V / w) ≤ V := Nat.mul_div_le V w
    have hsplit : w * (V / w) = (w - 1) * (V / w) + V / w := by
      obtain ⟨a, rfl⟩ : ∃ a, w = a + 1 := ⟨w - 1, by omega⟩
      simp only [Nat.add_sub_cancel]
      ring
    have hstep : 0 < V / w := Nat.div_pos hw2 (by omega)
    have hstw : st * (w - 1 + 1) = st * w := by
      rw [Nat.sub_add_cancel hw1]
    obtain ⟨mem1, hrun1, hlen1, hcell1⟩ := launch_spec fuel base ms st (V / w) (w - 1) (st * w)
      (V - 1) h1 hst1 (by rw [hstw]) hN hstep (by omega) (by omega)
      (by
        have : V / w ≤ V := Nat.div_le_self V w
        omega)
      hd (w - 1) 0 (List.replicate (st * w) 0) (by omega) (by simp)
      (by
        intro j s _ _
        rw [cell_replicate, if_neg (by omega : ¬ j < 0)])
    rw [Nat.zero_mul] at hrun1
    rw [hrun1, bind_ok]
    exact after_launch_spec fuel base ms st (V / w) w V ((w - 1) * (V / w)) ready mem1 rfl h1
      hw1 (by omega) hst1 hN (by omega) (by omega) hf hd hlen1 hcell1

/-! ## The whole computation -/

theorem compute_plan_error {fuel hw c base order : Nat} (ready : Nat → Nat) {e : Fault}
    (h1 : 0 < base) (ho : 0 < order) (hp : plan hw c base order = .error e) :
    compute fuel hw c ready base order = .error e := by
  unfold compute
  rw [if_pos ⟨h1, ho⟩, hp]
  rfl

theorem map_sq (f : Nat → Nat) (l : List Nat) :
    ((l.map f).map (fun h => h * h)) = l.map (fun s => f s * f s) := by
  rw [List.map_map]
  rfl

theorem compute_plan_ok (fuel : Nat) {hw c base order : Nat} (ready : Nat → Nat) {p : Plan}
    (h1 : 0 < base) (h2 : base < 2 ^ 64) (ho : 0 < order)
    (hc2 : (base - 1) * (order / 2) + c < 2 ^ 64)
    (hf : base ^ (order / 2) < fuel) (hp : plan hw c base order = .ok p) :
    (exact_result base order < 2 ^ 64 → compute fuel hw c ready base order = .ok (exact_result base order)) ∧
    (2 ^ 64 ≤ exact_result base order →
      ∃ l r, compute fuel hw c ready base order = .error (.overflow_error l r)) := by
  have hm := merged_histogram_spec fuel ready h1 h2 hc2 hf hp
  have hsq : ((List.range ((base - 1) * (order / 2) + 1)).map
      (cnt base 0 (base ^ (order / 2)))).map (fun h => h * h) =
      (List.range ((base - 1) * (order / 2) + 1)).map
        (fun s => cnt base 0 (base ^ (order / 2)) s * cnt base 0 (base ^ (order / 2)) s) :=
    map_sq _ _
  unfold compute
  rw [if_pos ⟨h1, ho⟩, hp, bind_ok, hm, bind_ok]
  unfold exact_result
  by_cases hs : square_sum base (order / 2) < 2 ^ 64
  · have htr := transform_reduce_ok
      ((List.range ((base - 1) * (order / 2) + 1)).map (cnt base 0 (base ^ (order / 2)))) 0
      (by rw [hsq, Nat.zero_add]; exact hs)
    rw [hsq, Nat.zero_add] at htr
    rw [htr, bind_ok]
    by_cases hodd : order % 2 = 1
    · rw [if_pos hodd, if_pos hodd]
      constructor
      · intro hlt
        exact mul_ok hlt
      · intro hge
        exact ⟨_, _, mul_overflow hge⟩
    · rw [if_neg hodd, if_neg hodd, Nat.mul_one]
      constructor
      · intro _
        rfl
      · intro hge
        exact absurd hs (by unfold square_sum; omega)
  · have htr := transform_reduce_overflow
      ((List.range ((base - 1) * (order / 2) + 1)).map (cnt base 0 (base ^ (order / 2)))) 0
      (by norm_num) (by rw [hsq, Nat.zero_add]; exact Nat.le_of_not_lt hs)
    obtain ⟨a, b, hab⟩ := htr
    rw [hab, bind_error]
    constructor
    · intro hlt
      exfalso
      have : square_sum base (order / 2) ≤
          square_sum base (order / 2) * (if order % 2 = 1 then base else 1) := by
        apply Nat.le_mul_of_pos_right
        split <;> omega
      omega
    · intro _
      exact ⟨a, b, rfl⟩

/-! ## Values and digit strings -/

theorem dsum_digit {base d : Nat} (hb : 2 ≤ base) (hd : d < base) : dsum base d = d := by
  by_cases h0 : d = 0
  · subst h0
    exact dsum_zero base
  · rw [dsum_step hb h0, Nat.mod_eq_of_lt hd, Nat.div_eq_of_lt hd, dsum_zero]
    rfl

theorem dsum_high {base : Nat} (hb : 2 ≤ base) :
    ∀ (h d u : Nat), d < base → u < base ^ h → dsum base (d * base ^ h + u) = d + dsum base u := by
  intro h
  induction h with
  | zero =>
    intro d u hd hu
    have : u = 0 := by simpa using hu
    subst this
    simp [dsum_digit hb hd, dsum_zero]
  | succ h ih =>
    intro d u hd hu
    have hpos : 0 < base := by omega
    by_cases ht : d * base ^ (h + 1) + u = 0
    · have hu0 : u = 0 := by omega
      have hd0 : d = 0 := by
        have hp : 0 < base ^ (h + 1) := pow_pos hpos _
        rcases Nat.eq_zero_or_pos d with h0 | h0
        · exact h0
        · have := Nat.mul_pos h0 hp
          omega
      subst hu0 hd0
      simp [dsum_zero]
    · rw [dsum_step hb ht]
      have hrew : d * base ^ (h + 1) + u = u + d * base ^ h * base := by
        rw [pow_succ]
        ring
      have hmod : (d * base ^ (h + 1) + u) % base = u % base := by
        rw [hrew, Nat.add_mul_mod_self_right]
      have hdiv : (d * base ^ (h + 1) + u) / base = d * base ^ h + u / base := by
        rw [hrew, Nat.add_mul_div_right _ _ hpos]
        ring
      have hu2 : u / base < base ^ h := by
        rw [Nat.div_lt_iff_lt_mul hpos]
        rw [pow_succ] at hu
        exact hu
      rw [hmod, hdiv, ih d (u / base) hd hu2]
      by_cases hu0 : u = 0
      · subst hu0
        simp [dsum_zero]
      · rw [dsum_step hb hu0]
        omega

theorem range_mul (B : Nat) : ∀ n, List.range (n * B) =
    (List.range n).flatMap (fun d => (List.range B).map (fun u => d * B + u)) := by
  intro n
  induction n with
  | zero => simp
  | succ n ih =>
    rw [Nat.succ_mul, List.range_add, ih, List.range_succ, List.flatMap_append,
      List.flatMap_singleton]

theorem digit_sums_eq {base : Nat} (hb : 0 < base) :
    ∀ h, (List.range (base ^ h)).map (dsum base) = (strings base h).map List.sum := by
  intro h
  induction h with
  | zero =>
    have : List.range 1 = [0] := rfl
    simp [strings, dsum_zero, this]
  | succ h ih =>
    rw [pow_succ, Nat.mul_comm, range_mul, strings, List.map_flatMap, List.map_flatMap]
    apply List.flatMap_congr
    intro d hd
    have hd2 : d < base := List.mem_range.mp hd
    have hright : List.map List.sum (List.map (fun s => d :: s) (strings base h)) =
        List.map (fun x => d + x) (List.map (dsum base) (List.range (base ^ h))) := by
      rw [ih, List.map_map, List.map_map]
      apply List.map_congr_left
      intro s _
      simp
    rw [hright, List.map_map, List.map_map]
    apply List.map_congr_left
    intro u hu
    have hu2 : u < base ^ h := List.mem_range.mp hu
    show dsum base (d * base ^ h + u) = d + dsum base u
    by_cases hb2 : 2 ≤ base
    · exact dsum_high hb2 h d u hd2 hu2
    · have hb1 : base = 1 := by omega
      subst hb1
      have : d = 0 := by omega
      subst this
      have : u = 0 := by simpa using hu2
      subst this
      simp [dsum_zero]

theorem cnt_eq_string_hist {base : Nat} (hb : 0 < base) (h s : Nat) :
    cnt base 0 (base ^ h) s = string_hist base h s := by
  unfold cnt string_hist
  have h1 : List.range' 0 (base ^ h) = List.range (base ^ h) := by
    rw [List.range_eq_range']
  have h2 : List.countP (fun v => dsum base v == s) (List.range (base ^ h)) =
      List.countP (fun x => x == s) ((List.range (base ^ h)).map (dsum base)) := by
    rw [List.countP_map]
    rfl
  have h3 : List.countP (fun l => l.sum == s) (strings base h) =
      List.countP (fun x => x == s) ((strings base h).map List.sum) := by
    rw [List.countP_map]
    rfl
  rw [h1, h2, h3, digit_sums_eq hb h]

/-! ## Counting beautiful strings -/

theorem strings_length (base : Nat) : ∀ (n : Nat) (l : List Nat), l ∈ strings base n → l.length = n := by
  intro n
  induction n with
  | zero =>
    intro l hl
    simp [strings] at hl
    subst hl
    rfl
  | succ n ih =>
    intro l hl
    rw [strings, List.mem_flatMap] at hl
    obtain ⟨d, _, hl⟩ := hl
    obtain ⟨s, hs, rfl⟩ := List.mem_map.mp hl
    simp [ih s hs]

theorem strings_sum_le (base : Nat) :
    ∀ (n : Nat) (l : List Nat), l ∈ strings base n → l.sum ≤ (base - 1) * n := by
  intro n
  induction n with
  | zero =>
    intro l hl
    simp [strings] at hl
    subst hl
    simp
  | succ n ih =>
    intro l hl
    rw [strings, List.mem_flatMap] at hl
    obtain ⟨d, hd, hl⟩ := hl
    obtain ⟨s, hs, rfl⟩ := List.mem_map.mp hl
    have hd2 : d < base := List.mem_range.mp hd
    have := ih s hs
    rw [List.sum_cons, Nat.mul_succ]
    omega

theorem strings_add (base : Nat) : ∀ (m n : Nat), strings base (m + n) =
    (strings base m).flatMap (fun a => (strings base n).map (fun b => a ++ b)) := by
  intro m
  induction m with
  | zero =>
    intro n
    simp [strings]
  | succ m ih =>
    intro n
    have h1 : m + 1 + n = (m + n) + 1 := by omega
    rw [h1, strings, ih n, strings, List.flatMap_assoc]
    apply List.flatMap_congr
    intro d _
    rw [List.map_flatMap, List.flatMap_map]
    apply List.flatMap_congr
    intro a _
    rw [List.map_map]
    rfl

theorem strings_count (base : Nat) : ∀ n, (strings base n).length = base ^ n := by
  intro n
  induction n with
  | zero => simp [strings]
  | succ n ih =>
    rw [strings, List.length_flatMap]
    have : (List.length ∘ fun d => List.map (fun s => d :: s) (strings base n)) =
        fun _ => base ^ n := by
      funext d
      simp [ih]
    rw [this, List.map_const', List.sum_replicate, List.length_range, pow_succ]
    simp [Nat.mul_comm]

theorem sum_range_indicator (g : Nat → Nat) (x : Nat) :
    ∀ M, x < M → ((List.range M).map (fun s => if x = s then g s else 0)).sum = g x := by
  intro M
  induction M with
  | zero => intro h; omega
  | succ M ih =>
    intro h
    rw [List.range_succ, List.map_append, List.sum_append]
    simp only [List.map_cons, List.map_nil, List.sum_cons, List.sum_nil, Nat.add_zero]
    by_cases hx : x = M
    · subst hx
      have hz : ((List.range x).map (fun s => if x = s then g s else 0)).sum = 0 := by
        apply List.sum_eq_zero
        intro y hy
        obtain ⟨s, hs, rfl⟩ := List.mem_map.mp hy
        have : s < x := List.mem_range.mp hs
        rw [if_neg (by omega)]
      rw [hz, if_pos rfl, Nat.zero_add]
    · rw [ih (by omega), if_neg hx, Nat.add_zero]

theorem sum_group {α : Type} (f : α → Nat) (g : Nat → Nat) (M : Nat) :
    ∀ (L : List α), (∀ a ∈ L, f a < M) →
      (L.map (fun a => g (f a))).sum =
        ((List.range M).map (fun s => L.countP (fun b => f b == s) * g s)).sum := by
  intro L
  induction L with
  | nil => intro _; simp
  | cons a L ih =>
    intro hL
    have hsplit : (fun s => List.countP (fun b => f b == s) (a :: L) * g s) =
        fun s => List.countP (fun b => f b == s) L * g s + (if f a = s then g s else 0) := by
      funext s
      rw [List.countP_cons]
      by_cases h : f a = s
      · simp [h, Nat.add_mul]
      · simp [h]
    rw [hsplit, List.sum_map_add, List.map_cons, List.sum_cons,
      ih (fun b hb => hL b (List.mem_cons_of_mem _ hb)),
      sum_range_indicator g (f a) M (hL a (List.mem_cons_self _ _))]
    omega

theorem beautiful_append (order h k : Nat) (a m b : List Nat) (hh : order / 2 = h)
    (hk : order = h + (k + h)) (ha : a.length = h) (hm : m.length = k) :
    beautiful order (a ++ (m ++ b)) = (b.sum == a.sum) := by
  unfold beautiful
  have h1 : order - order / 2 = (a ++ m).length := by
    rw [List.length_append, ha, hm]
    omega
  have h2 : List.take (order / 2) (a ++ (m ++ b)) = a := by
    rw [hh, ← ha, List.take_left]
  rw [h2, h1, ← List.append_assoc, List.drop_left]
  exact Bool.beq_comm

theorem beautiful_count_split (base order h k : Nat) (hh : order / 2 = h)
    (hk : order = h + (k + h)) :
    beautiful_count base order =
      base ^ k * ((strings base h).map (fun a => string_hist base h a.sum)).sum := by
  unfold beautiful_count
  have hs : strings base order = (strings base h).flatMap (fun a =>
      ((strings base k).flatMap (fun m => (strings base h).map (fun b => m ++ b))).map
        (fun t => a ++ t)) := by
    rw [hk, strings_add, strings_add]
  rw [hs, List.countP_flatMap, ← List.sum_map_mul_left]
  apply congrArg List.sum
  apply List.map_congr_left
  intro a ha
  have hal := strings_length base h a ha
  show List.countP (beautiful order) (List.map (fun t => a ++ t)
    ((strings base k).flatMap (fun m => (strings base h).map (fun b => m ++ b)))) =
    base ^ k * string_hist base h a.sum
  rw [List.countP_map, List.countP_flatMap]
  have hinner : ∀ m ∈ strings base k,
      (List.countP (beautiful order ∘ fun t => a ++ t) ∘ fun m =>
        List.map (fun b => m ++ b) (strings base h)) m = string_hist base h a.sum := by
    intro m hm
    have hml := strings_length base k m hm
    show List.countP (beautiful order ∘ fun t => a ++ t)
      (List.map (fun b => m ++ b) (strings base h)) = string_hist base h a.sum
    rw [List.countP_map]
    unfold string_hist
    apply List.countP_congr
    intro b _
    show beautiful order (a ++ (m ++ b)) = true ↔ (b.sum == a.sum) = true
    rw [beautiful_append order h k a m b hh hk hal hml]
  rw [List.map_congr_left hinner, List.map_const', List.sum_replicate, strings_count]
  simp

theorem hist_sum_sq {base : Nat} (h : Nat) :
    ((strings base h).map (fun a => string_hist base h a.sum)).sum =
      ((List.range ((base - 1) * h + 1)).map
        (fun s => string_hist base h s * string_hist base h s)).sum := by
  exact sum_group List.sum (string_hist base h) ((base - 1) * h + 1) (strings base h)
    (fun a ha => by
      have := strings_sum_le base h a ha
      omega)

theorem exact_eq_beautiful_count {base : Nat} (hb : 0 < base) (order : Nat) :
    exact_result base order = beautiful_count base order := by
  have hk : order = order / 2 + (order % 2 + order / 2) := by omega
  rw [beautiful_count_split base order (order / 2) (order % 2) rfl hk, hist_sum_sq]
  unfold exact_result square_sum
  have hcnt : (fun s => cnt base 0 (base ^ (order / 2)) s * cnt base 0 (base ^ (order / 2)) s) =
      fun s => string_hist base (order / 2) s * string_hist base (order / 2) s := by
    funext s
    rw [cnt_eq_string_hist hb]
  rw [hcnt, Nat.mul_comm]
  congr 1
  rcases Nat.mod_two_eq_zero_or_one order with h0 | h1
  · rw [h0]
    simp
  · rw [h1]
    simp

/-! ## Consequences for the whole computation -/

theorem sum_cnt {base : Nat} (hb : 0 < base) (h : Nat) :
    ((List.range ((base - 1) * h + 1)).map (cnt base 0 (base ^ h))).sum = base ^ h := by
  have hg := sum_group (dsum base) (fun _ => 1) ((base - 1) * h + 1) (List.range' 0 (base ^ h))
    (fun v hv => by
      have hv2 : v < base ^ h := by
        have := List.mem_range'_1.mp hv
        omega
      have := dsum_bound hb h v hv2
      omega)
  simp only [Nat.mul_one] at hg
  rw [List.map_const', List.sum_replicate, List.length_range'] at hg
  simp only [smul_eq_mul, Nat.mul_one] at hg
  exact hg.symm

theorem square_sum_ge {base : Nat} (hb : 0 < base) (h : Nat) : base ^ h ≤ square_sum base h := by
  have h1 := sum_cnt hb h
  have h2 : ((List.range ((base - 1) * h + 1)).map (cnt base 0 (base ^ h))).sum ≤
      square_sum base h := by
    unfold square_sum
    apply List.sum_le_sum
    intro s _
    exact Nat.le_mul_self _
  omega

theorem exact_odd_ge {base : Nat} (hb : 0 < base) {order : Nat} (hodd : order % 2 = 1) :
    base ^ (order / 2) * base ≤ exact_result base order := by
  unfold exact_result
  rw [if_pos hodd]
  exact Nat.mul_le_mul_right _ (square_sum_ge hb (order / 2))

theorem compute_eq_reduce {fuel hw c base order : Nat} (ready : Nat → Nat) {p : Plan}
    (h1 : 0 < base) (h2 : base < 2 ^ 64) (ho : 0 < order)
    (hc2 : (base - 1) * (order / 2) + c < 2 ^ 64)
    (hf : base ^ (order / 2) < fuel) (hp : plan hw c base order = .ok p) :
    compute fuel hw c ready base order =
      (transform_reduce
        ((List.range ((base - 1) * (order / 2) + 1)).map (cnt base 0 (base ^ (order / 2)))) 0 >>=
          fun result => if order % 2 = 1 then mul result base else .ok result) := by
  have hm := merged_histogram_spec fuel ready h1 h2 hc2 hf hp
  unfold compute
  rw [if_pos ⟨h1, ho⟩, hp, bind_ok, hm, bind_ok]

theorem plan_single {hw c base order : Nat} {p : Plan} (h1 : 0 < base) (h2 : base < 2 ^ 64)
    (hp : plan hw c base order = .ok p) :
    ∃ p1, plan 1 c base order = .ok p1 := by
  obtain ⟨hc, hlt, hN, harr, _⟩ := plan_ok_facts h1 h2 hp
  have hpos : 0 < base ^ (order / 2) := pow_pos h1 _
  have hw1 := works_nr_of_pos hw (base ^ (order / 2)) hpos
  have hone : works_nr_of 1 (base ^ (order / 2)) = 1 := by
    have := works_nr_of_pos 1 (base ^ (order / 2)) hpos
    unfold works_nr_of at this ⊢
    omega
  have hle : stride_of c ((base - 1) * (order / 2)) * 1 ≤
      stride_of c ((base - 1) * (order / 2)) * works_nr_of hw (base ^ (order / 2)) :=
    Nat.mul_le_mul_left _ hw1
  rw [plan_eval h1 h2 hlt, hone, if_neg (by omega), if_neg (by omega), if_neg (by omega)]
  exact ⟨_, rfl⟩

theorem plan_half {hw c base order order1 : Nat} (h : order / 2 = order1 / 2) :
    plan hw c base order = plan hw c base order1 := by
  unfold plan
  rw [h]

theorem plan_base_one (hw : Nat) {c : Nat} (order : Nat) (hc : 0 < c) (hc2 : c ≤ 64) :
    ∃ p, plan hw c 1 order = .ok p := by
  have hst := stride_of_ge c 0 hc (by omega)
  rw [plan_eval (by omega) (by norm_num) (by simp [kAsyncCountFactor])]
  simp only [Nat.sub_self, Nat.zero_mul, one_pow, works_nr_of_one, Nat.mul_one]
  rw [if_neg (by omega), if_neg (by omega), if_neg (by unfold array_new_max_length; omega)]
  exact ⟨_, rfl⟩

theorem exact_base_one (order : Nat) : exact_result 1 order = 1 := by
  unfold exact_result square_sum
  have hl : List.range 1 = [0] := rfl
  simp only [Nat.sub_self, Nat.zero_mul, Nat.zero_add, one_pow, hl, List.map_cons, List.map_nil,
    List.sum_cons, List.sum_nil]
  have hc : cnt 1 0 1 0 = 1 := by
    rw [cnt_succ, cnt_zero, dsum_zero]
    rfl
  rw [hc]
  split <;> rfl

theorem no_wrap_of_plan {hw c base order : Nat} {p : Plan} (h1 : 0 < base) (h2 : base < 2 ^ 64)
    (hc2 : c ≤ 64) (hp : plan hw c base order = .ok p) :
    (base - 1) * (order / 2) + c < 2 ^ 64 := by
  obtain ⟨_, hlt, _, _, _⟩ := plan_ok_facts h1 h2 hp
  have hbern := bernoulli h1 (order / 2)
  have hk : kAsyncCountFactor = 600000 := rfl
  omega

/-! ## More fuel does not change a result -/

theorem digit_loop_mono (base : Nat) :
    ∀ (f x t r : Nat), digit_loop base f x t = .ok r →
      ∀ f1, f ≤ f1 → digit_loop base f1 x t = .ok r := by
  intro f
  induction f with
  | zero =>
    intro x t r h
    rw [digit_loop] at h
    cases h
  | succ f ih =>
    intro x t r h f1 hf
    obtain ⟨g, rfl⟩ : ∃ g, f1 = g + 1 := ⟨f1 - 1, by omega⟩
    rw [digit_loop] at h ⊢
    by_cases ht : t = 0
    · rw [if_pos ht] at h ⊢
      exact h
    · rw [if_neg ht] at h ⊢
      exact ih _ _ r h g (by omega)

theorem work_loop_mono (f base v_max off size : Nat) :
    ∀ (k v : Nat) (mem r : List Nat), work_loop f base v_max off size k v mem = .ok r →
      ∀ f1 k1, f ≤ f1 → k ≤ k1 → work_loop f1 base v_max off size k1 v mem = .ok r := by
  intro k
  induction k with
  | zero =>
    intro v mem r h
    rw [work_loop] at h
    cases h
  | succ k ih =>
    intro v mem r h f1 k1 hf hk
    obtain ⟨g, rfl⟩ : ∃ g, k1 = g + 1 := ⟨k1 - 1, by omega⟩
    rw [work_loop] at h ⊢
    by_cases hv : v ≤ v_max
    · rw [if_pos hv] at h ⊢
      cases hd : digit_loop base f 0 v with
      | error e =>
        rw [hd] at h
        cases h
      | ok x =>
        rw [hd] at h
        rw [digit_loop_mono base f 0 v x hd f1 hf]
        simp only [] at h ⊢
        by_cases hx : x < size
        · rw [if_pos hx] at h ⊢
          cases hm : mem[off + x]? with
          | none =>
            rw [hm] at h
            cases h
          | some cnt =>
            rw [hm] at h
            simp only [] at h ⊢
            exact ih _ _ r h f1 g hf (by omega)
        · rw [if_neg hx] at h
          cases h
    · rw [if_neg hv] at h ⊢
      exact h

theorem work_mono {f v_min v_max base off size : Nat} {mem r : List Nat}
    (h : work f v_min v_max base off size mem = .ok r) {f1 : Nat} (hf : f ≤ f1) :
    work f1 v_min v_max base off size mem = .ok r := by
  unfold work at h ⊢
  by_cases hb : base = 0
  · rw [if_pos hb] at h
    cases h
  · rw [if_neg hb] at h ⊢
    exact work_loop_mono f base v_max off size f v_min mem r h f1 f1 hf hf

theorem launch_mono (f base max_sum stride v_step : Nat) :
    ∀ (n i v_min : Nat) (mem : List Nat) (r : Nat × List Nat),
      launch f base max_sum stride v_step n i v_min mem = .ok r →
      ∀ f1, f ≤ f1 → launch f1 base max_sum stride v_step n i v_min mem = .ok r := by
  intro n
  induction n with
  | zero =>
    intro i v_min mem r h f1 _
    rw [launch] at h ⊢
    exact h
  | succ n ih =>
    intro i v_min mem r h f1 hf
    rw [launch] at h ⊢
    cases hw : work f v_min ((v_min + v_step + 2 ^ 64 - 1) % 2 ^ 64) base
        ((stride * i) % 2 ^ 64) ((max_sum + 1) % 2 ^ 64) mem with
    | error e =>
      rw [hw] at h
      cases h
    | ok mem1 =>
      rw [hw] at h
      rw [work_mono hw hf]
      simp only [] at h ⊢
      exact ih _ _ _ r h f1 hf

theorem merged_histogram_mono {f base : Nat} {ready : Nat → Nat} {p : Plan} {r : List Nat}
    (h : merged_histogram f ready base p = .ok r) {f1 : Nat} (hf : f ≤ f1) :
    merged_histogram f1 ready base p = .ok r := by
  unfold merged_histogram at h ⊢
  dsimp only at h ⊢
  by_cases hw : p.works_nr < 2
  · rw [if_neg (not_not.mpr hw), bind_ok] at h ⊢
    cases hwk : work f (0, List.replicate p.buffer_size 0).1 p.v_max base
        (p.u64_chunks_nr_per_work * ((p.works_nr + 2 ^ 64 - 1) % 2 ^ 64) % 2 ^ 64)
        ((p.max_sum + 1) % 2 ^ 64) (0, List.replicate p.buffer_size 0).2 with
    | error e =>
      rw [hwk, bind_error] at h
      cases h
    | ok mem1 =>
      rw [hwk] at h
      rw [work_mono hwk hf]
      exact h
  · rw [if_pos hw] at h ⊢
    cases hl : launch f base p.max_sum p.u64_chunks_nr_per_work (p.v_count / p.works_nr)
        p.asyncs_size 0 0 (List.replicate p.buffer_size 0) with
    | error e =>
      rw [hl, bind_error] at h
      cases h
    | ok y =>
      rw [hl, bind_ok] at h
      rw [launch_mono _ _ _ _ _ _ _ _ _ y hl f1 hf, bind_ok]
      cases hwk : work f y.1 p.v_max base
          (p.u64_chunks_nr_per_work * ((p.works_nr + 2 ^ 64 - 1) % 2 ^ 64) % 2 ^ 64)
          ((p.max_sum + 1) % 2 ^ 64) y.2 with
      | error e =>
        rw [hwk, bind_error] at h
        cases h
      | ok mem1 =>
        rw [hwk] at h
        rw [work_mono hwk hf]
        exact h

theorem compute_mono {f hw c base order r : Nat} {ready : Nat → Nat}
    (h : compute f hw c ready base order = .ok r) {f1 : Nat} (hf : f ≤ f1) :
    compute f1 hw c ready base order = .ok r := by
  unfold compute at h ⊢
  by_cases hb : 0 < base ∧ 0 < order
  · rw [if_pos hb] at h ⊢
    cases hp : plan hw c base order with
    | error e =>
      rw [hp, bind_error] at h
      cases h
    | ok p =>
      rw [hp, bind_ok] at h
      rw [bind_ok]
      cases hm : merged_histogram f ready base p with
      | error e =>
        rw [hm, bind_error] at h
        cases h
      | ok hist =>
        rw [hm] at h
        rw [merged_histogram_mono hm hf]
        exact h
  · rw [if_neg hb] at h ⊢
    exact h

/-! ## A stride that wraps leaves no buffer -/

theorem work_nil (fuel v_min v_max base off size : Nat) (hb : base ≠ 0) (hv : v_min ≤ v_max)
    (r : List Nat) : work fuel v_min v_max base off size [] ≠ .ok r := by
  unfold work
  rw [if_neg hb]
  cases fuel with
  | zero =>
    rw [work_loop]
    intro h
    cases h
  | succ k =>
    rw [work_loop, if_pos hv]
    cases digit_loop base (k + 1) 0 v_min with
    | error e =>
      intro h
      cases h
    | ok x =>
      simp only []
      by_cases hx : x < size
      · rw [if_pos hx]
        have : ([] : List Nat)[off + x]? = none := rfl
        rw [this]
        intro h
        cases h
      · rw [if_neg hx]
        intro h
        cases h

theorem stride_wrap (c ms : Nat) (hc : 0 < c) (hms : ms < 2 ^ 64) (hge : 2 ^ 64 ≤ ms + c) :
    stride_of c ms = 0 := by
  unfold stride_of
  have h0 : ms + 1 + c - 1 = ms + c := by omega
  have hq : (ms + c) % 2 ^ 64 / c = 0 := by
    apply Nat.div_eq_of_lt
    by_cases hc2 : c < 2 ^ 64
    · omega
    · have := Nat.mod_lt (ms + c) (by norm_num : 0 < 2 ^ 64)
      omega
  rw [h0, hq]
  simp

theorem merged_histogram_wrap (fuel : Nat) (ready : Nat → Nat) (base : Nat) (p : Plan)
    (hb : base ≠ 0) (hsize : p.buffer_size = 0) (hw : ¬ p.works_nr < 2 → 0 < p.asyncs_size)
    (r : List Nat) : merged_histogram fuel ready base p ≠ .ok r := by
  unfold merged_histogram
  dsimp only
  rw [hsize]
  by_cases hw2 : p.works_nr < 2
  · rw [if_neg (not_not.mpr hw2), bind_ok]
    cases hwk : work fuel (0, List.replicate 0 0).1 p.v_max base
        (p.u64_chunks_nr_per_work * ((p.works_nr + 2 ^ 64 - 1) % 2 ^ 64) % 2 ^ 64)
        ((p.max_sum + 1) % 2 ^ 64) (0, List.replicate 0 0).2 with
    | error e =>
      rw [bind_error]
      intro h
      cases h
    | ok mem1 =>
      exact absurd hwk (work_nil _ _ _ _ _ _ hb (Nat.zero_le _) mem1)
  · rw [if_pos hw2]
    obtain ⟨n, hn⟩ : ∃ n, p.asyncs_size = n + 1 := ⟨p.asyncs_size - 1, by
      have := hw hw2
      omega⟩
    rw [hn, launch]
    cases hwk : work fuel 0 ((0 + p.v_count / p.works_nr + 2 ^ 64 - 1) % 2 ^ 64) base
        (p.u64_chunks_nr_per_work * 0 % 2 ^ 64) ((p.max_sum + 1) % 2 ^ 64)
        (List.replicate 0 0) with
    | error e =>
      simp only []
      rw [bind_error]
      intro h
      cases h
    | ok mem1 =>
      exact absurd hwk (work_nil _ _ _ _ _ _ hb (Nat.zero_le _) mem1)

/-- Whenever the computation returns a value, the value is `exact_result base order`. -/
theorem compute_ok_exact {fuel hw c base order r : Nat} {ready : Nat → Nat}
    (h1 : 0 < base) (h2 : base < 2 ^ 64) (ho : 0 < order)
    (h : compute fuel hw c ready base order = .ok r) : r = exact_result base order ∧ r < 2 ^ 64 := by
  cases hp : plan hw c base order with
  | error e =>
    rw [compute_plan_error ready h1 ho hp] at h
    cases h
  | ok p =>
    obtain ⟨hc, hlt, hN, _, hpeq⟩ := plan_ok_facts h1 h2 hp
    have hbern := bernoulli h1 (order / 2)
    have hk : kAsyncCountFactor = 600000 := rfl
    by_cases hwrap : (base - 1) * (order / 2) + c < 2 ^ 64
    · have hbig := compute_mono h (Nat.le_max_left fuel (base ^ (order / 2) + 1))
      have hf : base ^ (order / 2) < max fuel (base ^ (order / 2) + 1) := by
        have := Nat.le_max_right fuel (base ^ (order / 2) + 1)
        omega
      obtain ⟨hok, herr⟩ := compute_plan_ok _ ready h1 h2 ho hwrap hf hp
      by_cases hex : exact_result base order < 2 ^ 64
      · rw [hok hex] at hbig
        have := Except.ok.inj hbig
        omega
      · obtain ⟨l, r1, he⟩ := herr (by omega)
        rw [he] at hbig
        cases hbig
    · exfalso
      have hst := stride_wrap c ((base - 1) * (order / 2)) hc (by omega) (by omega)
      have hpos : 0 < base ^ (order / 2) := pow_pos h1 _
      have hw1 := works_nr_of_pos hw (base ^ (order / 2)) hpos
      unfold compute at h
      rw [if_pos ⟨h1, ho⟩, hp, bind_ok] at h
      cases hm : merged_histogram fuel ready base p with
      | error e =>
        rw [hm, bind_error] at h
        cases h
      | ok hist =>
        refine absurd hm (merged_histogram_wrap fuel ready base p (by omega) ?_ ?_ hist)
        · rw [hpeq]
          show stride_of c ((base - 1) * (order / 2)) * works_nr_of hw (base ^ (order / 2)) = 0
          rw [hst, Nat.zero_mul]
        · rw [hpeq]
          show ¬ works_nr_of hw (base ^ (order / 2)) < 2 →
            0 < works_nr_of hw (base ^ (order / 2)) - 1
          omega

/-! ## Merging the histograms of a split -/

theorem list_eq_of_cell (l : List Nat) (n : Nat) (f : Nat → Nat) (hlen : l.length = n)
    (hcell : ∀ i, i < n → cell l i = f i) : l = (List.range n).map f := by
  apply List.ext_getElem
  · simp [hlen]
  · intro i h1 h2
    have hi : i < n := by omega
    simp only [List.getElem_map, List.getElem_range]
    rw [← hcell i hi]
    have := cell_of_lt h1
    rw [List.getElem?_eq_getElem h1] at this
    exact Option.some.inj this

theorem cell_map_range (n : Nat) (f : Nat → Nat) (i : Nat) (hi : i < n) :
    cell ((List.range n).map f) i = f i := by
  unfold cell
  rw [List.getElem?_eq_getElem (by simpa using hi)]
  simp

theorem cell_append_left (l1 l2 : List Nat) (i : Nat) (hi : i < l1.length) :
    cell (l1 ++ l2) i = cell l1 i := by
  unfold cell
  rw [List.getElem?_append_left hi]

theorem cell_append_right (l1 l2 : List Nat) (i : Nat) :
    cell (l1 ++ l2) (l1.length + i) = cell l2 i := by
  unfold cell
  rw [List.getElem?_append_right (by omega)]
  congr 2
  omega

theorem cell_take (l : List Nat) (n i : Nat) (hi : i < n) : cell (l.take n) i = cell l i := by
  unfold cell
  rw [List.getElem?_take_of_lt hi]

theorem range_histogram_spec (fuel base size lo n : Nat) (h1 : 0 < base) (hn : 0 < n)
    (hmax : lo + n < 2 ^ 64) (hf : n < fuel)
    (hd : ∀ u, lo ≤ u → u ≤ lo + n - 1 →
      digit_loop base fuel 0 u = .ok (dsum base u) ∧ dsum base u < size) :
    range_histogram fuel base size lo (lo + n - 1) = .ok ((List.range size).map (cnt base lo n)) := by
  unfold range_histogram
  obtain ⟨mem1, hrun, hlen, hcell⟩ := work_spec fuel base (lo + n - 1) 0 size lo n
    (List.replicate size 0) h1 (by omega) (by omega) hf hd (by simp)
    (by
      intro s _
      rw [cell_replicate]
      omega)
  rw [hrun]
  congr 1
  apply list_eq_of_cell mem1 size _ (by rw [hlen]; simp)
  intro i hi
  rw [hcell, if_pos (by omega : 0 ≤ i ∧ i < 0 + size), cell_replicate]
  simp

theorem add_histogram_spec (size : Nat) (f g : Nat → Nat)
    (hsum : ∀ s, s < size → f s + g s < 2 ^ 64) :
    add_histogram ((List.range size).map f) ((List.range size).map g) =
      .ok ((List.range size).map (fun s => f s + g s)) := by
  unfold add_histogram
  have hl1 : ((List.range size).map f).length = size := by simp
  have hl2 : ((List.range size).map g).length = size := by simp
  rw [hl1, hl2, Nat.min_self]
  obtain ⟨mem1, hrun, hlen, hcell⟩ := transform_plus_spec 0 size size size 0
    ((List.range size).map f ++ (List.range size).map g) (by omega)
    (by rw [List.length_append, hl1, hl2]; omega)
    (by rw [List.length_append, hl1, hl2])
    (Or.inr (by omega))
    (by
      intro s _ hs
      have e1 : cell ((List.range size).map f ++ (List.range size).map g) (0 + s) = f s := by
        rw [Nat.zero_add, cell_append_left _ _ s (by rw [hl1]; exact hs), cell_map_range size f s hs]
      have e2 : cell ((List.range size).map f ++ (List.range size).map g) (size + s) = g s := by
        have := cell_append_right ((List.range size).map f) ((List.range size).map g) s
        rw [hl1] at this
        rw [this, cell_map_range size g s hs]
      rw [e1, e2]
      exact hsum s hs)
  rw [hrun]
  simp only []
  congr 1
  apply list_eq_of_cell _ size _ (by
    rw [List.length_take, hlen, List.length_append, hl1, hl2]
    omega)
  intro i hi
  rw [cell_take _ _ _ hi, hcell, if_pos (by omega : 0 + 0 ≤ i ∧ i < 0 + size)]
  have e1 : cell ((List.range size).map f ++ (List.range size).map g) i = f i := by
    rw [cell_append_left _ _ i (by rw [hl1]; exact hi), cell_map_range size f i hi]
  have e2 : cell ((List.range size).map f ++ (List.range size).map g) (size + (i - 0)) = g i := by
    have := cell_append_right ((List.range size).map f) ((List.range size).map g) i
    rw [hl1] at this
    rw [Nat.sub_zero, this, cell_map_range size g i hi]
  rw [e1, e2]

theorem merge_histograms_spec (size : Nat) :
    ∀ (gs : List (Nat → Nat)) (f : Nat → Nat),
      (∀ s, s < size → f s + (gs.map (fun g => g s)).sum < 2 ^ 64) →
      merge_histograms ((List.range size).map f) (gs.map (fun g => (List.range size).map g)) =
        .ok ((List.range size).map (fun s => f s + (gs.map (fun g => g s)).sum)) := by
  intro gs
  induction gs with
  | nil =>
    intro f _
    simp [merge_histograms]
  | cons g gs ih =>
    intro f hsum
    have hadd := add_histogram_spec size f g (by
      intro s hs
      have := hsum s hs
      simp only [List.map_cons, List.sum_cons] at this
      generalize (gs.map (fun g => g s)).sum = rest at this
      omega)
    have hrest := ih (fun s => f s + g s) (by
      intro s hs
      have := hsum s hs
      simp only [List.map_cons, List.sum_cons] at this
      show f s + g s + (gs.map (fun g => g s)).sum < 2 ^ 64
      generalize (gs.map (fun g => g s)).sum = rest at this ⊢
      omega)
    rw [List.map_cons, merge_histograms, hadd]
    simp only []
    rw [hrest]
    congr 1
    apply List.map_congr_left
    intro s _
    simp only [List.map_cons, List.sum_cons]
    generalize (gs.map (fun g => g s)).sum = rest
    omega

theorem split_ranges_mem :
    ∀ (ns : List Nat) (lo : Nat), (∀ n ∈ ns, 0 < n) →
      ∀ r ∈ split_ranges lo ns, lo ≤ r.1 ∧ r.1 ≤ r.2 ∧ r.2 < lo + ns.sum := by
  intro ns
  induction ns with
  | nil =>
    intro lo _ r hr
    simp [split_ranges] at hr
  | cons n ns ih =>
    intro lo hpos r hr
    have hn : 0 < n := hpos n (List.mem_cons_self _ _)
    rw [split_ranges, List.mem_cons] at hr
    rw [List.sum_cons]
    rcases hr with hr | hr
    · subst hr
      simp only
      omega
    · have := ih (lo + n) (fun m hm => hpos m (List.mem_cons_of_mem _ hm)) r hr
      omega

theorem split_ranges_cnt (base s : Nat) :
    ∀ (ns : List Nat) (lo : Nat), (∀ n ∈ ns, 0 < n) →
      ((split_ranges lo ns).map (fun r => cnt base r.1 (r.2 - r.1 + 1) s)).sum =
        cnt base lo ns.sum s := by
  intro ns
  induction ns with
  | nil =>
    intro lo _
    simp [split_ranges, cnt_zero]
  | cons n ns ih =>
    intro lo hpos
    have hn : 0 < n := hpos n (List.mem_cons_self _ _)
    have e : lo + n - 1 - lo + 1 = n := by omega
    rw [split_ranges, List.map_cons, List.sum_cons, List.sum_cons,
      ih (lo + n) (fun m hm => hpos m (List.mem_cons_of_mem _ hm)), cnt_add base lo n ns.sum s]
    simp only [e]

theorem range_histograms_spec {fuel base size V : Nat} (h1 : 0 < base) (hV : V < 2 ^ 64)
    (hf : V < fuel)
    (hd : ∀ u, u < V → digit_loop base fuel 0 u = .ok (dsum base u) ∧ dsum base u < size) :
    ∀ (rs : List (Nat × Nat)), (∀ r ∈ rs, r.1 ≤ r.2 ∧ r.2 < V) →
      range_histograms fuel base size rs =
        .ok (rs.map (fun r => (List.range size).map (cnt base r.1 (r.2 - r.1 + 1)))) := by
  intro rs
  induction rs with
  | nil =>
    intro _
    rfl
  | cons r rs ih =>
    intro hr
    obtain ⟨hr1, hr2⟩ := hr r (List.mem_cons_self _ _)
    have hspec := range_histogram_spec fuel base size r.1 (r.2 - r.1 + 1) h1 (by omega)
      (by omega) (by omega)
      (fun u _ hu => hd u (by omega))
    have hhi : r.1 + (r.2 - r.1 + 1) - 1 = r.2 := by omega
    rw [hhi] at hspec
    rw [range_histograms, hspec]
    simp only []
    rw [ih (fun r1 hr1 => hr r1 (List.mem_cons_of_mem _ hr1))]
    rfl

theorem merge_split {fuel hw c base order : Nat} {p : Plan} (h1 : 0 < base) (h2 : base < 2 ^ 64)
    (hp : plan hw c base order = .ok p) (hf : base ^ (order / 2) < fuel) (ns : List Nat)
    (hpos : ∀ n ∈ ns, 0 < n) (hsum : ns.sum = p.v_max + 1) (rs : List (Nat × Nat))
    (hperm : rs.Perm (split_ranges 0 ns)) :
    ∃ hs whole, range_histograms fuel base (p.max_sum + 1) rs = .ok hs ∧
      range_histogram fuel base (p.max_sum + 1) 0 p.v_max = .ok whole ∧
      merge_all hs = .ok whole := by
  obtain ⟨_, hlt, _, _, hpeq⟩ := plan_ok_facts h1 h2 hp
  have hk : kAsyncCountFactor = 600000 := rfl
  have hVpos : 0 < base ^ (order / 2) := pow_pos h1 _
  subst hpeq
  simp only at hsum ⊢
  have hsum2 : ns.sum = base ^ (order / 2) := by omega
  have hd := digits_ok (order / 2) fuel h1 (by omega) hf
  have hd2 : ∀ u, u < base ^ (order / 2) →
      digit_loop base fuel 0 u = .ok (dsum base u) ∧ dsum base u < (base - 1) * (order / 2) + 1 :=
    fun u hu => hd u (by omega)
  have hmem : ∀ r ∈ rs, r.1 ≤ r.2 ∧ r.2 < base ^ (order / 2) := by
    intro r hr
    have := split_ranges_mem ns 0 hpos r (hperm.subset hr)
    omega
  have htotal : ∀ s, (rs.map (fun r => cnt base r.1 (r.2 - r.1 + 1) s)).sum =
      cnt base 0 (base ^ (order / 2)) s := by
    intro s
    rw [(hperm.map _).sum_eq, split_ranges_cnt base s ns 0 hpos, hsum2]
  have hwhole := range_histogram_spec fuel base ((base - 1) * (order / 2) + 1) 0
    (base ^ (order / 2)) h1 hVpos
    (by omega) hf (fun u _ hu => hd u (by omega))
  rw [Nat.zero_add] at hwhole
  refine ⟨_, _, range_histograms_spec h1 (by omega) hf hd2 rs hmem, hwhole, ?_⟩
  cases rs with
  | nil =>
    exfalso
    have := htotal 0
    have h0 : cnt base 0 (base ^ (order / 2)) 0 ≥ 1 := by
      obtain ⟨n, hn⟩ : ∃ n, base ^ (order / 2) = n + 1 := ⟨base ^ (order / 2) - 1, by omega⟩
      rw [hn, cnt_succ, dsum_zero]
      simp
    simp at this
    omega
  | cons r rest =>
    rw [List.map_cons, merge_all]
    have hm := merge_histograms_spec ((base - 1) * (order / 2) + 1)
      (rest.map (fun r => cnt base r.1 (r.2 - r.1 + 1))) (cnt base r.1 (r.2 - r.1 + 1))
      (by
        intro s _
        have := htotal s
        have hle := cnt_le base 0 (base ^ (order / 2)) s
        simp only [List.map_cons, List.sum_cons] at this
        rw [List.map_map]
        have e : ((fun g => g s) ∘ fun r : Nat × Nat => cnt base r.1 (r.2 - r.1 + 1)) =
            fun r => cnt base r.1 (r.2 - r.1 + 1) s := rfl
        rw [e]
        omega)
    rw [List.map_map] at hm
    have e1 : ((fun g => (List.range ((base - 1) * (order / 2) + 1)).map g) ∘
        fun r : Nat × Nat => cnt base r.1 (r.2 - r.1 + 1)) =
        fun r => (List.range ((base - 1) * (order / 2) + 1)).map (cnt base r.1 (r.2 - r.1 + 1)) :=
      rfl
    rw [e1] at hm
    rw [hm]
    congr 1
    apply List.map_congr_left
    intro s _
    have := htotal s
    simp only [List.map_cons, List.sum_cons] at this
    rw [List.map_map]
    exact this

/-! ## `parse` -/

theorem length_takeWhile_add (p : Char → Bool) (l : List Char) :
    (l.takeWhile p).length + (l.dropWhile p).length = l.length := by
  rw [← List.length_append, List.takeWhile_append_dropWhile]

theorem strip_sign_length (l : List Char) : (strip_sign l).1.length ≤ l.length := by
  cases l with
  | nil => simp [strip_sign]
  | cons ch rest =>
    simp only [strip_sign]
    split_ifs <;> simp

theorem unsigned_digits_length (arg : List Char) : (unsigned_digits arg).length ≤ arg.length := by
  unfold unsigned_digits
  have h1 := strip_sign_length (arg.dropWhile isspace)
  have h2 := length_takeWhile_add isspace arg
  omega

theorem takeWhile_eq_of_length (p : Char → Bool) (l : List Char)
    (h : (l.takeWhile p).length = l.length) : l.takeWhile p = l := by
  have h1 := length_takeWhile_add p l
  have h2 : (l.dropWhile p).length = 0 := by omega
  have h3 : l.dropWhile p = [] := List.length_eq_zero.mp h2
  have h4 := List.takeWhile_append_dropWhile p l
  rw [h3, List.append_nil] at h4
  exact h4

theorem parse_nonempty (noconv_errno : Bool) (arg : List Char) (harg : arg ≠ []) :
    parse noconv_errno arg =
      if unsigned_digits arg ≠ [] ∧ (∀ ch ∈ unsigned_digits arg, isdigit ch = true) ∧
          decimal 0 (unsigned_digits arg) < 2 ^ 64 then
        .ok (if has_minus arg then (2 ^ 64 - decimal 0 (unsigned_digits arg)) % 2 ^ 64
          else decimal 0 (unsigned_digits arg))
      else .error .invalid_argument := by
  have hlen : 0 < arg.length := List.length_pos.mpr harg
  have hb := unsigned_digits_length arg
  have ht := length_takeWhile_add isdigit (unsigned_digits arg)
  unfold parse strtoul
  simp only []
  have e1 : (strip_sign (arg.dropWhile isspace)).1 = unsigned_digits arg := rfl
  have e2 : (strip_sign (arg.dropWhile isspace)).2 = has_minus arg := rfl
  rw [e1, e2]
  by_cases hall : ∀ ch ∈ unsigned_digits arg, isdigit ch = true
  · have htw : (unsigned_digits arg).takeWhile isdigit = unsigned_digits arg :=
      List.takeWhile_eq_self_iff.mpr hall
    rw [htw]
    by_cases hnil : unsigned_digits arg = []
    · have hcond : ¬ (unsigned_digits arg ≠ [] ∧
          (∀ ch ∈ unsigned_digits arg, isdigit ch = true) ∧
          decimal 0 (unsigned_digits arg) < 2 ^ 64) := fun h => h.1 hnil
      rw [if_neg hcond, hnil]
      simp only [List.isEmpty_nil, if_true]
      rw [if_pos (Or.inr hlen)]
    · have hne : (unsigned_digits arg).isEmpty = false := by
        cases h : unsigned_digits arg with
        | nil => exact absurd h hnil
        | cons a l => rfl
      rw [hne]
      simp only [Bool.false_eq_true, if_false]
      by_cases hn : 2 ^ 64 ≤ decimal 0 (unsigned_digits arg)
      · have hcond : ¬ (unsigned_digits arg ≠ [] ∧
            (∀ ch ∈ unsigned_digits arg, isdigit ch = true) ∧
            decimal 0 (unsigned_digits arg) < 2 ^ 64) := fun h => by omega
        rw [if_pos hn, if_neg hcond]
        simp only [true_or, if_true]
      · have hcond : unsigned_digits arg ≠ [] ∧ (∀ ch ∈ unsigned_digits arg, isdigit ch = true) ∧
            decimal 0 (unsigned_digits arg) < 2 ^ 64 := ⟨hnil, hall, by omega⟩
        rw [if_neg hn, if_pos hcond]
        simp only [Bool.false_eq_true, false_or]
        rw [if_neg (by omega : ¬ arg.length - (unsigned_digits arg).length +
          (unsigned_digits arg).length < arg.length)]
  · have hcond : ¬ (unsigned_digits arg ≠ [] ∧ (∀ ch ∈ unsigned_digits arg, isdigit ch = true) ∧
        decimal 0 (unsigned_digits arg) < 2 ^ 64) := fun h => hall h.2.1
    rw [if_neg hcond]
    have hshort : ((unsigned_digits arg).takeWhile isdigit).length <
        (unsigned_digits arg).length := by
      by_contra hcon
      have : ((unsigned_digits arg).takeWhile isdigit).length = (unsigned_digits arg).length := by
        omega
      exact hall (List.takeWhile_eq_self_iff.mp (takeWhile_eq_of_length _ _ this))
    by_cases hemp : ((unsigned_digits arg).takeWhile isdigit).isEmpty = true
    · rw [hemp]
      simp only [if_true]
      rw [if_pos (Or.inr hlen)]
    · rw [Bool.not_eq_true] at hemp
      rw [hemp]
      simp only [Bool.false_eq_true, if_false]
      by_cases hn : 2 ^ 64 ≤ decimal 0 ((unsigned_digits arg).takeWhile isdigit)
      · rw [if_pos hn]
        simp only [true_or, if_true]
      · rw [if_neg hn]
        simp only [Bool.false_eq_true, false_or]
        rw [if_pos (by omega : arg.length - (unsigned_digits arg).length +
          ((unsigned_digits arg).takeWhile isdigit).length < arg.length)]

theorem unsigned_digits_of_digits (arg : List Char) (hall : ∀ ch ∈ arg, isdigit ch = true) :
    unsigned_digits arg = arg ∧ has_minus arg = false := by
  cases arg with
  | nil => exact ⟨rfl, rfl⟩
  | cons ch rest =>
    have hd : isdigit ch = true := hall ch (List.mem_cons_self _ _)
    unfold isdigit at hd
    simp only [Bool.and_eq_true, decide_eq_true_eq] at hd
    have hsp : ¬ isspace ch = true := by
      unfold isspace
      simp only [Bool.or_eq_true, Bool.and_eq_true, decide_eq_true_eq]
      omega
    unfold unsigned_digits has_minus
    rw [List.dropWhile_cons_of_neg hsp]
    simp only [strip_sign]
    rw [if_neg (by omega : ¬ ch.toNat = 43), if_neg (by omega : ¬ ch.toNat = 45)]
    exact ⟨rfl, rfl⟩

/-! ## Every run ends with a value or with an exception -/

theorem plan_error_raised {hw c base order : Nat} {e : Fault} (h1 : 0 < base)
    (h2 : base < 2 ^ 64) (hc : 0 < c) (hp : plan hw c base order = .error e) :
    e.raised = true := by
  by_cases hge : 2 ^ 64 ≤ base ^ (order / 2)
  · obtain ⟨l, r, h⟩ := plan_overflow hw c order h1 h2 hge
    rw [h] at hp
    cases hp
    rfl
  · by_cases hwrap : 2 ^ 64 ≤ base ^ (order / 2) + kAsyncCountFactor - 1
    · rw [plan_length_error h1 h2 (by omega) hwrap] at hp
      cases hp
      rfl
    · rw [plan_eval h1 h2 (by omega), if_neg (by omega : ¬ c = 0)] at hp
      split at hp
      · cases hp
        rfl
      · split at hp
        · cases hp
          rfl
        · cases hp

theorem compute_total (fuel hw : Nat) {c base order : Nat} (ready : Nat → Nat)
    (h1 : 0 < base) (h2 : base < 2 ^ 64) (ho : 0 < order) (hc : 0 < c) (hc2 : c ≤ 64)
    (hf : base ^ (order / 2) < fuel) :
    compute fuel hw c ready base order = .ok (exact_result base order) ∨
      ∃ e, e.raised = true ∧ compute fuel hw c ready base order = .error e := by
  cases hp : plan hw c base order with
  | error e =>
    exact Or.inr ⟨e, plan_error_raised h1 h2 hc hp, compute_plan_error ready h1 ho hp⟩
  | ok p =>
    obtain ⟨hok, herr⟩ := compute_plan_ok fuel ready h1 h2 ho
      (no_wrap_of_plan h1 h2 hc2 hp) hf hp
    by_cases hex : exact_result base order < 2 ^ 64
    · exact Or.inl (hok hex)
    · obtain ⟨l, r, he⟩ := herr (by omega)
      exact Or.inr ⟨.overflow_error l r, rfl, he⟩

theorem compute_zero (fuel hw c : Nat) (ready : Nat → Nat) (base order : Nat)
    (h : base = 0 ∨ order = 0) : compute fuel hw c ready base order = .ok 0 := by
  unfold compute
  rw [if_neg (by omega : ¬ (0 < base ∧ 0 < order))]

set_option maxRecDepth 20000 in
theorem compute_ten_six : compute 1001 4 8 (fun _ => 0) 10 6 = .ok 55252 := by
  decide

/-! ## Odd and even order -/

theorem compute_odd (fuel hw c : Nat) (ready : Nat → Nat) (base k : Nat) (hk : 0 < k) :
    compute fuel hw c ready base (2 * k + 1) =
      match compute fuel hw c ready base (2 * k) with
      | .error e => .error e
      | .ok r => mul r base := by
  unfold compute
  by_cases hb : 0 < base
  · rw [if_pos (⟨hb, by omega⟩ : 0 < base ∧ 0 < 2 * k + 1),
      if_pos (⟨hb, by omega⟩ : 0 < base ∧ 0 < 2 * k),
      plan_half (by omega : (2 * k + 1) / 2 = (2 * k) / 2)]
    cases plan hw c base (2 * k) with
    | error e => rfl
    | ok p =>
      rw [bind_ok, bind_ok]
      cases merged_histogram fuel ready base p with
      | error e => rfl
      | ok hist =>
        rw [bind_ok, bind_ok]
        cases transform_reduce hist 0 with
        | error e => rfl
        | ok result =>
          rw [bind_ok, bind_ok, if_pos (by omega : (2 * k + 1) % 2 = 1),
            if_neg (by omega : ¬ (2 * k) % 2 = 1)]
  · have hb0 : base = 0 := by omega
    subst hb0
    rw [if_neg (by omega : ¬ (0 < 0 ∧ 0 < 2 * k + 1)), if_neg (by omega : ¬ (0 < 0 ∧ 0 < 2 * k))]
    rfl

/-! ### `v_max_compute`, the reducer and the assertion of `work`, seen from their results -/

theorem v_max_compute_inv {base h v : Nat} (h1 : 0 < base) (h2 : base < 2 ^ 64)
    (hv : v_max_compute base h = .ok v) : base ^ h < 2 ^ 64 ∧ v = base ^ h - 1 := by
  by_cases hlt : base ^ h < 2 ^ 64
  · rw [v_max_compute_ok h1 h2 hlt] at hv
    exact ⟨hlt, (Except.ok.inj hv).symm⟩
  · obtain ⟨l, r, he⟩ := v_max_compute_overflow h1 h2 (Nat.le_of_not_lt hlt)
    rw [he] at hv
    exact Except.noConfusion hv

theorem geom_sum (base : Nat) (hb : 0 < base) :
    ∀ h, ((List.range h).map (fun k => (base - 1) * base ^ k)).sum + 1 = base ^ h := by
  intro h
  induction h with
  | zero => simp
  | succ n ih =>
    rw [List.range_succ, List.map_append, List.sum_append]
    simp only [List.map_cons, List.map_nil, List.sum_cons, List.sum_nil, Nat.add_zero]
    have e : (base - 1) * base ^ n + base ^ n = base ^ (n + 1) := by
      rw [pow_succ]
      have hb1 : base - 1 + 1 = base := Nat.sub_add_cancel hb
      calc (base - 1) * base ^ n + base ^ n = (base - 1 + 1) * base ^ n := by ring
        _ = base ^ n * base := by rw [hb1, Nat.mul_comm]
    omega

theorem digits_length_le_iff {base : Nat} (hb : 2 ≤ base) (h v : Nat) :
    v < base ^ h ↔ (Nat.digits base v).length ≤ h := by
  constructor
  · intro hv
    by_cases h0 : v = 0
    · rw [h0]
      simp
    · have e1 := Nat.base_pow_length_digits_le base v (by omega) h0
      have e2 : base * v < base ^ (h + 1) := by
        rw [pow_succ, Nat.mul_comm]
        exact Nat.mul_lt_mul_of_pos_right hv (by omega)
      have e3 : base ^ (Nat.digits base v).length < base ^ (h + 1) := by omega
      have e4 := (Nat.pow_lt_pow_iff_right (by omega : 1 < base)).mp e3
      omega
  · intro hl
    have e1 := @Nat.lt_base_pow_length_digits base v (by omega)
    have e2 := Nat.pow_le_pow_right (by omega : 0 < base) hl
    omega

theorem transform_reduce_inv {H : List Nat} {r : Nat} (h : transform_reduce H 0 = .ok r) :
    r = (H.map (fun x => x * x)).sum ∧ (H.map (fun x => x * x)).sum < 2 ^ 64 := by
  by_cases hlt : 0 + (H.map (fun x => x * x)).sum < 2 ^ 64
  · rw [transform_reduce_ok H 0 hlt] at h
    have e := Except.ok.inj h
    constructor
    · omega
    · omega
  · obtain ⟨a, b, he⟩ := transform_reduce_overflow H 0 (by decide) (Nat.le_of_not_lt hlt)
    rw [he] at h
    exact Except.noConfusion h

theorem digit_loop_error (base : Nat) :
    ∀ (f x t : Nat) (e : Fault), digit_loop base f x t = .error e → e = .out_of_fuel := by
  intro f
  induction f with
  | zero =>
    intro x t e h
    rw [digit_loop] at h
    exact (Except.error.inj h).symm
  | succ n ih =>
    intro x t e h
    rw [digit_loop] at h
    by_cases ht : t = 0
    · rw [if_pos ht] at h
      exact Except.noConfusion h
    · rw [if_neg ht] at h
      exact ih _ _ e h

theorem digit_loop_val {base : Nat} (h fuel : Nat) (h1 : 0 < base) (hlt : base ^ h < 2 ^ 64)
    (u x : Nat) (hu : u ≤ base ^ h - 1) (hx : digit_loop base fuel 0 u = .ok x) :
    x = dsum base u := by
  have hm := digit_loop_mono base fuel 0 u x hx (fuel + base ^ h + 1) (by omega)
  have hd := (digits_ok h (fuel + base ^ h + 1) h1 hlt (by omega) u hu).1
  rw [hd] at hm
  exact (Except.ok.inj hm).symm

theorem work_loop_no_assert (fuel base v_max off size : Nat)
    (hd : ∀ u x, u ≤ v_max → digit_loop base fuel 0 u = .ok x → x < size) :
    ∀ (k v : Nat) (mem : List Nat),
      work_loop fuel base v_max off size k v mem ≠ .error .assertion := by
  intro k
  induction k with
  | zero =>
    intro v mem h
    rw [work_loop] at h
    exact Fault.noConfusion (Except.error.inj h)
  | succ n ih =>
    intro v mem h
    rw [work_loop] at h
    by_cases hv : v ≤ v_max
    · rw [if_pos hv] at h
      cases hx : digit_loop base fuel 0 v with
      | error e =>
        rw [hx] at h
        have he := digit_loop_error base fuel 0 v e hx
        simp only [] at h
        rw [he] at h
        exact Fault.noConfusion (Except.error.inj h)
      | ok x =>
        rw [hx] at h
        simp only [] at h
        rw [if_pos (hd v x hv hx)] at h
        cases hm : mem[off + x]? with
        | none =>
          rw [hm] at h
          exact Fault.noConfusion (Except.error.inj h)
        | some c =>
          rw [hm] at h
          exact ih _ _ h
    · rw [if_neg hv] at h
      exact Except.noConfusion h

/-! ### Termination of `work` and its effect with wrapping counters -/

theorem digit_loop_base_one :
    ∀ (f x t : Nat), 0 < t → digit_loop 1 f x t = .error .out_of_fuel := by
  intro f
  induction f with
  | zero =>
    intro x t _
    rw [digit_loop]
  | succ n ih =>
    intro x t ht
    rw [digit_loop, if_neg (by omega), Nat.div_one]
    exact ih _ t ht

theorem work_base_one_diverges (fuel v_min v_max off size : Nat) (mem : List Nat)
    (h0 : 0 < v_min) (hle : v_min ≤ v_max) :
    work fuel v_min v_max 1 off size mem = .error .out_of_fuel := by
  rw [work, if_neg (by omega : ¬ 1 = 0)]
  cases fuel with
  | zero => rw [work_loop]
  | succ n => rw [work_loop, if_pos hle, digit_loop_base_one (n + 1) 0 v_min h0]

theorem digit_loop_val2 {base : Nat} (hb : 2 ≤ base) (fuel u x : Nat) (hu : u < 2 ^ 64)
    (hx : digit_loop base fuel 0 u = .ok x) : x = dsum base u := by
  have hm := digit_loop_mono base fuel 0 u x hx (fuel + u + 1) (by omega)
  have hd := digit_loop_spec hb (fuel + u + 1) 0 u (by omega) (by omega)
  rw [hd, Nat.zero_add] at hm
  exact (Except.ok.inj hm).symm

theorem work_loop_forever (fuel base off size : Nat) (hb : 2 ≤ base)
    (hs : ∀ u, u < 2 ^ 64 → dsum base u < size) :
    ∀ (k v : Nat) (mem : List Nat), v < 2 ^ 64 → off + size ≤ mem.length →
      work_loop fuel base (2 ^ 64 - 1) off size k v mem = .error .out_of_fuel := by
  intro k
  induction k with
  | zero =>
    intro v mem _ _
    rw [work_loop]
  | succ n ih =>
    intro v mem hv hlen
    rw [work_loop, if_pos (by omega)]
    cases hx : digit_loop base fuel 0 v with
    | error e =>
      simp only []
      rw [digit_loop_error base fuel 0 v e hx]
    | ok x =>
      simp only []
      have hxv := digit_loop_val2 hb fuel v x hv hx
      have hlt := hs v hv
      rw [if_pos (by omega), cell_of_lt (by omega : off + x < mem.length)]
      simp only []
      exact ih _ _ (Nat.mod_lt _ (by decide)) (by rw [List.length_set]; exact hlen)

theorem work_loop_terminates (fuel base v_max off size : Nat) (hmax : v_max + 1 < 2 ^ 64)
    (hd : ∀ u, u ≤ v_max → ∃ x, digit_loop base fuel 0 u = .ok x) :
    ∀ (n v : Nat) (mem : List Nat) (k : Nat), v_max + 1 ≤ v + n → n < k →
      work_loop fuel base v_max off size k v mem ≠ .error .out_of_fuel := by
  intro n
  induction n with
  | zero =>
    intro v mem k hv hk h
    obtain ⟨k, rfl⟩ : ∃ k1, k = k1 + 1 := ⟨k - 1, by omega⟩
    rw [work_loop, if_neg (by omega)] at h
    exact Except.noConfusion h
  | succ n ih =>
    intro v mem k hv hk h
    obtain ⟨k, rfl⟩ : ∃ k1, k = k1 + 1 := ⟨k - 1, by omega⟩
    rw [work_loop] at h
    by_cases hle : v ≤ v_max
    · rw [if_pos hle] at h
      obtain ⟨x, hx⟩ := hd v hle
      rw [hx] at h
      simp only [] at h
      by_cases hxs : x < size
      · rw [if_pos hxs] at h
        cases hm : mem[off + x]? with
        | none =>
          rw [hm] at h
          exact Fault.noConfusion (Except.error.inj h)
        | some c =>
          rw [hm] at h
          simp only [] at h
          rw [Nat.mod_eq_of_lt (by omega : v + 1 < 2 ^ 64)] at h
          exact ih (v + 1) _ k (by omega) (by omega) h
      · rw [if_neg hxs] at h
        exact Fault.noConfusion (Except.error.inj h)
    · rw [if_neg hle] at h
      exact Except.noConfusion h

theorem work_loop_mod_spec (fuel base v_max off size : Nat) :
    ∀ (n v : Nat) (mem : List Nat) (k : Nat),
      v + n = v_max + 1 → v_max + 1 < 2 ^ 64 → n < k →
      (∀ u, v ≤ u → u ≤ v_max →
        digit_loop base fuel 0 u = .ok (dsum base u) ∧ dsum base u < size) →
      off + size ≤ mem.length →
      (∀ i, cell mem i < 2 ^ 64) →
      ∃ mem1, work_loop fuel base v_max off size k v mem = .ok mem1 ∧
        SliceAddsMod mem mem1 off size (cnt base v n) := by
  intro n
  induction n with
  | zero =>
    intro v mem k hv _ hk _ _ hu
    obtain ⟨k, rfl⟩ : ∃ k1, k = k1 + 1 := ⟨k - 1, by omega⟩
    refine ⟨mem, ?_, rfl, ?_⟩
    · rw [work_loop, if_neg (by omega)]
    · intro i
      have := hu i
      rw [cnt_zero, Nat.add_zero, Nat.mod_eq_of_lt this]
      simp
  | succ n ih =>
    intro v mem k hv hmax hk hd hb hu
    obtain ⟨k, rfl⟩ : ∃ k1, k = k1 + 1 := ⟨k - 1, by omega⟩
    obtain ⟨hdl, hds⟩ := hd v (le_refl v) (by omega)
    have hin : off + dsum base v < mem.length := by omega
    rw [work_loop, if_pos (by omega), hdl]
    simp only [hds, if_true, cell_of_lt hin]
    rw [Nat.mod_eq_of_lt (by omega : v + 1 < 2 ^ 64)]
    obtain ⟨mem1, hrun, hlen, hcell⟩ :=
      ih (v + 1) (mem.set (off + dsum base v) ((cell mem (off + dsum base v) + 1) % 2 ^ 64)) k
        (by omega) hmax (by omega)
        (fun u hu1 hu2 => hd u (by omega) hu2)
        (by rw [List.length_set]; exact hb)
        (by
          intro i
          rw [cell_set]
          have := hu i
          split
          · exact Nat.mod_lt _ (by decide)
          · exact this)
    refine ⟨mem1, hrun, ?_, ?_⟩
    · rw [hlen, List.length_set]
    · intro i
      rw [hcell i, cell_set, cnt_succ]
      by_cases hi : off ≤ i ∧ i < off + size
      · rw [if_pos hi, if_pos hi]
        by_cases hx : off + dsum base v = i
        · have : dsum base v = i - off := by omega
          rw [if_pos ⟨hx, hin⟩, if_pos this, ← hx]
          omega
        · have : ¬ dsum base v = i - off := by omega
          rw [if_neg (fun h => hx h.1), if_neg this]
          omega
      · rw [if_neg hi, if_neg hi]
        have : ¬ (off + dsum base v = i ∧ off + dsum base v < mem.length) := by
          intro h
          omega
        rw [if_neg this]

theorem cell_lt_of_mem {mem : List Nat} {B : Nat} (hB : 0 < B) (hu : ∀ x ∈ mem, x < B) (i : Nat) :
    cell mem i < B := by
  unfold cell
  by_cases hi : i < mem.length
  · rw [List.getElem?_eq_getElem hi]
    exact hu _ (List.getElem_mem hi)
  · rw [List.getElem?_eq_none (by omega)]
    exact hB

theorem digit_loop_small {base : Nat} (v_max : Nat) (hb : 2 ≤ base ∨ v_max = 0) (v f : Nat)
    (hv : v ≤ v_max) (h64 : v < 2 ^ 64) (hf : v < f) :
    digit_loop base f 0 v = .ok (dsum base v) := by
  rcases hb with hb | hb
  · have h := digit_loop_spec hb f 0 v hf (by omega)
    rw [Nat.zero_add] at h
    exact h
  · have hv0 : v = 0 := by omega
    rw [hv0, dsum_zero]
    exact digit_loop_zero base f 0 (by omega)

/-! ### The worker counts and the buffer layout as functions of their own -/

theorem plan_workers_eval (hw : Nat) {v : Nat} (hlt : v + kAsyncCountFactor - 1 < 2 ^ 64)
    (hv : 0 < v) :
    plan_workers hw v = .ok (works_nr_of hw v - 1, works_nr_of hw v) := by
  have hk : kAsyncCountFactor = 600000 := rfl
  have hw1 := works_nr_of_pos hw v hv
  have hw2 := works_nr_of_lt hw v
  have has : (works_nr_of hw v + 2 ^ 64 - 1) % 2 ^ 64 = works_nr_of hw v - 1 := by omega
  have hvec : ¬ vector_max_size < works_nr_of hw v - 1 := by
    unfold vector_max_size
    omega
  have hwn : (works_nr_of hw v - 1 + 1) % 2 ^ 64 = works_nr_of hw v := by omega
  unfold plan_workers
  simp only []
  rw [div_round_up, if_neg (by omega : ¬ kAsyncCountFactor = 0), bind_ok, Nat.mod_eq_of_lt hlt]
  have hwk : min ((v + kAsyncCountFactor - 1) / kAsyncCountFactor) (max (hw % 2 ^ 32) 1) =
      works_nr_of hw v := rfl
  rw [hwk, has, if_neg hvec, hwn]

theorem plan_workers_wrap (hw : Nat) {v : Nat} (hv : v < 2 ^ 64)
    (hge : 2 ^ 64 ≤ v + kAsyncCountFactor - 1) :
    plan_workers hw v = .error .length_error := by
  have hk : kAsyncCountFactor = 600000 := rfl
  have hdiv : (v + kAsyncCountFactor - 1) % 2 ^ 64 / kAsyncCountFactor = 0 := by
    rw [hk] at hge ⊢
    omega
  unfold plan_workers
  simp only []
  rw [div_round_up, if_neg (by omega : ¬ kAsyncCountFactor = 0), bind_ok, hdiv]
  have hvm : vector_max_size < (min 0 (max (hw % 2 ^ 32) 1) + 2 ^ 64 - 1) % 2 ^ 64 := by
    unfold vector_max_size
    rw [Nat.zero_min]
    norm_num
  rw [if_pos hvm]

theorem plan_workers_inv {hw v a w : Nat} (hv : 0 < v) (hv2 : v < 2 ^ 64)
    (hp : plan_workers hw v = .ok (a, w)) :
    v + kAsyncCountFactor - 1 < 2 ^ 64 ∧ w = works_nr_of hw v ∧ a = works_nr_of hw v - 1 := by
  by_cases hge : 2 ^ 64 ≤ v + kAsyncCountFactor - 1
  · rw [plan_workers_wrap hw hv2 hge] at hp
    exact Except.noConfusion hp
  · have hlt : v + kAsyncCountFactor - 1 < 2 ^ 64 := by omega
    rw [plan_workers_eval hw hlt hv] at hp
    have e := Except.ok.inj hp
    exact ⟨hlt, (congrArg Prod.snd e).symm, (congrArg Prod.fst e).symm⟩

theorem plan_workers_of_plan {hw c base order : Nat} {p : Plan} (h1 : 0 < base)
    (h2 : base < 2 ^ 64) (hp : plan hw c base order = .ok p) :
    plan_workers hw p.v_count = .ok (p.asyncs_size, p.works_nr) := by
  obtain ⟨_, hlt, _, _, hpe⟩ := plan_ok_facts h1 h2 hp
  rw [hpe]
  exact plan_workers_eval hw hlt (pow_pos h1 _)

theorem launch_eq_run (fuel base max_sum stride v_step : Nat) :
    ∀ (n i v_min : Nat) (mem : List Nat),
      launch fuel base max_sum stride v_step n i v_min mem =
        match run_ranges fuel base max_sum stride (launch_ranges v_step n v_min) i mem with
        | .error e => .error e
        | .ok mem1 => .ok (launch_v_min v_step n v_min, mem1) := by
  intro n
  induction n with
  | zero =>
    intro i v_min mem
    rfl
  | succ n ih =>
    intro i v_min mem
    rw [launch, launch_ranges, run_ranges, launch_v_min]
    simp only []
    cases work fuel v_min ((v_min + v_step + 2 ^ 64 - 1) % 2 ^ 64) base
        ((stride * i) % 2 ^ 64) ((max_sum + 1) % 2 ^ 64) mem with
    | error e => rfl
    | ok mem1 =>
      simp only []
      exact ih (i + 1) _ mem1

theorem launch_ranges_eq (v_step : Nat) (hs : 0 < v_step) :
    ∀ (n v_min : Nat), v_min + n * v_step < 2 ^ 64 →
      launch_ranges v_step n v_min = split_ranges v_min (List.replicate n v_step) ∧
      launch_v_min v_step n v_min = v_min + n * v_step := by
  intro n
  induction n with
  | zero =>
    intro v_min _
    constructor
    · rfl
    · rw [launch_v_min]
      omega
  | succ n ih =>
    intro v_min h
    rw [Nat.succ_mul] at h ⊢
    have e1 : (v_min + v_step + 2 ^ 64 - 1) % 2 ^ 64 = v_min + v_step - 1 := by omega
    have e2 : (v_min + v_step) % 2 ^ 64 = v_min + v_step := by omega
    obtain ⟨ih1, ih2⟩ := ih (v_min + v_step) (by omega)
    rw [launch_ranges, launch_v_min, e1, e2, ih1, ih2, List.replicate_succ, split_ranges]
    exact ⟨rfl, by omega⟩

theorem split_ranges_append :
    ∀ (l1 l2 : List Nat) (lo : Nat),
      split_ranges lo (l1 ++ l2) = split_ranges lo l1 ++ split_ranges (lo + l1.sum) l2 := by
  intro l1
  induction l1 with
  | nil =>
    intro l2 lo
    simp [split_ranges]
  | cons n l1 ih =>
    intro l2 lo
    rw [List.cons_append, split_ranges, split_ranges, ih l2 (lo + n), List.sum_cons,
      List.cons_append, Nat.add_assoc]

theorem split_ranges_replicate (s : Nat) :
    ∀ (n lo : Nat), split_ranges lo (List.replicate n s) =
      (List.range n).map (fun i => (lo + i * s, lo + (i + 1) * s - 1)) := by
  intro n
  induction n with
  | zero =>
    intro lo
    rfl
  | succ n ih =>
    intro lo
    rw [List.replicate_succ, split_ranges, ih (lo + s), List.range_succ_eq_map, List.map_cons,
      List.map_map]
    have e0 : (lo + 0 * s, lo + (0 + 1) * s - 1) = (lo, lo + s - 1) := by
      rw [Nat.zero_mul, Nat.zero_add, Nat.one_mul, Nat.add_zero]
    rw [e0]
    apply congrArg
    apply List.map_congr_left
    intro i _
    show (lo + s + i * s, lo + s + (i + 1) * s - 1) =
      (lo + (i + 1) * s, lo + (i + 1 + 1) * s - 1)
    have e1 : (i + 1) * s = i * s + s := Nat.succ_mul i s
    have e2 : (i + 1 + 1) * s = (i + 1) * s + s := Nat.succ_mul (i + 1) s
    rw [e2, e1]
    have a1 : lo + s + i * s = lo + (i * s + s) := by omega
    have a2 : lo + s + (i * s + s) - 1 = lo + (i * s + s + s) - 1 := by omega
    rw [a1, a2]

theorem split_ranges_cover :
    ∀ (ns : List Nat) (lo : Nat), (∀ n ∈ ns, 0 < n) → ∀ v,
      (split_ranges lo ns).countP (in_range v) = if lo ≤ v ∧ v < lo + ns.sum then 1 else 0 := by
  intro ns
  induction ns with
  | nil =>
    intro lo _ v
    rw [split_ranges, List.countP_nil, List.sum_nil, if_neg (by omega)]
  | cons n ns ih =>
    intro lo hpos v
    have hn : 0 < n := hpos n (List.mem_cons_self _ _)
    rw [split_ranges, List.countP_cons, ih (lo + n) (fun m hm => hpos m (List.mem_cons_of_mem _ hm)),
      List.sum_cons]
    unfold in_range
    simp only [Bool.and_eq_true, decide_eq_true_eq]
    by_cases h1 : lo + n ≤ v ∧ v < lo + n + ns.sum
    · rw [if_pos h1, if_neg (by omega), if_pos (by omega)]
    · rw [if_neg h1]
      by_cases h2 : lo ≤ v ∧ v ≤ lo + n - 1
      · rw [if_pos h2, if_pos (by omega)]
      · rw [if_neg h2, if_neg (by omega)]

theorem step_facts {v_count w : Nat} (hw1 : 1 ≤ w) (hwv : w ≤ v_count) :
    0 < v_count / w ∧ (w - 1) * (v_count / w) + v_count / w ≤ v_count := by
  have h1 : 0 < v_count / w := Nat.div_pos hwv (by omega)
  have h2 : v_count / w * w ≤ v_count := Nat.div_mul_le_self v_count w
  obtain ⟨k, rfl⟩ : ∃ k, w = k + 1 := ⟨w - 1, by omega⟩
  rw [Nat.mul_comm, Nat.succ_mul] at h2
  rw [Nat.add_sub_cancel]
  exact ⟨h1, h2⟩

theorem assigned_ranges_split {v_count w : Nat} (hw1 : 1 ≤ w) (hwv : w ≤ v_count)
    (hv : v_count < 2 ^ 64) :
    assigned_ranges v_count (v_count - 1) (w - 1) w =
      split_ranges 0 (List.replicate (w - 1) (v_count / w) ++
        [v_count - (w - 1) * (v_count / w)]) := by
  obtain ⟨hs, hcov⟩ := step_facts hw1 hwv
  rw [split_ranges_append, List.sum_replicate, smul_eq_mul, Nat.zero_add, split_ranges,
    split_ranges]
  have e : (w - 1) * (v_count / w) + (v_count - (w - 1) * (v_count / w)) - 1 = v_count - 1 := by
    omega
  rw [e]
  unfold assigned_ranges
  by_cases h2 : w < 2
  · have hw : w = 1 := by omega
    rw [if_neg (by omega : ¬ ¬ w < 2), hw]
    simp [split_ranges]
  · obtain ⟨l1, l2⟩ := launch_ranges_eq (v_count / w) hs (w - 1) 0 (by omega)
    rw [if_pos h2, l1, l2, Nat.zero_add]

theorem split_list_facts {v_count w : Nat} (hw1 : 1 ≤ w) (hwv : w ≤ v_count) :
    (∀ n ∈ List.replicate (w - 1) (v_count / w) ++ [v_count - (w - 1) * (v_count / w)], 0 < n) ∧
    (List.replicate (w - 1) (v_count / w) ++ [v_count - (w - 1) * (v_count / w)]).sum =
      v_count := by
  obtain ⟨hs, hcov⟩ := step_facts hw1 hwv
  constructor
  · intro n hn
    rw [List.mem_append, List.mem_singleton] at hn
    rcases hn with hn | hn
    · rw [(List.mem_replicate.mp hn).2]
      exact hs
    · omega
  · rw [List.sum_append, List.sum_replicate, smul_eq_mul, List.sum_singleton]
    omega

/-! ### No counter exceeds `v_count` -/

theorem work_loop_wraps_false (fuel base v_max off size : Nat) :
    ∀ (n v : Nat) (mem : List Nat) (k : Nat),
      v + n = v_max + 1 → v_max + 1 < 2 ^ 64 →
      (∀ u, v ≤ u → u ≤ v_max →
        digit_loop base fuel 0 u = .ok (dsum base u) ∧ dsum base u < size) →
      off + size ≤ mem.length →
      (∀ s, s < size → cell mem (off + s) + n < 2 ^ 64) →
      work_loop_wraps fuel base v_max off size k v mem = false := by
  intro n
  induction n with
  | zero =>
    intro v mem k hv _ _ _ _
    cases k with
    | zero => rw [work_loop_wraps]
    | succ k => rw [work_loop_wraps, if_neg (by omega)]
  | succ n ih =>
    intro v mem k hv hmax hd hb hw
    cases k with
    | zero => rw [work_loop_wraps]
    | succ k =>
      obtain ⟨hdl, hds⟩ := hd v (le_refl v) (by omega)
      have hin : off + dsum base v < mem.length := by omega
      have hcw := hw (dsum base v) hds
      rw [work_loop_wraps, if_pos (by omega), hdl]
      simp only [hds, if_true, cell_of_lt hin]
      rw [if_neg (by omega), Nat.mod_eq_of_lt (by omega), Nat.mod_eq_of_lt (by omega)]
      exact ih (v + 1) _ k (by omega) hmax
        (fun u hu1 hu2 => hd u (by omega) hu2)
        (by rw [List.length_set]; exact hb)
        (by
          intro s hs
          rw [cell_set]
          have := hw s hs
          split <;> omega)

theorem subperm_sum_le {α : Type} (g : α → Nat) {rs all : List α} (hsub : rs.Subperm all) :
    (rs.map g).sum ≤ (all.map g).sum := by
  obtain ⟨l, hl, hsl⟩ := hsub
  rw [← (hl.map g).sum_eq]
  exact (hsl.map g).sum_le_sum (fun _ _ => Nat.zero_le _)

theorem merge_part {fuel base size V : Nat} (h1 : 0 < base) (hV : V < 2 ^ 64) (hf : V < fuel)
    (hd : ∀ u, u < V → digit_loop base fuel 0 u = .ok (dsum base u) ∧ dsum base u < size)
    (all : List (Nat × Nat)) (hall : ∀ r ∈ all, r.1 ≤ r.2 ∧ r.2 < V)
    (htot : ∀ s, (all.map (fun r => cnt base r.1 (r.2 - r.1 + 1) s)).sum ≤ V)
    (rs : List (Nat × Nat)) (hsub : rs.Subperm all) :
    ∃ hs acc, range_histograms fuel base size rs = .ok hs ∧
      (∀ h ∈ hs, ∀ x ∈ h, x ≤ V) ∧ merge_all hs = .ok acc ∧ ∀ x ∈ acc, x ≤ V := by
  have hmem : ∀ r ∈ rs, r.1 ≤ r.2 ∧ r.2 < V := fun r hr => hall r (hsub.subset hr)
  have hpart : ∀ s, (rs.map (fun r => cnt base r.1 (r.2 - r.1 + 1) s)).sum ≤ V :=
    fun s => Nat.le_trans (subperm_sum_le _ hsub) (htot s)
  have hent : ∀ h ∈ rs.map (fun r => (List.range size).map (cnt base r.1 (r.2 - r.1 + 1))),
      ∀ x ∈ h, x ≤ V := by
    intro h hh x hx
    rw [List.mem_map] at hh
    obtain ⟨r, hr, rfl⟩ := hh
    rw [List.mem_map] at hx
    obtain ⟨s, _, rfl⟩ := hx
    have := cnt_le base r.1 (r.2 - r.1 + 1) s
    have := hmem r hr
    omega
  have hrun := range_histograms_spec h1 hV hf hd rs hmem
  cases rs with
  | nil => exact ⟨[], [], rfl, by simp, rfl, by simp⟩
  | cons r rest =>
    have e : ∀ s, ((fun g => g s) ∘ fun r : Nat × Nat => cnt base r.1 (r.2 - r.1 + 1)) =
        fun r => cnt base r.1 (r.2 - r.1 + 1) s := fun _ => rfl
    have hsum : ∀ s, cnt base r.1 (r.2 - r.1 + 1) s +
        ((rest.map (fun r => cnt base r.1 (r.2 - r.1 + 1))).map (fun g => g s)).sum ≤ V := by
      intro s
      have := hpart s
      simp only [List.map_cons, List.sum_cons] at this
      rw [List.map_map, e s]
      exact this
    have hm := merge_histograms_spec size
      (rest.map (fun r => cnt base r.1 (r.2 - r.1 + 1))) (cnt base r.1 (r.2 - r.1 + 1))
      (by
        intro s _
        exact Nat.lt_of_le_of_lt (hsum s) hV)
    rw [List.map_map] at hm
    have e1 : ((fun g => (List.range size).map g) ∘
        fun r : Nat × Nat => cnt base r.1 (r.2 - r.1 + 1)) =
        fun r => (List.range size).map (cnt base r.1 (r.2 - r.1 + 1)) :=
      rfl
    rw [e1] at hm
    have hmerge : merge_all ((r :: rest).map
        (fun r => (List.range size).map (cnt base r.1 (r.2 - r.1 + 1)))) =
        .ok ((List.range size).map (fun s => cnt base r.1 (r.2 - r.1 + 1) s +
          ((rest.map (fun r => cnt base r.1 (r.2 - r.1 + 1))).map (fun g => g s)).sum)) := by
      rw [List.map_cons, merge_all]
      exact hm
    refine ⟨_, _, hrun, hent, hmerge, ?_⟩
    intro x hx
    rw [List.mem_map] at hx
    obtain ⟨s, _, rfl⟩ := hx
    exact hsum s

theorem assigned_ranges_cnt (base : Nat) {v_count w : Nat} (hw1 : 1 ≤ w) (hwv : w ≤ v_count)
    (hv : v_count < 2 ^ 64) (s : Nat) :
    ((assigned_ranges v_count (v_count - 1) (w - 1) w).map
      (fun r => cnt base r.1 (r.2 - r.1 + 1) s)).sum = cnt base 0 v_count s := by
  obtain ⟨hpos, hsum⟩ := split_list_facts hw1 hwv
  rw [assigned_ranges_split hw1 hwv hv, split_ranges_cnt base s _ 0 hpos, hsum]

theorem assigned_ranges_mem {v_count w : Nat} (hw1 : 1 ≤ w) (hwv : w ≤ v_count)
    (hv : v_count < 2 ^ 64) :
    ∀ r ∈ assigned_ranges v_count (v_count - 1) (w - 1) w, r.1 ≤ r.2 ∧ r.2 < v_count := by
  obtain ⟨hpos, hsum⟩ := split_list_facts hw1 hwv
  intro r hr
  rw [assigned_ranges_split hw1 hwv hv] at hr
  have h := split_ranges_mem _ 0 hpos r hr
  rw [hsum] at h
  omega

/-! ### The calls of `work` in `main` run over the assigned ranges -/

theorem run_ranges_append (fuel base max_sum stride : Nat) :
    ∀ (l1 l2 : List (Nat × Nat)) (i : Nat) (mem : List Nat),
      run_ranges fuel base max_sum stride (l1 ++ l2) i mem =
        match run_ranges fuel base max_sum stride l1 i mem with
        | .error e => .error e
        | .ok mem1 => run_ranges fuel base max_sum stride l2 (i + l1.length) mem1 := by
  intro l1
  induction l1 with
  | nil =>
    intro l2 i mem
    rfl
  | cons r l1 ih =>
    intro l2 i mem
    rw [List.cons_append, run_ranges, run_ranges]
    cases work fuel r.1 r.2 base ((stride * i) % 2 ^ 64) ((max_sum + 1) % 2 ^ 64) mem with
    | error e => rfl
    | ok mem1 =>
      simp only []
      rw [ih l2 (i + 1) mem1, List.length_cons]
      have e : i + 1 + l1.length = i + (l1.length + 1) := by omega
      rw [e]

theorem launch_ranges_length (v_step : Nat) :
    ∀ (n v_min : Nat), (launch_ranges v_step n v_min).length = n := by
  intro n
  induction n with
  | zero =>
    intro v_min
    rfl
  | succ n ih =>
    intro v_min
    rw [launch_ranges, List.length_cons, ih]

theorem assigned_ranges_small (v_count v_max a : Nat) {w : Nat} (h : w < 2) :
    assigned_ranges v_count v_max a w = [(0, v_max)] := by
  unfold assigned_ranges
  rw [if_neg (not_not.mpr h)]

theorem assigned_ranges_large (v_count v_max a : Nat) {w : Nat} (h : ¬ w < 2) :
    assigned_ranges v_count v_max a w =
      launch_ranges (v_count / w) a 0 ++ [(launch_v_min (v_count / w) a 0, v_max)] := by
  unfold assigned_ranges
  rw [if_pos h]

theorem merged_histogram_runs_of (fuel : Nat) (ready : Nat → Nat) (base : Nat) (p : Plan)
    (ha : p.asyncs_size + 1 = p.works_nr) (hlt : p.works_nr < 2 ^ 64) :
    merged_histogram fuel ready base p =
      match run_ranges fuel base p.max_sum p.u64_chunks_nr_per_work
          (assigned_ranges p.v_count p.v_max p.asyncs_size p.works_nr) 0
          (List.replicate p.buffer_size 0) with
      | .error e => .error e
      | .ok mem1 =>
        match merge_loop ready ((p.u64_chunks_nr_per_work * p.asyncs_size) % 2 ^ 64)
            ((p.max_sum + 1) % 2 ^ 64) p.asyncs_size
            ((List.range p.asyncs_size).map (fun i => (p.u64_chunks_nr_per_work * i) % 2 ^ 64))
            mem1 with
        | .error e => .error e
        | .ok mem2 =>
          read_span mem2 ((p.u64_chunks_nr_per_work * p.asyncs_size) % 2 ^ 64)
            ((p.max_sum + 1) % 2 ^ 64) := by
  have hwm : (p.works_nr + 2 ^ 64 - 1) % 2 ^ 64 = p.asyncs_size := by omega
  unfold merged_histogram
  dsimp only
  rw [hwm, List.length_map, List.length_range]
  by_cases hw3 : p.works_nr < 2
  · rw [if_neg (not_not.mpr hw3), assigned_ranges_small _ _ _ hw3, bind_ok, run_ranges]
    have hw4 : p.asyncs_size = 0 := by omega
    rw [hw4]
    cases work fuel 0 p.v_max base ((p.u64_chunks_nr_per_work * 0) % 2 ^ 64)
        ((p.max_sum + 1) % 2 ^ 64) (List.replicate p.buffer_size 0) with
    | error e => rfl
    | ok mem1 =>
      rw [bind_ok]
      simp only [run_ranges]
      cases merge_loop ready ((p.u64_chunks_nr_per_work * 0) % 2 ^ 64)
          ((p.max_sum + 1) % 2 ^ 64) 0
          ((List.range 0).map (fun i => (p.u64_chunks_nr_per_work * i) % 2 ^ 64)) mem1 with
      | error e => rfl
      | ok mem2 => rfl
  · rw [if_pos hw3, assigned_ranges_large _ _ _ hw3, launch_eq_run, run_ranges_append,
      launch_ranges_length, Nat.zero_add]
    cases run_ranges fuel base p.max_sum p.u64_chunks_nr_per_work
        (launch_ranges (p.v_count / p.works_nr) p.asyncs_size 0) 0
        (List.replicate p.buffer_size 0) with
    | error e => rfl
    | ok mem0 =>
      simp only []
      rw [bind_ok, run_ranges]
      simp only []
      cases work fuel (launch_v_min (p.v_count / p.works_nr) p.asyncs_size 0) p.v_max base
          ((p.u64_chunks_nr_per_work * p.asyncs_size) % 2 ^ 64)
          ((p.max_sum + 1) % 2 ^ 64) mem0 with
      | error e => rfl
      | ok mem1 =>
        rw [bind_ok]
        simp only [run_ranges]
        cases merge_loop ready ((p.u64_chunks_nr_per_work * p.asyncs_size) % 2 ^ 64)
            ((p.max_sum + 1) % 2 ^ 64) p.asyncs_size
            ((List.range p.asyncs_size).map (fun i => (p.u64_chunks_nr_per_work * i) % 2 ^ 64))
            mem1 with
        | error e => rfl
        | ok mem2 => rfl

theorem plan_counts {hw c base order : Nat} {p : Plan} (h1 : 0 < base) (h2 : base < 2 ^ 64)
    (hp : plan hw c base order = .ok p) :
    p.asyncs_size + 1 = p.works_nr ∧ p.works_nr < 2 ^ 64 := by
  obtain ⟨_, hlt, _, _, hpeq⟩ := plan_ok_facts h1 h2 hp
  have hpos : 0 < base ^ (order / 2) := pow_pos h1 _
  have hw1 := works_nr_of_pos hw (base ^ (order / 2)) hpos
  have hw2 := works_nr_of_lt hw (base ^ (order / 2))
  rw [hpeq]
  constructor
  · show works_nr_of hw (base ^ (order / 2)) - 1 + 1 = works_nr_of hw (base ^ (order / 2))
    omega
  · show works_nr_of hw (base ^ (order / 2)) < 2 ^ 64
    omega

/-- Whenever the merge returns a histogram, it is the histogram of the exact counts. -/
theorem merged_histogram_ok_exact {fuel hw c base order : Nat} {ready : Nat → Nat} {p : Plan}
    {H : List Nat} (h1 : 0 < base) (h2 : base < 2 ^ 64) (hp : plan hw c base order = .ok p)
    (h : merged_histogram fuel ready base p = .ok H) :
    H = (List.range ((base - 1) * (order / 2) + 1)).map (cnt base 0 (base ^ (order / 2))) := by
  obtain ⟨hc, hlt, hN, _, hpeq⟩ := plan_ok_facts h1 h2 hp
  have hbern := bernoulli h1 (order / 2)
  have hk : kAsyncCountFactor = 600000 := rfl
  by_cases hwrap : (base - 1) * (order / 2) + c < 2 ^ 64
  · have hbig := merged_histogram_mono h (Nat.le_max_left fuel (base ^ (order / 2) + 1))
    have hf : base ^ (order / 2) < max fuel (base ^ (order / 2) + 1) := by
      have := Nat.le_max_right fuel (base ^ (order / 2) + 1)
      omega
    rw [merged_histogram_spec _ ready h1 h2 hwrap hf hp] at hbig
    exact (Except.ok.inj hbig).symm
  · exfalso
    have hst := stride_wrap c ((base - 1) * (order / 2)) hc (by omega) (by omega)
    have hpos : 0 < base ^ (order / 2) := pow_pos h1 _
    have hw1 := works_nr_of_pos hw (base ^ (order / 2)) hpos
    refine absurd h (merged_histogram_wrap fuel ready base p (by omega) ?_ ?_ H)
    · rw [hpeq]
      show stride_of c ((base - 1) * (order / 2)) * works_nr_of hw (base ^ (order / 2)) = 0
      rw [hst, Nat.zero_mul]
    · rw [hpeq]
      show ¬ works_nr_of hw (base ^ (order / 2)) < 2 →
        0 < works_nr_of hw (base ^ (order / 2)) - 1
      omega

/-! ## The claims -/

/-- C1 (counterexample): for base 2 and order 1 the program prints 2, while the sum over all
1-digit strings of the square of the digit sum is 1; for base 10 and order 1 it prints 10,
while that sum is 285. -/
theorem printed_result_is_not_square_sum :
    compute 100 1 8 (fun _ => 0) 2 1 = .ok 2 ∧ digit_sum_square_total 2 1 = 1 ∧
    compute 100 1 8 (fun _ => 0) 10 1 = .ok 10 ∧ digit_sum_square_total 10 1 = 285 := by
  decide

/-- C1 (amended): for every base >= 1 and order >= 1, a value the program prints is the
brute-force count of the beautiful strings among all `order`-digit strings (leading zeros
allowed); and on a machine with 1 to 64 counters per cache line and with enough fuel, a run
that does not raise an exception prints that count. -/
theorem printed_result_is_brute_force_count (fuel hw c : Nat) (ready : Nat → Nat)
    (base order : Nat) (h1 : 0 < base) (h2 : base < 2 ^ 64) (ho : 0 < order) :
    (∀ r, compute fuel hw c ready base order = .ok r → r = beautiful_count base order) ∧
    (0 < c → c ≤ 64 → base ^ (order / 2) < fuel →
      (∀ e, e.raised = true → compute fuel hw c ready base order ≠ .error e) →
      compute fuel hw c ready base order = .ok (beautiful_count base order)) := by
  constructor
  · intro r hr
    rw [(compute_ok_exact h1 h2 ho hr).1, exact_eq_beautiful_count h1]
  · intro hc hc2 hf hnr
    rcases compute_total fuel hw ready h1 h2 ho hc hc2 hf with h | ⟨e, he, h⟩
    · rw [h, exact_eq_beautiful_count h1]
    · exact absurd h (hnr e he)

/-- C1 (witness): base 2 with order 1 prints 2 and base 10 with order 1 prints 10, the
numbers of beautiful strings. -/
theorem printed_result_is_brute_force_count_witness :
    (2 = beautiful_count 2 1 ∧
      compute 100 1 8 (fun _ => 0) 2 1 = .ok (beautiful_count 2 1)) ∧
    (10 = beautiful_count 10 1 ∧
      compute 100 1 8 (fun _ => 0) 10 1 = .ok (beautiful_count 10 1)) :=
  ⟨⟨(printed_result_is_brute_force_count 100 1 8 (fun _ => 0) 2 1 (by decide) (by decide)
      (by decide)).1 2 (by decide),
    (printed_result_is_brute_force_count 100 1 8 (fun _ => 0) 2 1 (by decide) (by decide)
      (by decide)).2 (by decide) (by decide) (by decide)
      (fun e _ h => Except.noConfusion
        ((show compute 100 1 8 (fun _ => 0) 2 1 = .ok 2 by decide).symm.trans h))⟩,
   ⟨(printed_result_is_brute_force_count 100 1 8 (fun _ => 0) 10 1 (by decide) (by decide)
      (by decide)).1 10 (by decide),
    (printed_result_is_brute_force_count 100 1 8 (fun _ => 0) 10 1 (by decide) (by decide)
      (by decide)).2 (by decide) (by decide) (by decide)
      (fun e _ h => Except.noConfusion
        ((show compute 100 1 8 (fun _ => 0) 10 1 = .ok 10 by decide).symm.trans h))⟩⟩

/-- C2: when `base` is 0 or `order` is 0 the result is 0, for every fuel and every platform
parameter: no loop iteration and no planning step is needed, and nothing is raised. -/
theorem zero_base_or_order_gives_zero (fuel hw c : Nat) (ready : Nat → Nat) (base order : Nat)
    (h : base = 0 ∨ order = 0) : compute fuel hw c ready base order = .ok 0 := by
  unfold compute
  rw [if_neg (by omega : ¬ (0 < base ∧ 0 < order))]

/-- C2 (witness): base 0 with order 5 and base 7 with order 0 give 0 even without fuel and
with a cache line of 0 counters, with which any planning would fail. -/
theorem zero_base_or_order_gives_zero_witness :
    compute 0 1 0 (fun _ => 0) 0 5 = .ok 0 ∧ compute 0 1 0 (fun _ => 0) 7 0 = .ok 0 :=
  ⟨zero_base_or_order_gives_zero 0 1 0 (fun _ => 0) 0 5 (by decide),
   zero_base_or_order_gives_zero 0 1 0 (fun _ => 0) 7 0 (by decide)⟩

/-- C3 (counterexample): for base 1 and order 3 the program prints 1, not 0. -/
theorem base_one_gives_one_not_zero :
    compute 100 1 8 (fun _ => 0) 1 3 = .ok 1 ∧ compute 100 1 8 (fun _ => 0) 1 3 ≠ .ok 0 := by
  decide

/-- C3 (amended): for base 1 the result is 1 for every order >= 1 (the one string of zeros
is beautiful) and 0 for order 0. -/
theorem base_one_result (fuel hw c : Nat) (ready : Nat → Nat) (order : Nat) (hc : 0 < c)
    (hc2 : c ≤ 64) (hf : 1 < fuel) :
    compute fuel hw c ready 1 order = .ok (if order = 0 then 0 else 1) := by
  by_cases ho : order = 0
  · rw [if_pos ho]
    exact compute_zero fuel hw c ready 1 order (Or.inr ho)
  · rw [if_neg ho]
    obtain ⟨p, hp⟩ := plan_base_one hw order hc hc2
    have h := (compute_plan_ok fuel ready (by decide : 0 < 1) (by decide) (by omega)
      (no_wrap_of_plan (by decide) (by decide) hc2 hp) (by simpa using hf) hp).1
    rw [exact_base_one] at h
    exact h (by decide)

/-- C3 (witness): base 1 with order 3 gives 1 and base 1 with order 0 gives 0. -/
theorem base_one_result_witness :
    compute 2 4 8 (fun _ => 0) 1 3 = .ok 1 ∧ compute 2 4 8 (fun _ => 0) 1 0 = .ok 0 :=
  ⟨base_one_result 2 4 8 (fun _ => 0) 3 (by decide) (by decide) (by decide),
   base_one_result 2 4 8 (fun _ => 0) 0 (by decide) (by decide) (by decide)⟩

/-- C4: `plus a b` returns `a + b` exactly when `a + b < 2 ^ 64` and raises the overflow
error with both operands exactly when `a + b >= 2 ^ 64`; `mul a b` returns `a * b` exactly
when `a * b < 2 ^ 64` and raises the overflow error exactly when `a * b >= 2 ^ 64`; a value
that is returned is never a wrapped one. -/
theorem checked_arithmetic_contract (a b : Nat) :
    (plus a b = .ok (a + b) ↔ a + b < 2 ^ 64) ∧
    (plus a b = .error (.overflow_error a b) ↔ 2 ^ 64 ≤ a + b) ∧
    (mul a b = .ok (a * b) ↔ a * b < 2 ^ 64) ∧
    (mul a b = .error (.overflow_error a b) ↔ 2 ^ 64 ≤ a * b) ∧
    (∀ r, plus a b = .ok r → r = a + b) ∧ (∀ r, mul a b = .ok r → r = a * b) := by
  refine ⟨⟨?_, plus_ok⟩, ⟨?_, plus_overflow⟩, ⟨?_, mul_ok⟩, ⟨?_, mul_overflow⟩, ?_, ?_⟩
  · intro h
    by_contra hcon
    rw [plus_overflow (by omega)] at h
    cases h
  · intro h
    by_contra hcon
    rw [plus_ok (by omega)] at h
    cases h
  · intro h
    by_contra hcon
    rw [mul_overflow (by omega)] at h
    cases h
  · intro h
    by_contra hcon
    rw [mul_ok (by omega)] at h
    cases h
  · intro r h
    by_cases hlt : a + b < 2 ^ 64
    · rw [plus_ok hlt] at h
      exact (Except.ok.inj h).symm
    · rw [plus_overflow (by omega)] at h
      cases h
  · intro r h
    by_cases hlt : a * b < 2 ^ 64
    · rw [mul_ok hlt] at h
      exact (Except.ok.inj h).symm
    · rw [mul_overflow (by omega)] at h
      cases h

/-- C4 (witness): 3 + 4 and 6 * 7 are returned, `(2 ^ 64 - 1) + 1` and `2 ^ 32 * 2 ^ 32` raise
the overflow error. -/
theorem checked_arithmetic_contract_witness :
    plus 3 4 = .ok (3 + 4) ∧
    plus (2 ^ 64 - 1) 1 = .error (.overflow_error (2 ^ 64 - 1) 1) ∧
    mul 6 7 = .ok (6 * 7) ∧
    mul (2 ^ 32) (2 ^ 32) = .error (.overflow_error (2 ^ 32) (2 ^ 32)) :=
  ⟨(checked_arithmetic_contract 3 4).1.mpr (by decide),
   (checked_arithmetic_contract (2 ^ 64 - 1) 1).2.1.mpr (by decide),
   (checked_arithmetic_contract 6 7).2.2.1.mpr (by decide),
   (checked_arithmetic_contract (2 ^ 32) (2 ^ 32)).2.2.2.1.mpr (by decide)⟩

/-- C5 (counterexample): for base `2 ^ 63` and order 3 on one hardware thread, and for base
`2 ^ 64 - 1` and order 3, the value `base ^ (order / 2) - 1` fits in 64 bits and the exact
value of the final reduction does not, yet the run ends with the length error of the array
allocation or of the vector constructor, not with the overflow error. -/
theorem overflow_input_ends_with_length_error :
    ((2 ^ 63) ^ (3 / 2) - 1 < 2 ^ 64 ∧ 2 ^ 64 ≤ exact_result (2 ^ 63) 3 ∧
      compute 100 1 8 (fun _ => 0) (2 ^ 63) 3 = .error .bad_array_new_length) ∧
    ((2 ^ 64 - 1) ^ (3 / 2) - 1 < 2 ^ 64 ∧ 2 ^ 64 ≤ exact_result (2 ^ 64 - 1) 3 ∧
      compute 100 1 8 (fun _ => 0) (2 ^ 64 - 1) 3 = .error .length_error) := by
  refine ⟨⟨by norm_num, ?_, by decide⟩, ⟨by norm_num, ?_, by decide⟩⟩
  · exact Nat.le_trans (by norm_num) (exact_odd_ge (by norm_num) (by norm_num))
  · exact Nat.le_trans (by norm_num) (exact_odd_ge (by norm_num) (by norm_num))

/-- C5 (amended): for every base >= 1 and order >= 1, if `base ^ (order / 2) - 1` does not
fit in 64 bits the run ends with the overflow error; if the planning succeeds (the buffer is
allocated) and the exact value of the final reduction, the multiplication by `base` for an
odd order included, does not fit in 64 bits, the run ends with the overflow error; and in
neither case is a numeric value returned. -/
theorem overflow_is_reported (fuel hw c : Nat) (ready : Nat → Nat) (base order : Nat)
    (h1 : 0 < base) (h2 : base < 2 ^ 64) (ho : 0 < order) :
    (2 ^ 64 ≤ base ^ (order / 2) - 1 →
      ∃ l r, compute fuel hw c ready base order = .error (.overflow_error l r)) ∧
    ((∃ p, plan hw c base order = .ok p) → c ≤ 64 → base ^ (order / 2) < fuel →
      2 ^ 64 ≤ exact_result base order →
      ∃ l r, compute fuel hw c ready base order = .error (.overflow_error l r)) ∧
    (2 ^ 64 ≤ base ^ (order / 2) - 1 ∨ 2 ^ 64 ≤ exact_result base order →
      ∀ r, compute fuel hw c ready base order ≠ .ok r) := by
  have hfirst : 2 ^ 64 ≤ base ^ (order / 2) - 1 →
      ∃ l r, compute fuel hw c ready base order = .error (.overflow_error l r) := by
    intro hge
    obtain ⟨l, r, h⟩ := plan_overflow hw c order h1 h2 (by omega)
    exact ⟨l, r, compute_plan_error ready h1 ho h⟩
  refine ⟨hfirst, ?_, ?_⟩
  · rintro ⟨p, hp⟩ hc2 hf hge
    exact (compute_plan_ok fuel ready h1 h2 ho (no_wrap_of_plan h1 h2 hc2 hp) hf hp).2
      hge
  · intro hor r hr
    rcases hor with hge | hge
    · obtain ⟨l, r1, h⟩ := hfirst hge
      rw [h] at hr
      cases hr
    · have := compute_ok_exact h1 h2 ho hr
      omega

/-- C5 (witness): for base 10 and order 39 the planning succeeds and the final reduction does
not fit, so the run ends with the overflow error; for base 3 and order 200 already
`base ^ (order / 2) - 1` does not fit. -/
theorem overflow_is_reported_witness :
    (∃ l r, compute (10 ^ 19 + 1) 1 8 (fun _ => 0) 10 39 = .error (.overflow_error l r)) ∧
    (∃ l r, compute 0 1 8 (fun _ => 0) 3 200 = .error (.overflow_error l r)) :=
  ⟨(overflow_is_reported (10 ^ 19 + 1) 1 8 (fun _ => 0) 10 39 (by decide) (by decide)
      (by decide)).2.1 ⟨_, (by decide : plan 1 8 10 39 = .ok
        { max_sum := 171, v_max := 10 ^ 19 - 1, v_count := 10 ^ 19, asyncs_size := 0,
          works_nr := 1, u64_chunks_nr_per_work := 176, buffer_size := 176 })⟩
      (by decide) (by norm_num)
      (Nat.le_trans (by norm_num : 2 ^ 64 ≤ 10 ^ (39 / 2) * 10)
        (exact_odd_ge (by decide) (by decide))),
   (overflow_is_reported 0 1 8 (fun _ => 0) 3 200 (by decide) (by decide) (by decide)).1
      (by norm_num)⟩

/-- C6 (counterexample): for base `2 ^ 63` and order 2 a machine with one hardware thread
ends with the array length error and a machine with two hardware threads ends with the
overflow error of the checked buffer size. -/
theorem outcome_depends_on_hardware_concurrency :
    compute 0 1 8 (fun _ => 0) (2 ^ 63) 2 = .error .bad_array_new_length ∧
    compute 0 2 8 (fun _ => 0) (2 ^ 63) 2 = .error (.overflow_error (2 ^ 63) 2) ∧
    compute 0 2 8 (fun _ => 0) (2 ^ 63) 2 ≠ compute 0 1 8 (fun _ => 0) (2 ^ 63) 2 := by
  decide

/-- C6 (amended): for every base and order, every hardware concurrency and every completion
order of the background tasks, the outcome, a value or an error, does not depend on the
completion order; and if the planning succeeds (the buffer for all workers is allocated), it
is the outcome of the computation with one hardware thread, so that the numeric result is a
function of `base` and `order` alone. -/
theorem outcome_equals_single_worker (fuel hw c : Nat) (ready ready1 : Nat → Nat)
    (base order : Nat) (h2 : base < 2 ^ 64) (hc2 : c ≤ 64) (hf : base ^ (order / 2) < fuel) :
    compute fuel hw c ready base order = compute fuel hw c ready1 base order ∧
    ((∃ p, plan hw c base order = .ok p) →
      compute fuel hw c ready base order = compute fuel 1 c ready1 base order) := by
  by_cases hz : 0 < base ∧ 0 < order
  · obtain ⟨h1, ho⟩ := hz
    constructor
    · cases hp : plan hw c base order with
      | error e =>
        rw [compute_plan_error ready h1 ho hp, compute_plan_error ready1 h1 ho hp]
      | ok p =>
        rw [compute_eq_reduce ready h1 h2 ho (no_wrap_of_plan h1 h2 hc2 hp) hf hp,
          compute_eq_reduce ready1 h1 h2 ho (no_wrap_of_plan h1 h2 hc2 hp) hf hp]
    · rintro ⟨p, hp⟩
      obtain ⟨p1, hp1⟩ := plan_single h1 h2 hp
      rw [compute_eq_reduce ready h1 h2 ho (no_wrap_of_plan h1 h2 hc2 hp) hf hp,
        compute_eq_reduce ready1 h1 h2 ho (no_wrap_of_plan h1 h2 hc2 hp1) hf hp1]
  · rw [compute_zero fuel hw c ready base order (by omega),
      compute_zero fuel 1 c ready1 base order (by omega),
      compute_zero fuel hw c ready1 base order (by omega)]
    exact ⟨rfl, fun _ => rfl⟩

/-- C6 (witness): base 10 with order 12 on four hardware threads, where the planner uses two
workers, and on one hardware thread. -/
theorem outcome_equals_single_worker_witness :
    plan 4 8 10 12 = .ok
      { max_sum := 54, v_max := 999999, v_count := 1000000, asyncs_size := 1, works_nr := 2,
        u64_chunks_nr_per_work := 56, buffer_size := 112 } ∧
    compute 1000001 4 8 (fun n => n) 10 12 = compute 1000001 1 8 (fun _ => 0) 10 12 :=
  ⟨by decide,
   (outcome_equals_single_worker 1000001 4 8 (fun n => n) (fun _ => 0) 10 12
    (by decide) (by decide) (by decide)).2 ⟨_, (by decide : plan 4 8 10 12 = .ok
      { max_sum := 54, v_max := 999999, v_count := 1000000, asyncs_size := 1, works_nr := 2,
        u64_chunks_nr_per_work := 56, buffer_size := 112 })⟩⟩

/-- C7: for every base and every k >= 1 the outcome for the odd order `2 * k + 1` is the
checked product of the outcome for the even order `2 * k` with `base`: if the computation
for order `2 * k` ends with an error, the computation for order `2 * k + 1` ends with the
same error; if it returns `r`, the computation for order `2 * k + 1` returns `r * base` when
that product fits in 64 bits and ends with the overflow error when it does not. -/
theorem odd_order_is_checked_product (fuel hw c : Nat) (ready : Nat → Nat) (base k : Nat)
    (hk : 0 < k) :
    (∀ e, compute fuel hw c ready base (2 * k) = .error e →
      compute fuel hw c ready base (2 * k + 1) = .error e) ∧
    (∀ r, compute fuel hw c ready base (2 * k) = .ok r →
      (r * base < 2 ^ 64 → compute fuel hw c ready base (2 * k + 1) = .ok (r * base)) ∧
      (2 ^ 64 ≤ r * base →
        compute fuel hw c ready base (2 * k + 1) = .error (.overflow_error r base))) := by
  have h := compute_odd fuel hw c ready base k hk
  constructor
  · intro e he
    rw [h, he]
  · intro r hr
    rw [h, hr]
    exact ⟨fun hlt => mul_ok hlt, fun hge => mul_overflow hge⟩

/-- C7 (witness): base 10 gives 10 for order 2 and so `10 * 10` for order 3. -/
theorem odd_order_is_checked_product_witness :
    compute 100 1 8 (fun _ => 0) 10 (2 * 1) = .ok 10 ∧
    compute 100 1 8 (fun _ => 0) 10 (2 * 1 + 1) = .ok (10 * 10) :=
  ⟨by decide,
   ((odd_order_is_checked_product 100 1 8 (fun _ => 0) 10 1 (by decide)).2 10 (by decide)).1
     (by decide)⟩

/-- C8 (counterexample): `parse` returns a value for a string with a leading plus sign, for a
string with a leading blank and for a string with a leading minus sign. -/
theorem parse_accepts_sign_and_space :
    parse true "+5".toList = .ok 5 ∧ parse true " 5".toList = .ok 5 ∧
    parse true "-1".toList = .ok (2 ^ 64 - 1) := by
  decide

/-- C8 (amended): for every non-empty argument string, `parse` returns a value exactly when
the string, after the leading white space and the one optional sign that `strtoul` skips, is
a non-empty run of decimal digits whose value fits in 64 bits; it then returns that value,
negated modulo `2 ^ 64` after a minus sign.  Every other non-empty string, with non-numeric
content, trailing garbage or a value out of range, raises the invalid-argument error; a
string of decimal digits alone is returned as the integer it denotes when that fits and
raises otherwise. -/
theorem parse_contract (noconv_errno : Bool) (arg : List Char) (harg : arg ≠ []) :
    parse noconv_errno arg =
      (if unsigned_digits arg ≠ [] ∧ (∀ ch ∈ unsigned_digits arg, isdigit ch = true) ∧
          decimal 0 (unsigned_digits arg) < 2 ^ 64 then
        .ok (if has_minus arg then (2 ^ 64 - decimal 0 (unsigned_digits arg)) % 2 ^ 64
          else decimal 0 (unsigned_digits arg))
      else .error .invalid_argument) ∧
    ((∀ ch ∈ arg, isdigit ch = true) →
      parse noconv_errno arg =
        if decimal 0 arg < 2 ^ 64 then .ok (decimal 0 arg) else .error .invalid_argument) := by
  refine ⟨parse_nonempty noconv_errno arg harg, ?_⟩
  intro hall
  obtain ⟨hu, hm⟩ := unsigned_digits_of_digits arg hall
  rw [parse_nonempty noconv_errno arg harg, hu, hm]
  by_cases hlt : decimal 0 arg < 2 ^ 64
  · rw [if_pos (⟨harg, hall, hlt⟩ : arg ≠ [] ∧ (∀ ch ∈ arg, isdigit ch = true) ∧
      decimal 0 arg < 2 ^ 64), if_pos hlt]
    rfl
  · rw [if_neg (fun h => hlt h.2.2 : ¬ (arg ≠ [] ∧ (∀ ch ∈ arg, isdigit ch = true) ∧
      decimal 0 arg < 2 ^ 64)), if_neg hlt]

/-- C8 (witness): the string `600000` is returned as 600000, the string `12x` with trailing
garbage and the string `18446744073709551616`, which is `2 ^ 64`, raise. -/
theorem parse_contract_witness :
    parse true "600000".toList = .ok 600000 ∧
    parse true "12x".toList = .error .invalid_argument ∧
    parse true "18446744073709551616".toList = .error .invalid_argument :=
  ⟨((parse_contract true "600000".toList (by decide)).2 (by decide)).trans (by decide),
   ((parse_contract true "12x".toList (by decide)).1).trans (by decide),
   ((parse_contract true "18446744073709551616".toList (by decide)).2 (by decide)).trans
     (by decide)⟩

/-- C9: for every base >= 1 and order >= 1, whenever the computation returns a value `r`, `r`
is the number of `order`-digit strings over the digits `0 .. base - 1` in which the first
`order / 2` digits and the last `order / 2` digits have the same digit sum, and
`r = (sum over s of H[s] ^ 2) * (base if order is odd else 1)`, where `H[s]` is the number of
strings of `order / 2` digits with digit sum `s`. -/
theorem result_counts_beautiful_strings (fuel hw c : Nat) (ready : Nat → Nat)
    (base order r : Nat) (h1 : 0 < base) (h2 : base < 2 ^ 64) (ho : 0 < order)
    (hr : compute fuel hw c ready base order = .ok r) :
    r = ((strings base order).filter (beautiful order)).length ∧
    r = ((List.range ((base - 1) * (order / 2) + 1)).map
          (fun s => string_hist base (order / 2) s ^ 2)).sum *
        (if order % 2 = 1 then base else 1) := by
  have hex := (compute_ok_exact h1 h2 ho hr).1
  constructor
  · rw [hex, exact_eq_beautiful_count h1, beautiful_count, List.countP_eq_length_filter]
  · rw [hex]
    unfold exact_result square_sum
    congr 2
    apply List.map_congr_left
    intro s _
    rw [cnt_eq_string_hist h1, sq]

/-- C9 (witness): base 10 with order 6 gives 55252, the number of beautiful strings of six
decimal digits. -/
theorem result_counts_beautiful_strings_witness :
    compute 1001 4 8 (fun _ => 0) 10 6 = .ok 55252 ∧
    55252 = ((strings 10 6).filter (beautiful 6)).length ∧
    55252 = ((List.range ((10 - 1) * (6 / 2) + 1)).map
          (fun s => string_hist 10 (6 / 2) s ^ 2)).sum * (if 6 % 2 = 1 then 10 else 1) :=
  ⟨compute_ten_six, result_counts_beautiful_strings 1001 4 8 (fun _ => 0) 10 6 55252 (by decide)
    (by decide) (by decide) compute_ten_six⟩

/-- C10: for every base >= 1 and order whose planning succeeds, for every split of
`[0, v_max]` into contiguous non-empty sub-ranges and every permutation `rs` of these
sub-ranges, `work` produces a histogram for every sub-range, and merging these histograms
by pointwise checked addition in the order of `rs` gives the histogram that `work` produces
over the whole range `[0, v_max]` in one pass. -/
theorem merge_any_split_any_order (fuel hw c base order : Nat) (p : Plan) (h1 : 0 < base)
    (h2 : base < 2 ^ 64) (hp : plan hw c base order = .ok p) (hf : base ^ (order / 2) < fuel)
    (ns : List Nat) (hpos : ∀ n ∈ ns, 0 < n) (hsum : ns.sum = p.v_max + 1)
    (rs : List (Nat × Nat)) (hperm : rs.Perm (split_ranges 0 ns)) :
    ∃ hs whole, range_histograms fuel base (p.max_sum + 1) rs = .ok hs ∧
      range_histogram fuel base (p.max_sum + 1) 0 p.v_max = .ok whole ∧
      merge_all hs = .ok whole :=
  merge_split h1 h2 hp hf ns hpos hsum rs hperm

/-- C10 (witness): base 10 with order 4, the range `[0, 99]` split into `[0, 29]`, `[30, 59]`
and `[60, 99]` and merged in the order third, first, second. -/
theorem merge_any_split_any_order_witness :
    ∃ hs whole, range_histograms 101 10 (18 + 1) [(60, 99), (0, 29), (30, 59)] = .ok hs ∧
      range_histogram 101 10 (18 + 1) 0 99 = .ok whole ∧ merge_all hs = .ok whole :=
  merge_any_split_any_order 101 1 8 10 4
    { max_sum := 18, v_max := 99, v_count := 100, asyncs_size := 0, works_nr := 1,
      u64_chunks_nr_per_work := 24, buffer_size := 24 }
    (by decide) (by decide) (by decide) (by decide) [30, 30, 40] (by decide) (by decide)
    [(60, 99), (0, 29), (30, 59)] (by decide)

/-- C11: for every 64-bit `v_count >= 1` (with `v_max = v_count - 1`) and the worker counts
that the planner derives from `v_count` (`asyncs_size` background workers, `w` workers in
all), `w` is at least 1 and, with `v_step = v_count / w`, the ranges that `main` hands out are
`[i * v_step, (i + 1) * v_step - 1]` for the background workers `i = 0 .. w - 2` followed by
`[(w - 1) * v_step, v_max]` for the calling thread; every range is non-empty and inside
`[0, v_max]`, and every value of `[0, v_max]` lies in exactly one of them, every other value
in none. -/
theorem ranges_partition_values (hw v_count asyncs_size w : Nat) (hv : 0 < v_count)
    (hv2 : v_count < 2 ^ 64) (hp : plan_workers hw v_count = .ok (asyncs_size, w)) :
    1 ≤ w ∧ asyncs_size = w - 1 ∧
    assigned_ranges v_count (v_count - 1) asyncs_size w =
      (List.range (w - 1)).map (fun i => (i * (v_count / w), (i + 1) * (v_count / w) - 1)) ++
        [((w - 1) * (v_count / w), v_count - 1)] ∧
    (∀ r ∈ assigned_ranges v_count (v_count - 1) asyncs_size w,
      r.1 ≤ r.2 ∧ r.2 ≤ v_count - 1) ∧
    (∀ v, (assigned_ranges v_count (v_count - 1) asyncs_size w).countP (in_range v) =
      if v ≤ v_count - 1 then 1 else 0) := by
  obtain ⟨_, hw_eq, ha_eq⟩ := plan_workers_inv hv hv2 hp
  have hw1 : 1 ≤ w := by
    rw [hw_eq]
    exact works_nr_of_pos hw v_count hv
  have hwv : w ≤ v_count := by
    rw [hw_eq]
    exact works_nr_of_le hw v_count hv
  have ha : asyncs_size = w - 1 := by rw [ha_eq, hw_eq]
  obtain ⟨hpos, hsum⟩ := split_list_facts hw1 hwv
  obtain ⟨hs, hcov⟩ := step_facts hw1 hwv
  have hsplit := assigned_ranges_split hw1 hwv hv2
  rw [ha]
  refine ⟨hw1, rfl, ?_, ?_, ?_⟩
  · rw [hsplit, split_ranges_append, split_ranges_replicate, List.sum_replicate, smul_eq_mul,
      Nat.zero_add, split_ranges, split_ranges]
    have e : (w - 1) * (v_count / w) + (v_count - (w - 1) * (v_count / w)) - 1 = v_count - 1 := by
      omega
    rw [e]
    apply congrArg (fun l => l ++ [((w - 1) * (v_count / w), v_count - 1)])
    apply List.map_congr_left
    intro i _
    rw [Nat.zero_add, Nat.zero_add]
  · intro r hr
    rw [hsplit] at hr
    have h := split_ranges_mem _ 0 hpos r hr
    rw [hsum] at h
    omega
  · intro v
    rw [hsplit, split_ranges_cover _ 0 hpos v, hsum]
    by_cases hle : v ≤ v_count - 1
    · rw [if_pos hle, if_pos (by omega)]
    · rw [if_neg hle, if_neg (by omega)]

/-- C11 (witness): one million values on four hardware threads: the planner uses two workers,
the background worker gets `[0, 499999]` and the calling thread `[500000, 999999]`. -/
theorem ranges_partition_values_witness :
    1 ≤ 2 ∧ 1 = 2 - 1 ∧
    assigned_ranges 1000000 (1000000 - 1) 1 2 =
      (List.range (2 - 1)).map (fun i => (i * (1000000 / 2), (i + 1) * (1000000 / 2) - 1)) ++
        [((2 - 1) * (1000000 / 2), 1000000 - 1)] ∧
    (∀ r ∈ assigned_ranges 1000000 (1000000 - 1) 1 2, r.1 ≤ r.2 ∧ r.2 ≤ 1000000 - 1) ∧
    (∀ v, (assigned_ranges 1000000 (1000000 - 1) 1 2).countP (in_range v) =
      if v ≤ 1000000 - 1 then 1 else 0) :=
  ranges_partition_values 4 1000000 1 2 (by decide) (by decide) (by decide)

/-- C12: for every base >= 1 and every half_order for which the planning steps that compute
`max_sum` and `v_max` succeed, `v_max` is `base ^ half_order - 1`, `max_sum` is
`(base - 1) * half_order`, and for every `v` of `[0, v_max]` the digit sum of `v` is at most
`max_sum`; the inner loop of `work` returns that digit sum as soon as its budget exceeds `v`
and returns no other value with any budget.  So on a span of `max_sum + 1` counters `work`
never ends with the failed assertion `x < sums.size()`, for every range inside `[0, v_max]`,
every buffer and every budget. -/
theorem digit_sum_within_max_sum (base half_order max_sum v_max : Nat) (h1 : 0 < base)
    (h2 : base < 2 ^ 64)
    (hm : mul ((base + 2 ^ 64 - 1) % 2 ^ 64) half_order = .ok max_sum)
    (hv : v_max_compute base half_order = .ok v_max) :
    v_max = base ^ half_order - 1 ∧ max_sum = (base - 1) * half_order ∧
    max_sum + 1 < 2 ^ 64 ∧
    (∀ v, v ≤ v_max →
      dsum base v ≤ max_sum ∧
      (∀ fuel, v < fuel → digit_loop base fuel 0 v = .ok (dsum base v)) ∧
      (∀ fuel x, digit_loop base fuel 0 v = .ok x → x = dsum base v)) ∧
    (∀ fuel lo hi off mem, hi ≤ v_max →
      work fuel lo hi base off (max_sum + 1) mem ≠ .error .assertion) := by
  obtain ⟨hlt, hvm⟩ := v_max_compute_inv h1 h2 hv
  have hb1 : (base + 2 ^ 64 - 1) % 2 ^ 64 = base - 1 := by omega
  have hms : max_sum = (base - 1) * half_order := by
    rw [hb1] at hm
    by_cases ho : (base - 1) * half_order < 2 ^ 64
    · rw [mul_ok ho] at hm
      exact (Except.ok.inj hm).symm
    · rw [mul_overflow (Nat.le_of_not_lt ho)] at hm
      exact Except.noConfusion hm
  have hbern := bernoulli h1 half_order
  have hpos : 0 < base ^ half_order := pow_pos h1 half_order
  have hbound : ∀ v, v ≤ v_max → dsum base v ≤ max_sum := by
    intro v hle
    rw [hms]
    exact dsum_bound h1 half_order v (by omega)
  have hval : ∀ v, v ≤ v_max → ∀ fuel x, digit_loop base fuel 0 v = .ok x → x = dsum base v := by
    intro v hle fuel x hx
    exact digit_loop_val half_order fuel h1 hlt v x (by omega) hx
  refine ⟨hvm, hms, by omega, ?_, ?_⟩
  · intro v hle
    refine ⟨hbound v hle, ?_, hval v hle⟩
    intro fuel hf
    by_cases hb : 2 ≤ base
    · have h := digit_loop_spec hb fuel 0 v hf (by omega)
      rw [Nat.zero_add] at h
      exact h
    · have hb1 : base = 1 := by omega
      have hv0 : v = 0 := by
        rw [hvm, hb1, Nat.one_pow] at hle
        omega
      rw [hv0, dsum_zero]
      exact digit_loop_zero base fuel 0 (by omega)
  · intro fuel lo hi off mem hhi h
    unfold work at h
    rw [if_neg (by omega : ¬ base = 0)] at h
    refine work_loop_no_assert fuel base hi off (max_sum + 1) ?_ fuel lo mem h
    intro u x hu hx
    have e := hval u (by omega) fuel x hx
    have b := hbound u (by omega)
    omega

/-- C12 (witness): base 10 with half_order 2, where `max_sum` is 18 and `v_max` is 99. -/
theorem digit_sum_within_max_sum_witness :
    (99 = 10 ^ 2 - 1 ∧ 18 = (10 - 1) * 2 ∧
    18 + 1 < 2 ^ 64 ∧
    (∀ v, v ≤ 99 →
      dsum 10 v ≤ 18 ∧
      (∀ fuel, v < fuel → digit_loop 10 fuel 0 v = .ok (dsum 10 v)) ∧
      (∀ fuel x, digit_loop 10 fuel 0 v = .ok x → x = dsum 10 v)) ∧
    (∀ fuel lo hi off mem, hi ≤ 99 →
      work fuel lo hi 10 off (18 + 1) mem ≠ .error .assertion)) :=
  digit_sum_within_max_sum 10 2 18 99 (by decide) (by decide) (by decide) (by decide)

/-- C13 (counterexample): with base 2, the range `[0, 0]` and a buffer whose one counter holds
`2 ^ 64 - 1`, `work` returns the buffer `[0]`: one value of the range has the digit sum 0, but
the counter has not grown by 1, the unchecked increment has wrapped. -/
theorem work_increment_wraps :
    work 2 0 0 2 0 1 [2 ^ 64 - 1] = .ok [0] ∧ cnt 2 0 1 0 = 1 := by
  constructor
  · decide
  · rw [cnt_succ, cnt_zero, dsum_zero]
    rfl

/-- C13 (amended): for every base >= 2, every range `v_min <= v_max < 2 ^ 64 - 1` and every
buffer of 64-bit counters whose span is inside the buffer and long enough to be indexed by
every digit sum in the range, `work` (with a budget above `v_max + 1`) returns the buffer in
which, for every index `s` of the span, the counter is the old counter plus the number of `v`
in `[v_min, v_max]` whose base-`base` digit sum is `s`, modulo `2 ^ 64`: exactly that sum
whenever it fits in 64 bits, so counters of sums that do not occur are unchanged; the length
of the buffer and every counter outside the span are unchanged. -/
theorem work_counts_digit_sums (fuel v_min v_max base off size : Nat) (mem : List Nat)
    (hb : 2 ≤ base) (hle : v_min ≤ v_max) (hmax : v_max < 2 ^ 64 - 1)
    (hs : ∀ v, v_min ≤ v → v ≤ v_max → dsum base v < size)
    (hbuf : off + size ≤ mem.length) (hu : ∀ x ∈ mem, x < 2 ^ 64)
    (hf : v_max + 1 < fuel) :
    ∃ mem1, work fuel v_min v_max base off size mem = .ok mem1 ∧
      mem1.length = mem.length ∧
      (∀ s, s < size → cell mem1 (off + s) =
        (cell mem (off + s) + cnt base v_min (v_max - v_min + 1) s) % 2 ^ 64) ∧
      (∀ s, s < size → cell mem (off + s) + cnt base v_min (v_max - v_min + 1) s < 2 ^ 64 →
        cell mem1 (off + s) = cell mem (off + s) + cnt base v_min (v_max - v_min + 1) s) ∧
      (∀ s, s < size → cnt base v_min (v_max - v_min + 1) s = 0 →
        cell mem1 (off + s) = cell mem (off + s)) ∧
      (∀ i, ¬ (off ≤ i ∧ i < off + size) → cell mem1 i = cell mem i) := by
  have hcell : ∀ i, cell mem i < 2 ^ 64 := cell_lt_of_mem (by decide) hu
  have hd : ∀ u, v_min ≤ u → u ≤ v_max →
      digit_loop base fuel 0 u = .ok (dsum base u) ∧ dsum base u < size := by
    intro u h1 h2
    exact ⟨digit_loop_small v_max (Or.inl hb) u fuel h2 (by omega) (by omega), hs u h1 h2⟩
  obtain ⟨mem1, hrun, hlen, hc⟩ :=
    work_loop_mod_spec fuel base v_max off size (v_max - v_min + 1) v_min mem fuel (by omega)
      (by omega) (by omega) hd hbuf hcell
  have hmod : ∀ s, s < size → cell mem1 (off + s) =
      (cell mem (off + s) + cnt base v_min (v_max - v_min + 1) s) % 2 ^ 64 := by
    intro s hs1
    rw [hc (off + s), if_pos (by omega), Nat.add_sub_cancel_left]
  refine ⟨mem1, ?_, hlen, hmod, ?_, ?_, ?_⟩
  · rw [work, if_neg (by omega : ¬ base = 0)]
    exact hrun
  · intro s hs1 hfit
    rw [hmod s hs1, Nat.mod_eq_of_lt hfit]
  · intro s hs1 h0
    rw [hmod s hs1, h0, Nat.add_zero, Nat.mod_eq_of_lt (hcell _)]
  · intro i hi
    rw [hc i, if_neg hi]

/-- C13 (witness): base 10, the range `[0, 2]` and a buffer of three counters that hold 0. -/
theorem work_counts_digit_sums_witness :
    ∃ mem1, work 4 0 2 10 0 3 [0, 0, 0] = .ok mem1 ∧
      mem1.length = [0, 0, 0].length ∧
      (∀ s, s < 3 → cell mem1 (0 + s) =
        (cell [0, 0, 0] (0 + s) + cnt 10 0 (2 - 0 + 1) s) % 2 ^ 64) ∧
      (∀ s, s < 3 → cell [0, 0, 0] (0 + s) + cnt 10 0 (2 - 0 + 1) s < 2 ^ 64 →
        cell mem1 (0 + s) = cell [0, 0, 0] (0 + s) + cnt 10 0 (2 - 0 + 1) s) ∧
      (∀ s, s < 3 → cnt 10 0 (2 - 0 + 1) s = 0 →
        cell mem1 (0 + s) = cell [0, 0, 0] (0 + s)) ∧
      (∀ i, ¬ (0 ≤ i ∧ i < 0 + 3) → cell mem1 i = cell [0, 0, 0] i) :=
  work_counts_digit_sums 4 0 2 10 0 3 [0, 0, 0] (by decide) (by decide) (by decide)
    (fun v _ h => Nat.lt_of_le_of_lt (dsum_le 10 v) (Nat.lt_succ_of_le h))
    (by decide) (by decide) (by decide)

/-- C14 (counterexample): on the histogram `[1, 1]` (base 2, one digit per half) the reducer
returns 2, the sum of the squares of the counters, while the sum over the digit sums `s` of
`H[s] * s ^ 2` is 1. -/
theorem reducer_is_not_weighted_square_sum :
    transform_reduce [1, 1] 0 = .ok 2 ∧ weighted_square_sum [1, 1] = 1 := by
  constructor
  · decide
  · decide

/-- C14 (amended): for every merged histogram `H` the final reducer (before the odd-order
correction) returns the sum over `s` of `H[s] ^ 2` whenever no checked operation overflows:
it returns that sum when the sum is below `2 ^ 64`, and every value it returns is that sum. -/
theorem reducer_is_sum_of_squares (H : List Nat) :
    ((H.map (fun x => x ^ 2)).sum < 2 ^ 64 →
      transform_reduce H 0 = .ok ((H.map (fun x => x ^ 2)).sum)) ∧
    (∀ r, transform_reduce H 0 = .ok r → r = (H.map (fun x => x ^ 2)).sum) := by
  have e : (H.map (fun x => x ^ 2)) = (H.map (fun x => x * x)) := by
    apply List.map_congr_left
    intro x _
    exact Nat.pow_two x
  rw [e]
  constructor
  · intro hlt
    have h := transform_reduce_ok H 0 (by omega)
    rw [Nat.zero_add] at h
    exact h
  · intro r hr
    exact (transform_reduce_inv hr).1

/-- C14 (witness): the histogram `[1, 3, 3, 1]` of base 2 with three digits per half gives
`1 + 9 + 9 + 1 = 20`. -/
theorem reducer_is_sum_of_squares_witness :
    transform_reduce [1, 3, 3, 1] 0 = .ok 20 :=
  (reducer_is_sum_of_squares [1, 3, 3, 1]).1 (by decide)

/-- C15 (counterexample): for base 2 and half_order 64 the value `2 ^ 64 - 1` is representable
in 64 bits, but `v_max_compute` raises the overflow error: after the last digit it still
multiplies the running power `2 ^ 63` by the base. -/
theorem v_max_compute_rejects_full_power :
    2 ^ 64 - 1 < 2 ^ 64 ∧ v_max_compute 2 64 = .error (.overflow_error (2 ^ 63) 2) := by
  constructor
  · decide
  · decide

/-- C15 (amended): for every base >= 1 and every half_order such that `base ^ half_order` is
representable in 64 bits, `v_max_compute base half_order` returns `base ^ half_order - 1`,
which is the sum of `(base - 1) * base ^ k` for `k` in `[0, half_order)` and the largest value
with `half_order` digits in that base: every value `sum of d k * base ^ k` with digits
`d k <= base - 1` is at most it, and for base >= 2 the values up to it are those whose
representation has at most `half_order` digits. -/
theorem v_max_compute_value (base half_order : Nat) (h1 : 0 < base) (h2 : base < 2 ^ 64)
    (hlt : base ^ half_order < 2 ^ 64) :
    v_max_compute base half_order = .ok (base ^ half_order - 1) ∧
    base ^ half_order - 1 = ((List.range half_order).map (fun k => (base - 1) * base ^ k)).sum ∧
    (∀ d : Nat → Nat, (∀ k, k < half_order → d k ≤ base - 1) →
      ((List.range half_order).map (fun k => d k * base ^ k)).sum ≤ base ^ half_order - 1) ∧
    (2 ≤ base → ∀ v, v ≤ base ^ half_order - 1 ↔ (Nat.digits base v).length ≤ half_order) := by
  have hg : base ^ half_order - 1 =
      ((List.range half_order).map (fun k => (base - 1) * base ^ k)).sum := by
    have h := geom_sum base h1 half_order
    omega
  refine ⟨v_max_compute_ok h1 h2 hlt, hg, ?_, ?_⟩
  · intro d hd
    rw [hg]
    apply List.sum_le_sum
    intro k hk
    exact Nat.mul_le_mul_right _ (hd k (List.mem_range.mp hk))
  · intro hb v
    have hpos : 0 < base ^ half_order := pow_pos h1 half_order
    rw [← digits_length_le_iff hb half_order v]
    omega

/-- C15 (witness): base 10 with half_order 3 gives 999. -/
theorem v_max_compute_value_witness :
    v_max_compute 10 3 = .ok (10 ^ 3 - 1) ∧
    10 ^ 3 - 1 = ((List.range 3).map (fun k => (10 - 1) * 10 ^ k)).sum ∧
    (∀ d : Nat → Nat, (∀ k, k < 3 → d k ≤ 10 - 1) →
      ((List.range 3).map (fun k => d k * 10 ^ k)).sum ≤ 10 ^ 3 - 1) ∧
    (2 ≤ 10 → ∀ v, v ≤ 10 ^ 3 - 1 ↔ (Nat.digits 10 v).length ≤ 3) :=
  v_max_compute_value 10 3 (by decide) (by decide) (by decide)

/-- C16 (failing input): for base `2 ^ 64 - 1` and order 2 on eight hardware threads `v_count`
is `2 ^ 64 - 1`, and the number of background workers over the integers is
`min(ceil(v_count / 600000), 8) - 1 = 7`.  In the code the unchecked sum `v + d - 1` of
`div_round_up` wraps, `div_round_up` returns 0, `0 - 1u` wraps to `2 ^ 64 - 1`, and the
constructor of the vector of futures throws `std::length_error`: no worker is created and
the run ends with that exception, for every budget and completion order. -/
theorem worker_count_wraps :
    min ((2 ^ 64 - 1 + 600000 - 1) / 600000) 8 - 1 = 7 ∧
    div_round_up (2 ^ 64 - 1) kAsyncCountFactor = .ok 0 ∧
    plan_workers 8 (2 ^ 64 - 1) = .error .length_error ∧
    plan 8 8 (2 ^ 64 - 1) 2 = .error .length_error ∧
    (∀ fuel ready, compute fuel 8 8 ready (2 ^ 64 - 1) 2 = .error .length_error) := by
  have hp : plan 8 8 (2 ^ 64 - 1) 2 = .error .length_error := by decide
  refine ⟨by decide, by decide, by decide, hp, ?_⟩
  intro fuel ready
  exact compute_plan_error ready (by decide) (by decide) hp

/-- C18 (counterexample): with base 1 and the range `[1, 1]` the digit-extraction loop never
reaches 0 (dividing by 1 leaves `t = 1`), and with base 2 and the range `[0, 2 ^ 64 - 1]` the
outer loop never ends (`v <= v_max` holds for every 64-bit `v`): in both cases `work` is still
running when the budget is used up, whatever the budget. -/
theorem work_does_not_terminate :
    (¬ ∃ fuel, work fuel 1 1 1 0 1 [0] ≠ .error .out_of_fuel) ∧
    (¬ ∃ fuel, work fuel 0 (2 ^ 64 - 1) 2 0 65 (List.replicate 65 0) ≠ .error .out_of_fuel) := by
  constructor
  · rintro ⟨fuel, h⟩
    exact h (work_base_one_diverges fuel 1 1 0 1 [0] (by decide) (by decide))
  · rintro ⟨fuel, h⟩
    apply h
    rw [work, if_neg (by decide : ¬ 2 = 0)]
    refine work_loop_forever fuel 2 0 65 (by decide) ?_ fuel 0 _ (by decide) ?_
    · intro u hu
      have := dsum_bound (by decide : 0 < 2) 64 u hu
      omega
    · rw [List.length_replicate]

/-- C18 (amended): for every base B >= 2 (and for B = 1 when `v_max` is 0) and every inclusive
range `[v_min, v_max]` of 64-bit values with `v_max < 2 ^ 64 - 1`, `work` terminates: for each
`v` of the range the digit-extraction loop returns the digit sum once its budget exceeds `v`,
and with a budget above `v_max + 1` the run of `work` does not end with the budget used up,
whatever the buffer is. -/
theorem work_terminates (fuel v_min v_max base off size : Nat) (mem : List Nat)
    (hb : 2 ≤ base ∨ v_max = 0) (hmax : v_max < 2 ^ 64 - 1) (hf : v_max + 1 < fuel) :
    (∀ v f, v ≤ v_max → v < f → digit_loop base f 0 v = .ok (dsum base v)) ∧
    work fuel v_min v_max base off size mem ≠ .error .out_of_fuel := by
  have hd : ∀ v f, v ≤ v_max → v < f → digit_loop base f 0 v = .ok (dsum base v) := by
    intro v f hv hvf
    exact digit_loop_small v_max hb v f hv (by omega) hvf
  refine ⟨hd, ?_⟩
  unfold work
  by_cases h0 : base = 0
  · rw [if_pos h0]
    intro h
    exact Fault.noConfusion (Except.error.inj h)
  · rw [if_neg h0]
    exact work_loop_terminates fuel base v_max off size (by omega)
      (fun u hu => ⟨dsum base u, hd u fuel hu (by omega)⟩) (v_max + 1) v_min mem fuel
      (by omega) hf

/-- C18 (witness): base 10 and the range `[0, 9]` with a budget of 11 on a buffer of ten
counters. -/
theorem work_terminates_witness :
    (∀ v f, v ≤ 9 → v < f → digit_loop 10 f 0 v = .ok (dsum 10 v)) ∧
    work 11 0 9 10 0 10 (List.replicate 10 0) ≠ .error .out_of_fuel :=
  work_terminates 11 0 9 10 0 10 (List.replicate 10 0) (Or.inl (by decide)) (by decide)
    (by decide)

/-- C19: for every base >= 1 and half_order, whenever `v_max_compute base half_order` returns a
value `v_max`, `base ^ half_order` is below `2 ^ 64` and `v_max` is `base ^ half_order - 1`, so
the unchecked 64-bit computation `v_count = v_max - 0 + 1` of `main` does not wrap to 0 and
equals `base ^ half_order`; and `v_max_compute` returns no value when `base ^ half_order` is
`2 ^ 64` or more.  In every successful plan `v_count` is `base ^ (order / 2)`. -/
theorem v_count_never_wraps (base half_order : Nat) (h1 : 0 < base) (h2 : base < 2 ^ 64) :
    (∀ v_max, v_max_compute base half_order = .ok v_max →
      base ^ half_order < 2 ^ 64 ∧ v_max = base ^ half_order - 1 ∧
      (v_max + 2 ^ 64 - 0 + 1) % 2 ^ 64 = base ^ half_order ∧
      (v_max + 2 ^ 64 - 0 + 1) % 2 ^ 64 ≠ 0) ∧
    (2 ^ 64 ≤ base ^ half_order →
      ∃ l r, v_max_compute base half_order = .error (.overflow_error l r)) ∧
    (∀ hw c order p, order / 2 = half_order → plan hw c base order = .ok p →
      p.v_count = base ^ half_order ∧ 0 < p.v_count ∧ p.v_count < 2 ^ 64) := by
  have hpos : 0 < base ^ half_order := pow_pos h1 half_order
  refine ⟨?_, fun hge => v_max_compute_overflow h1 h2 hge, ?_⟩
  · intro v_max hv
    obtain ⟨hlt, hvm⟩ := v_max_compute_inv h1 h2 hv
    refine ⟨hlt, hvm, ?_, ?_⟩
    · omega
    · omega
  · intro hw c order p ho hp
    obtain ⟨_, hlt, _, _, hpe⟩ := plan_ok_facts h1 h2 hp
    have hvc : p.v_count = base ^ (order / 2) := by rw [hpe]
    rw [ho] at hvc hlt
    unfold kAsyncCountFactor at hlt
    rw [hvc]
    exact ⟨rfl, hpos, by omega⟩

/-- C19 (witness): base 10 with half_order 3, where `v_max` is 999 and `v_count` is 1000. -/
theorem v_count_never_wraps_witness :
    10 ^ 3 < 2 ^ 64 ∧ 999 = 10 ^ 3 - 1 ∧
      (999 + 2 ^ 64 - 0 + 1) % 2 ^ 64 = 10 ^ 3 ∧
      (999 + 2 ^ 64 - 0 + 1) % 2 ^ 64 ≠ 0 :=
  (v_count_never_wraps 10 3 (by decide) (by decide)).1 999 (by decide)

/-- C20: for every base >= 1 and every order whose planning succeeds, every hardware
concurrency and every completion order: `v_count` is `base ^ (order / 2)` and below `2 ^ 64`;
every fully merged histogram that is returned has entries that sum to exactly `v_count`, each
at most `v_count`, and with at most 64 counters per cache line and a budget above `v_count`
it is returned (no checked addition of the merge loop raises).  With such a budget, for
every sub-family of the ranges handed to the workers, taken in any order, every worker
histogram is returned with counters of at most `v_count`, and merging them with the checked
addition returns and gives counters of at most `v_count`; and for every range handed to a
worker, on a span of zeroed counters no increment `++sums[x]` of `work` wraps. -/
theorem histogram_sums_to_v_count (hw c base order : Nat) (p : Plan)
    (h1 : 0 < base) (h2 : base < 2 ^ 64) (hp : plan hw c base order = .ok p) :
    p.v_count = base ^ (order / 2) ∧ p.v_count < 2 ^ 64 ∧
    (∀ fuel ready H, merged_histogram fuel ready base p = .ok H →
      H.sum = p.v_count ∧ ∀ x ∈ H, x ≤ p.v_count) ∧
    (∀ fuel ready, c ≤ 64 → p.v_count < fuel →
      ∃ H, merged_histogram fuel ready base p = .ok H) ∧
    (∀ fuel rs, p.v_count < fuel →
      rs.Subperm (assigned_ranges p.v_count p.v_max p.asyncs_size p.works_nr) →
      ∃ hs acc, range_histograms fuel base (p.max_sum + 1) rs = .ok hs ∧
        (∀ h ∈ hs, ∀ x ∈ h, x ≤ p.v_count) ∧
        merge_all hs = .ok acc ∧ ∀ x ∈ acc, x ≤ p.v_count) ∧
    (∀ fuel, p.v_count < fuel →
      ∀ r ∈ assigned_ranges p.v_count p.v_max p.asyncs_size p.works_nr,
      ∀ off mem, off + (p.max_sum + 1) ≤ mem.length →
        (∀ s, s ≤ p.max_sum → cell mem (off + s) = 0) →
        work_wraps fuel r.1 r.2 base off (p.max_sum + 1) mem = false) := by
  have hexact : ∀ fuel ready H, merged_histogram fuel ready base p = .ok H →
      H = (List.range ((base - 1) * (order / 2) + 1)).map (cnt base 0 (base ^ (order / 2))) :=
    fun fuel ready H h => merged_histogram_ok_exact h1 h2 hp h
  have hspec : ∀ fuel ready, c ≤ 64 → base ^ (order / 2) < fuel →
      ∃ H, merged_histogram fuel ready base p = .ok H :=
    fun fuel ready hc2 hf =>
      ⟨_, merged_histogram_spec fuel ready h1 h2 (no_wrap_of_plan h1 h2 hc2 hp) hf hp⟩
  obtain ⟨_, hlt, _, _, hpeq⟩ := plan_ok_facts h1 h2 hp
  have hk : kAsyncCountFactor = 600000 := rfl
  have hVpos : 0 < base ^ (order / 2) := pow_pos h1 _
  have hV : base ^ (order / 2) < 2 ^ 64 := by omega
  have hw1 := works_nr_of_pos hw (base ^ (order / 2)) hVpos
  have hwv := works_nr_of_le hw (base ^ (order / 2)) hVpos
  have hd : ∀ fuel, base ^ (order / 2) < fuel → ∀ u, u < base ^ (order / 2) →
      digit_loop base fuel 0 u = .ok (dsum base u) ∧ dsum base u < (base - 1) * (order / 2) + 1 :=
    fun fuel hf u hu => digits_ok (order / 2) fuel h1 hV hf u (by omega)
  have hmem := @assigned_ranges_mem (base ^ (order / 2)) (works_nr_of hw (base ^ (order / 2)))
    hw1 hwv hV
  subst hpeq
  simp only []
  refine ⟨trivial, hV, ?_, hspec, ?_, ?_⟩
  · intro fuel ready H h
    rw [hexact fuel ready H h]
    refine ⟨sum_cnt h1 (order / 2), ?_⟩
    intro x hx
    rw [List.mem_map] at hx
    obtain ⟨s, _, rfl⟩ := hx
    exact cnt_le base 0 _ s
  · intro fuel rs hf hsub
    refine merge_part h1 hV hf (hd fuel hf) _ hmem ?_ rs hsub
    intro s
    rw [assigned_ranges_cnt base hw1 hwv hV s]
    exact cnt_le base 0 _ s
  · intro fuel hf r hr off mem hlen hzero
    obtain ⟨hr1, hr2⟩ := hmem r hr
    unfold work_wraps
    rw [if_neg (by omega : ¬ base = 0)]
    refine work_loop_wraps_false fuel base r.2 off _ (r.2 - r.1 + 1) r.1 mem fuel (by omega)
      (by omega) (fun u _ hu => hd fuel hf u (by omega)) hlen ?_
    intro s hs
    rw [hzero s (by omega)]
    omega

/-- C20 (witness): base 10 with order 12 on four hardware threads: a million values, two
workers; the merged histogram is returned and every merged histogram sums to `10 ^ 6`. -/
theorem histogram_sums_to_v_count_witness :
    ∃ p, plan 4 8 10 12 = .ok p ∧ p.v_count = 10 ^ (12 / 2) ∧ p.v_count < 2 ^ 64 ∧
      (∀ fuel ready H, merged_histogram fuel ready 10 p = .ok H →
        H.sum = p.v_count ∧ ∀ x ∈ H, x ≤ p.v_count) ∧
      ∃ H, merged_histogram 1000001 (fun _ => 0) 10 p = .ok H :=
  ⟨{ max_sum := 54, v_max := 999999, v_count := 1000000, asyncs_size := 1, works_nr := 2,
     u64_chunks_nr_per_work := 56, buffer_size := 112 }, by decide,
    (histogram_sums_to_v_count 4 8 10 12 _ (by decide) (by decide) (by decide)).1,
    (histogram_sums_to_v_count 4 8 10 12 _ (by decide) (by decide) (by decide)).2.1,
    (histogram_sums_to_v_count 4 8 10 12 _ (by decide) (by decide) (by decide)).2.2.1,
    (histogram_sums_to_v_count 4 8 10 12 _ (by decide) (by decide) (by decide)).2.2.2.1
      1000001 (fun _ => 0) (by decide) (by decide)⟩

end BeautifulNumber
